import Mathlib

/-!
# ThirdGraph (Galois/Graphs/Graph3.h): a shallow embedding

The distributed graph container of `Graph3.h` is embedded over an explicit memory:
node objects and partition states (`SubGraphState`) live in two stores, and a
distributed handle (`gptr<T>`) is an optional address into the store of its type.
Dereferencing a null or dangling handle, a failed `assert`, and a loop that runs out of
fuel all yield `none`.
-/

namespace Galois.Graph

/-! ## Data model -/

/-- Modelled from the spec: the handle class `gptr` (Galois/Runtime/DistSupport.h) is not
part of the sources; per the spec a handle is a nullable reference to an object, compared
by referent identity. A node handle (`gptr<GraphNode>`) is an optional address, `none`
being the null handle. -/
abbrev NodeHandle := Option Nat

/-- Modelled from the spec: a handle of a partition state (`gptr<SubGraphState>`), an
optional address as for `NodeHandle`. -/
abbrev StatePtr := Option Nat

/-- Width of the C++ type `unsigned`, the return type of `size()` and the field of `R`. -/
def unsignedBits : Nat := 32

/-- Conversion of a count to `unsigned`. -/
def toUnsigned (v : Nat) : Nat := v % 2 ^ unsignedBits

/-- Class `Edge<NHTy, EdgeDataTy>`: destination handle and payload. -/
structure Edge (EdgeDataTy : Type) where
  dst : NodeHandle
  val : EdgeDataTy
deriving DecidableEq

/-- Class `GraphNode`: the fields of `GraphNodeBase` (`nextNode`, `active`),
`GraphNodeData` (`data`) and `GraphNodeEdges<Out>` (`edges`, a deque). -/
structure GraphNode (NodeDataTy EdgeDataTy : Type) where
  nextNode : NodeHandle
  active : Bool
  data : NodeDataTy
  edges : List (Edge EdgeDataTy)
deriving DecidableEq

/-- Struct `ThirdGraph::SubGraphState`: one partition state per worker thread. -/
structure SubGraphState where
  head : NodeHandle
  next : StatePtr
  master : StatePtr
deriving DecidableEq

/-- The shared memory the handles point into: address `a` of a node handle is the
index `a` of `nodes`, address `p` of a state pointer is the index `p` of `states`. -/
structure Memory (NodeDataTy EdgeDataTy : Type) where
  nodes : List (GraphNode NodeDataTy EdgeDataTy)
  states : List SubGraphState
deriving DecidableEq

/-- Class `ThirdGraph`: its only member is `localState`, a `PerThreadStorage` of
`numThreads` consecutive `SubGraphState` slots; `localState` is the address of slot 0. -/
structure ThirdGraph where
  localState : Nat
  numThreads : Nat
deriving DecidableEq

/-- Struct `R`, the accumulator of the size reduction. -/
structure R where
  i : Nat
deriving DecidableEq

variable {NodeDataTy EdgeDataTy : Type}

/-! ## Memory access -/

/-- Modelled from the spec: the dereference of a node handle (`*N`, `N->`) is a member of
`gptr`, which is not part of the sources; per the spec (section 7) dereferencing a null
handle is a fatal precondition violation, here the result `none`, as is the dereference
of an address that holds no object. The scoped acquisition around a dereference
(`transientAcquire`, `acquire`) has no effect on a sequential run. -/
def Memory.node (m : Memory NodeDataTy EdgeDataTy) (h : NodeHandle) :
    Option (GraphNode NodeDataTy EdgeDataTy) :=
  match h with
  | none => none
  | some a => m.nodes[a]?

/-- Dereference of a partition-state pointer (`s->`). -/
def Memory.state (m : Memory NodeDataTy EdgeDataTy) (p : StatePtr) : Option SubGraphState :=
  match p with
  | none => none
  | some a => m.states[a]?

/-- Write through a node handle: the node at address `a` is replaced by `f` of itself. -/
def Memory.writeNode (m : Memory NodeDataTy EdgeDataTy) (a : Nat)
    (f : GraphNode NodeDataTy EdgeDataTy → GraphNode NodeDataTy EdgeDataTy) :
    Option (Memory NodeDataTy EdgeDataTy) :=
  match m.nodes[a]? with
  | none => none
  | some nd => some { m with nodes := m.nodes.set a (f nd) }

/-- Write through a partition-state pointer. -/
def Memory.writeState (m : Memory NodeDataTy EdgeDataTy) (a : Nat)
    (f : SubGraphState → SubGraphState) : Option (Memory NodeDataTy EdgeDataTy) :=
  match m.states[a]? with
  | none => none
  | some st => some { m with states := m.states.set a (f st) }

/-- The memory before any object is allocated. -/
def Memory.empty : Memory NodeDataTy EdgeDataTy := { nodes := [], states := [] }

/-! ## Node and edge classes -/

/-- Constructor `GraphNode(args...)`: `GraphNodeBase() : active(false)`, a null
`nextNode`, the payload built from the arguments, an empty deque. -/
def GraphNode.new (d : NodeDataTy) : GraphNode NodeDataTy EdgeDataTy :=
  { nextNode := none, active := false, data := d, edges := [] }

/-- Method `GraphNodeBase::setActive`. -/
def GraphNode.setActive (nd : GraphNode NodeDataTy EdgeDataTy) (b : Bool) :
    GraphNode NodeDataTy EdgeDataTy :=
  { nd with active := b }

/-- Method `GraphNodeEdges<Out>::createEdge`: `edges.emplace(edges.end(), dst, ...)`. -/
def GraphNode.createEdge (nd : GraphNode NodeDataTy EdgeDataTy) (dst : NodeHandle)
    (v : EdgeDataTy) : GraphNode NodeDataTy EdgeDataTy :=
  { nd with edges := nd.edges ++ [{ dst := dst, val := v }] }

/-- Method `GraphNodeEdges<Out>::clearEdges`: `edges.clear()`. -/
def GraphNode.clearEdges (nd : GraphNode NodeDataTy EdgeDataTy) :
    GraphNode NodeDataTy EdgeDataTy :=
  { nd with edges := [] }

/-- Constructor `SubGraphState() : head(), next(), master(this)`. -/
def SubGraphState.new (self : Nat) : SubGraphState :=
  { head := none, next := none, master := some self }

namespace ThirdGraph

/-! ## Construction -/

/-- Modelled from the spec: `PerThreadStorage` (Galois/Runtime/PerThreadStorage.h) is not
part of the sources; per the spec the container owns one partition state per worker, a
slot keyed by worker id, reached by index and as the slot of the current worker. The call
`localState.getLocal(i)` gives the address of slot `i` of the `numThreads` slots, and
`localState.getLocal()` is `getLocal tid` for the calling worker `tid`. -/
def getLocal (g : ThirdGraph) (i : Nat) : StatePtr :=
  if i < g.numThreads then some (g.localState + i) else none

/-- One iteration of the constructor loop:
`lState->master.initialize(first); if (i != numThreads-1) lState->next.initialize(getLocal(i+1))`. -/
def ctorStep (g : ThirdGraph) (first : Nat) (m : Memory NodeDataTy EdgeDataTy) (i : Nat) :
    Option (Memory NodeDataTy EdgeDataTy) :=
  match g.getLocal i with
  | none => none
  | some lState =>
    match m.writeState lState (fun st => { st with master := some first }) with
    | none => none
    | some m1 =>
      if i ≠ g.numThreads - 1 then
        match g.getLocal (i + 1) with
        | none => none
        | some nxt => m1.writeState lState (fun st => { st with next := some nxt })
      else some m1

/-- The loop `for (unsigned i = 0; i < numThreads; i++)` of the constructor. -/
def ctorLoop (g : ThirdGraph) (first : Nat) :
    List Nat → Memory NodeDataTy EdgeDataTy → Option (Memory NodeDataTy EdgeDataTy)
  | [], m => some m
  | i :: is, m =>
    match ctorStep g first m i with
    | none => none
    | some m1 => ctorLoop g first is m1

/-- Constructor `ThirdGraph()` run in memory `m` with `getMaxThreads() = numThreads`:
the per-thread storage default-constructs its slots (`SubGraphState()`), then the loop
links them. -/
def new (numThreads : Nat) (m : Memory NodeDataTy EdgeDataTy) :
    Option (ThirdGraph × Memory NodeDataTy EdgeDataTy) :=
  let g : ThirdGraph := { localState := m.states.length, numThreads := numThreads }
  let m0 : Memory NodeDataTy EdgeDataTy :=
    { m with states := m.states ++
        (List.range numThreads).map (fun i => SubGraphState.new (m.states.length + i)) }
  match ctorLoop g g.localState (List.range numThreads) m0 with
  | none => none
  | some m1 => some (g, m1)

/-! ## Node and edge operations -/

/-- Method `createNode(args...)` called by worker `tid`. -/
def createNode (g : ThirdGraph) (tid : Nat) (d : NodeDataTy)
    (m : Memory NodeDataTy EdgeDataTy) :
    Option (NodeHandle × Memory NodeDataTy EdgeDataTy) :=
  -- NodeHandle N(new gNode(args...))
  let N : Nat := m.nodes.length
  let m0 : Memory NodeDataTy EdgeDataTy := { m with nodes := m.nodes ++ [GraphNode.new d] }
  match g.getLocal tid with
  | none => none
  | some lStatePtr =>
    match m0.states[lStatePtr]? with
    | none => none
    | some lState =>
      -- N->getNextNode() = lState->head
      match m0.writeNode N (fun nd => { nd with nextNode := lState.head }) with
      | none => none
      | some m1 =>
        -- lState->head = N
        match m1.writeState lStatePtr (fun st => { st with head := some N }) with
        | none => none
        | some m2 => some (some N, m2)

/-- Method `addNode(N)`: `N->setActive(true)`. -/
def addNode (N : NodeHandle) (m : Memory NodeDataTy EdgeDataTy) :
    Option (Memory NodeDataTy EdgeDataTy) :=
  match N with
  | none => none
  | some a => m.writeNode a (fun nd => nd.setActive true)

/-- Method `removeNode(N)`:
`if (N->getActive()) { N->setActive(false); N->clearEdges(); }`. -/
def removeNode (N : NodeHandle) (m : Memory NodeDataTy EdgeDataTy) :
    Option (Memory NodeDataTy EdgeDataTy) :=
  match N with
  | none => none
  | some a =>
    match m.nodes[a]? with
    | none => none
    | some nd =>
      if nd.active then
        match m.writeNode a (fun x => x.setActive false) with
        | none => none
        | some m1 => m1.writeNode a (fun x => x.clearEdges)
      else some m

/-- Method `addEdge(src, dst)`: `assert(src); assert(dst); src->createEdge(src, dst)`.
The two-argument `createEdge` stores an edge without constructor arguments for the
payload, here the default value. -/
def addEdge [Inhabited EdgeDataTy] (src dst : NodeHandle) (m : Memory NodeDataTy EdgeDataTy) :
    Option (Memory NodeDataTy EdgeDataTy) :=
  match src, dst with
  | some a, some _ => m.writeNode a (fun nd => nd.createEdge dst default)
  | _, _ => none

/-- Method `containsNode(N)`: `assert(N); return N->getActive()`. -/
def containsNode (N : NodeHandle) (m : Memory NodeDataTy EdgeDataTy) : Option Bool :=
  match m.node N with
  | none => none
  | some nd => some nd.active

/-- Method `getData(N)`: `assert(N); return N->getData()`. -/
def getData (N : NodeHandle) (m : Memory NodeDataTy EdgeDataTy) : Option NodeDataTy :=
  match m.node N with
  | none => none
  | some nd => some nd.data

/-! ## Global iterator (class `ThirdGraph::iterator`) -/

/-- Class `ThirdGraph::iterator`: the current node `n` and the partition link `s`. -/
structure iterator where
  n : NodeHandle
  s : StatePtr
deriving DecidableEq

namespace iterator

/-- The inner loop `while (!n && s->next) { s = s->next; n = s->head; }`;
`fuel` bounds the number of iterations. -/
def hop (m : Memory NodeDataTy EdgeDataTy) : Nat → iterator → Option iterator
  | 0, _ => none
  | fuel + 1, it =>
    match it.n with
    | some _ => some it
    | none =>
      match m.state it.s with
      | none => none
      | some st =>
        match st.next with
        | none => some it
        | some p =>
          match m.state (some p) with
          | none => none
          | some st1 => hop m fuel { n := st1.head, s := some p }

/-- The loop `do { n = n->getNextNode(); while (...) {...} } while (n && !(n->getActive()))`
of `iterator::next`. -/
def nextLoop (m : Memory NodeDataTy EdgeDataTy) : Nat → iterator → Option iterator
  | 0, _ => none
  | fuel + 1, it =>
    match m.node it.n with
    | none => none
    | some nd =>
      match hop m (fuel + 1) { n := nd.nextNode, s := it.s } with
      | none => none
      | some it1 =>
        match it1.n with
        | none => some it1
        | some a =>
          match m.nodes[a]? with
          | none => none
          | some nd1 => if nd1.active then some it1 else nextLoop m fuel it1

/-- The statement `if (!n) s.initialize(nullptr);`. -/
def clearAtEnd (it : iterator) : iterator :=
  match it.n with
  | none => { it with s := none }
  | some _ => it

/-- Method `iterator::next` (and so `operator++`). -/
def next (m : Memory NodeDataTy EdgeDataTy) (fuel : Nat) (it : iterator) : Option iterator :=
  match nextLoop m fuel it with
  | none => none
  | some it1 => some (clearAtEnd it1)

/-- Constructor `iterator(ms)`: `n(ms->head), s(ms)`, the hop loop,
`if (n && !(n->getActive())) next(); if (!n) s.initialize(nullptr);`. -/
def new (m : Memory NodeDataTy EdgeDataTy) (fuel : Nat) (ms : StatePtr) : Option iterator :=
  match m.state ms with
  | none => none
  | some st =>
    match hop m fuel { n := st.head, s := ms } with
    | none => none
    | some it1 =>
      match it1.n with
      | none => some (clearAtEnd it1)
      | some a =>
        match m.nodes[a]? with
        | none => none
        | some nd =>
          if nd.active then some (clearAtEnd it1)
          else
            match next m fuel it1 with
            | none => none
            | some it2 => some (clearAtEnd it2)

/-- Constructor `iterator() : n(), s()`, the value of `end()`. -/
def nil : iterator := { n := none, s := none }

/-- The nodes `*it` visited by `for (; it != end(); ++it)`; `operator!=` compares `n` only. -/
def toList (m : Memory NodeDataTy EdgeDataTy) : Nat → iterator → Option (List Nat)
  | 0, _ => none
  | fuel + 1, it =>
    match it.n with
    | none => some []
    | some a =>
      match next m (fuel + 1) it with
      | none => none
      | some it1 =>
        match toList m fuel it1 with
        | none => none
        | some xs => some (a :: xs)

/-- Function `std::distance(first, last)` on forward iterators: the number of
increments of `first` until `first == last` (`operator==` compares `n` only). -/
def distance (m : Memory NodeDataTy EdgeDataTy) : Nat → iterator → iterator → Option Nat
  | 0, _, _ => none
  | fuel + 1, first, last =>
    if first.n = last.n then some 0
    else
      match next m (fuel + 1) first with
      | none => none
      | some it1 =>
        match distance m fuel it1 last with
        | none => none
        | some d => some (d + 1)

end iterator

/-- Method `begin()` called by worker `tid`: `iterator(localState.getLocal()->master)`. -/
def begin (g : ThirdGraph) (tid : Nat) (m : Memory NodeDataTy EdgeDataTy) (fuel : Nat) :
    Option iterator :=
  match m.state (g.getLocal tid) with
  | none => none
  | some lState => iterator.new m fuel lState.master

/-- Method `end()`: `iterator()`. -/
def end_ : iterator := iterator.nil

/-- The global iteration `begin(), ++, ...` up to `end()` as seen by worker `tid`. -/
def globalNodes (g : ThirdGraph) (tid : Nat) (m : Memory NodeDataTy EdgeDataTy) (fuel : Nat) :
    Option (List Nat) :=
  match g.begin tid m fuel with
  | none => none
  | some it => it.toList m fuel

/-- Method `unsigned size()`: `return std::distance(begin(), end());`. -/
def size (g : ThirdGraph) (tid : Nat) (m : Memory NodeDataTy EdgeDataTy) (fuel : Nat) :
    Option Nat :=
  match g.begin tid m fuel with
  | none => none
  | some it =>
    match it.distance m fuel end_ with
    | none => none
    | some d => some (toUnsigned d)

/-! ## Local iterator (class `ThirdGraph::local_iterator`) -/

/-- Class `ThirdGraph::local_iterator`: the current node only. -/
structure local_iterator where
  n : NodeHandle
deriving DecidableEq

namespace local_iterator

/-- The loop `while (n && !n->getActive()) n = n->getNextNode();`. -/
def skip (m : Memory NodeDataTy EdgeDataTy) : Nat → NodeHandle → Option NodeHandle
  | 0, _ => none
  | _ + 1, none => some none
  | fuel + 1, some a =>
    match m.nodes[a]? with
    | none => none
    | some nd => if nd.active then some (some a) else skip m fuel nd.nextNode

/-- Method `local_iterator::next` (and so `operator++`). -/
def next (m : Memory NodeDataTy EdgeDataTy) (fuel : Nat) (it : local_iterator) :
    Option local_iterator :=
  match m.node it.n with
  | none => none
  | some nd =>
    match skip m fuel nd.nextNode with
    | none => none
    | some h => some { n := h }

/-- Copy constructor `local_iterator(const local_iterator& mit)`:
`n(mit.n)`, then `if (n && !n->getActive()) next();`. -/
def copy (m : Memory NodeDataTy EdgeDataTy) (fuel : Nat) (mit : local_iterator) :
    Option local_iterator :=
  match mit.n with
  | none => some mit
  | some a =>
    match m.nodes[a]? with
    | none => none
    | some nd => if nd.active then some mit else next m fuel mit

/-- The counting loop of `std::distance`: `while (first != last) { ++first; ++n; }`. -/
def distanceLoop (m : Memory NodeDataTy EdgeDataTy) :
    Nat → local_iterator → local_iterator → Option Nat
  | 0, _, _ => none
  | fuel + 1, first, last =>
    if first.n = last.n then some 0
    else
      match next m (fuel + 1) first with
      | none => none
      | some it1 =>
        match distanceLoop m fuel it1 last with
        | none => none
        | some d => some (d + 1)

/-- Function `std::distance(first, last)` on local iterators. The standard library
receives both iterators by value and hands them by value to the helper selected by the
iterator category, so each is copy-constructed from an lvalue before the counting loop. -/
def distance (m : Memory NodeDataTy EdgeDataTy) (fuel : Nat) (first last : local_iterator) :
    Option Nat :=
  match copy m fuel first, copy m fuel last with
  | some f1, some l1 => distanceLoop m fuel f1 l1
  | _, _ => none

/-- The nodes `*it` visited by `for (it = first; it != local_end(); ++it)`, where `first`
is used as it was returned (no copy is made). -/
def toList (m : Memory NodeDataTy EdgeDataTy) : Nat → local_iterator → Option (List Nat)
  | 0, _ => none
  | fuel + 1, it =>
    match it.n with
    | none => some []
    | some a =>
      match next m (fuel + 1) it with
      | none => none
      | some it1 =>
        match toList m fuel it1 with
        | none => none
        | some xs => some (a :: xs)

end local_iterator

/-- Method `local_begin()` called by worker `tid`:
`return local_iterator(localState.getLocal()->head);` (the explicit constructor; the
returned temporary is not copied). -/
def local_begin (g : ThirdGraph) (tid : Nat) (m : Memory NodeDataTy EdgeDataTy) :
    Option local_iterator :=
  match m.state (g.getLocal tid) with
  | none => none
  | some lState => some { n := lState.head }

/-- Method `local_end()`: `local_iterator()`. -/
def local_end : local_iterator := { n := none }

end ThirdGraph

/-! ## Size reduction (`R`, `f`, `ThirdGraphSize`) -/

/-- Constructor `R() : i(0)`. -/
def R.new : R := { i := 0 }

/-- Method `R::add`: `i += v` on `unsigned`. -/
def R.add (r : R) (v : Nat) : R := { i := toUnsigned (r.i + v) }

/-- Call operator of `f` run by worker `tid`:
`unsigned size = std::distance(graph->local_begin(), graph->local_end()); r->add(size);`. -/
def f.call (g : ThirdGraph) (m : Memory NodeDataTy EdgeDataTy) (fuel : Nat) (r : R)
    (tid : Nat) : Option R :=
  match g.local_begin tid m with
  | none => none
  | some b =>
    match b.distance m fuel ThirdGraph.local_end with
    | none => none
    | some d => some (r.add (toUnsigned d))

/-- Modelled from the spec: `Galois::on_each` is not part of the sources; per the spec it
"runs a per-worker callback", here once for each worker of the host in turn, all adding
into the same accumulator. -/
def on_each (g : ThirdGraph) (m : Memory NodeDataTy EdgeDataTy) (fuel : Nat) :
    List Nat → R → Option R
  | [], r => some r
  | tid :: tids, r =>
    match f.call g m fuel r tid with
    | none => none
    | some r1 => on_each g m fuel tids r1

/-- Function `ThirdGraphSize(g)`: `R tmp; on_each(f(r, g)); return r->i;`. -/
def ThirdGraphSize (g : ThirdGraph) (m : Memory NodeDataTy EdgeDataTy) (fuel : Nat) :
    Option Nat :=
  match on_each g m fuel (List.range g.numThreads) R.new with
  | none => none
  | some r => some r.i

namespace ThirdGraph

/-! ## Edge iteration -/

/-- Functor `is_edge`: `n.getDst()->getActive()`. -/
def is_edge (m : Memory NodeDataTy EdgeDataTy) (e : Edge EdgeDataTy) : Option Bool :=
  match m.node e.dst with
  | none => none
  | some nd => some nd.active

/-- Type `edge_iterator`, a `boost::filter_iterator<is_edge, deque iterator>`: the
position `base` in the source node's deque, kept as the part of the deque from that
position to its end (the end position is the empty list). -/
structure edge_iterator (EdgeDataTy : Type) where
  base : List (Edge EdgeDataTy)
deriving DecidableEq

namespace edge_iterator

/-- Member `satisfy_predicate` of the filter iterator:
`while (m_iter != m_end && !m_predicate(*m_iter)) ++m_iter;`. -/
def satisfy_predicate (m : Memory NodeDataTy EdgeDataTy) :
    List (Edge EdgeDataTy) → Option (List (Edge EdgeDataTy))
  | [] => some []
  | e :: es =>
    match is_edge m e with
    | none => none
    | some true => some (e :: es)
    | some false => satisfy_predicate m es

/-- Increment of the filter iterator: `++m_iter; satisfy_predicate();`. -/
def increment (m : Memory NodeDataTy EdgeDataTy) (it : edge_iterator EdgeDataTy) :
    Option (edge_iterator EdgeDataTy) :=
  match it.base with
  | [] => none
  | _ :: es =>
    match satisfy_predicate m es with
    | none => none
    | some r => some { base := r }

/-- Equality of two filter iterators into the same deque: the same base position. -/
def eq (a b : edge_iterator EdgeDataTy) : Bool := a.base.length == b.base.length

/-- The edges `*ii` visited by `for (; ii != last; ++ii)`. -/
def toList (m : Memory NodeDataTy EdgeDataTy) :
    Nat → edge_iterator EdgeDataTy → edge_iterator EdgeDataTy → Option (List (Edge EdgeDataTy))
  | 0, _, _ => none
  | fuel + 1, ii, last =>
    if ii.eq last then some []
    else
      match ii.base with
      | [] => none
      | e :: _ =>
        match increment m ii with
        | none => none
        | some ii1 =>
          match toList m fuel ii1 last with
          | none => none
          | some es => some (e :: es)

end edge_iterator

/-- The second loop of `edge_begin`, which evaluates `ii->getDst()->getActive()` on every
edge of the deque. -/
def lockLoop (m : Memory NodeDataTy EdgeDataTy) : List (Edge EdgeDataTy) → Option Unit
  | [] => some ()
  | e :: es =>
    match is_edge m e with
    | none => none
    | some _ => lockLoop m es

/-- Method `edge_begin(N)`: `assert(N)`, the prefetch and lock loops, then
`make_filter_iterator(is_edge(), N->begin(), N->end())`. -/
def edge_begin (N : NodeHandle) (m : Memory NodeDataTy EdgeDataTy) :
    Option (edge_iterator EdgeDataTy) :=
  match m.node N with
  | none => none
  | some nd =>
    match lockLoop m nd.edges with
    | none => none
    | some _ =>
      match edge_iterator.satisfy_predicate m nd.edges with
      | none => none
      | some r => some { base := r }

/-- Method `edge_end(N)`: `assert(N)`, then
`make_filter_iterator(is_edge(), N->end(), N->end())`. -/
def edge_end (N : NodeHandle) (m : Memory NodeDataTy EdgeDataTy) :
    Option (edge_iterator EdgeDataTy) :=
  match m.node N with
  | none => none
  | some _ => some { base := [] }

/-- The traversal `for (ii = edge_begin(N); ii != edge_end(N); ++ii)` of the edges of `N`. -/
def edges (N : NodeHandle) (m : Memory NodeDataTy EdgeDataTy) (fuel : Nat) :
    Option (List (Edge EdgeDataTy)) :=
  match edge_begin N m, edge_end N m with
  | some b, some e => b.toList m fuel e
  | _, _ => none

/-- Method `getEdgeDst(ii)`: `assert(ii->getDst()->getActive()); return ii->getDst();`. -/
def getEdgeDst (ii : edge_iterator EdgeDataTy) (m : Memory NodeDataTy EdgeDataTy) :
    Option NodeHandle :=
  match ii.base with
  | [] => none
  | e :: _ =>
    match is_edge m e with
    | some true => some e.dst
    | _ => none

/-! ## Serialization -/

/-- Method `serialize` called by worker `tid`: the buffer receives `lState->master` only. -/
def serialize (g : ThirdGraph) (tid : Nat) (m : Memory NodeDataTy EdgeDataTy) :
    Option StatePtr :=
  match m.state (g.getLocal tid) with
  | none => none
  | some lState => some lState.master

/-- The loop of `deserialize`:
`if (i == getTID()) continue; localState.getLocal(i)->master = lState->master;`. -/
def deserLoop (g : ThirdGraph) (tid lStatePtr : Nat) :
    List Nat → Memory NodeDataTy EdgeDataTy → Option (Memory NodeDataTy EdgeDataTy)
  | [], m => some m
  | i :: is, m =>
    if i = tid then deserLoop g tid lStatePtr is m
    else
      match g.getLocal i, m.states[lStatePtr]? with
      | some p, some lState =>
        match m.writeState p (fun st => { st with master := lState.master }) with
        | none => none
        | some m1 => deserLoop g tid lStatePtr is m1
      | _, _ => none

/-- Method `deserialize` called by worker `tid` on a buffer holding the handle `s`. -/
def deserialize (g : ThirdGraph) (tid : Nat) (s : StatePtr)
    (m : Memory NodeDataTy EdgeDataTy) : Option (Memory NodeDataTy EdgeDataTy) :=
  match g.getLocal tid with
  | none => none
  | some lStatePtr =>
    -- gDeserialize(s, lState->master)
    match m.writeState lStatePtr (fun st => { st with master := s }) with
    | none => none
    | some m1 =>
      match deserLoop g tid lStatePtr (List.range g.numThreads) m1 with
      | none => none
      | some m2 =>
        -- SubGraphState* mState = lState->master.transientAcquire()
        match m2.states[lStatePtr]? with
        | none => none
        | some lState =>
          match lState.master, g.getLocal (g.numThreads - 1) with
          | some mPtr, some lastPtr =>
            match m2.states[mPtr]? with
            | none => none
            | some mState =>
              -- lastState->next = mState->next
              match m2.writeState lastPtr (fun st => { st with next := mState.next }) with
              | none => none
              | some m3 =>
                -- mState->next.initialize(lState)
                m3.writeState mPtr (fun st => { st with next := some lStatePtr })
          | _, _ => none

/-! ## Call sequences -/

/-- A call of one of the mutating container methods; `createNode` names the calling
worker, whose partition it touches. -/
inductive Op (NodeDataTy : Type) where
  | createNode (tid : Nat) (d : NodeDataTy)
  | addNode (N : NodeHandle)
  | removeNode (N : NodeHandle)
  | addEdge (src dst : NodeHandle)
deriving DecidableEq

/-- The memory after one call. -/
def step [Inhabited EdgeDataTy] (g : ThirdGraph) (m : Memory NodeDataTy EdgeDataTy) :
    Op NodeDataTy → Option (Memory NodeDataTy EdgeDataTy)
  | Op.createNode tid d =>
    match g.createNode tid d m with
    | none => none
    | some r => some r.2
  | Op.addNode N => addNode N m
  | Op.removeNode N => removeNode N m
  | Op.addEdge src dst => addEdge src dst m

/-- The memory after a sequence of calls, each of which must succeed. -/
def run [Inhabited EdgeDataTy] (g : ThirdGraph) :
    List (Op NodeDataTy) → Memory NodeDataTy EdgeDataTy → Option (Memory NodeDataTy EdgeDataTy)
  | [], m => some m
  | op :: ops, m =>
    match step g m op with
    | none => none
    | some m1 => run g ops m1

/-- Memory `m` holds container `g`, built by the constructor for `numThreads` workers in
an empty memory and then driven by the calls `ops`. -/
def ReachedBy [Inhabited EdgeDataTy] (numThreads : Nat) (ops : List (Op NodeDataTy))
    (g : ThirdGraph) (m : Memory NodeDataTy EdgeDataTy) : Prop :=
  ∃ m0, ThirdGraph.new numThreads (Memory.empty : Memory NodeDataTy EdgeDataTy) = some (g, m0) ∧
    run g ops m0 = some m

end ThirdGraph

/-! ## Shape of the linked structure -/

/-- Following `nextNode` from handle `h` visits the addresses `L`, in order, and then
reaches the null handle. -/
def Memory.nodeList (m : Memory NodeDataTy EdgeDataTy) : NodeHandle → List Nat → Prop
  | h, [] => h = none
  | h, a :: L => h = some a ∧ ∃ nd, m.nodes[a]? = some nd ∧ Memory.nodeList m nd.nextNode L

/-- Following `next` from partition pointer `p` visits the partitions listed in `c`, in
order, each given with the node list hanging off its `head`, and then reaches null. -/
def Memory.chain (m : Memory NodeDataTy EdgeDataTy) :
    StatePtr → List (Nat × List Nat) → Prop
  | p, [] => p = none
  | p, (a, L) :: c =>
    p = some a ∧ ∃ st, m.states[a]? = some st ∧ m.nodeList st.head L ∧ Memory.chain m st.next c

/-- The active flag of the node at address `a` (false when there is no such node). -/
def Memory.isActive (m : Memory NodeDataTy EdgeDataTy) (a : Nat) : Bool :=
  match m.nodes[a]? with
  | none => false
  | some nd => nd.active

/-- All nodes of a chain, partition after partition. -/
def chainNodes (c : List (Nat × List Nat)) : List Nat :=
  c.flatMap (fun x => x.2)

/-- Number of links of a chain: one per node and one per partition. -/
def chainLinks (c : List (Nat × List Nat)) : Nat :=
  (c.map (fun x => x.2.length + 1)).sum

/-- Every node of `m` is still present in `m1`, with the same `nextNode`. -/
def Memory.NextKept (m m1 : Memory NodeDataTy EdgeDataTy) : Prop :=
  ∀ (a : Nat) (nd : GraphNode NodeDataTy EdgeDataTy), m.nodes[a]? = some nd →
    ∃ nd1, m1.nodes[a]? = some nd1 ∧ nd1.nextNode = nd.nextNode

/-- Global iterator `it` stands inside a chain: `cur` are the nodes from its current node
to the end of the current partition's list, `c` the partitions after the current one. -/
def Memory.Stands (m : Memory NodeDataTy EdgeDataTy) (it : ThirdGraph.iterator)
    (cur : List Nat) (c : List (Nat × List Nat)) : Prop :=
  m.nodeList it.n cur ∧ ∃ p st, it.s = some p ∧ m.states[p]? = some st ∧ m.chain st.next c

/-- Number of nodes in memory whose active flag is set. -/
def Memory.activeCount (m : Memory NodeDataTy EdgeDataTy) : Nat :=
  m.nodes.countP (fun nd => nd.active)

/-- Shape of the memory of a container built in an empty memory and not yet spliced into
another chain: its slots are all the partition states, every slot has slot 0 as master
and the following slot as `next`, slot `i` heads the node list `Ls i`, and every node in
memory is in exactly one of these lists. -/
structure ThirdGraph.Shaped (g : ThirdGraph) (m : Memory NodeDataTy EdgeDataTy)
    (Ls : Nat → List Nat) : Prop where
  base : g.localState = 0
  slots : m.states.length = g.numThreads
  links : ∀ (i : Nat) (st : SubGraphState), m.states[i]? = some st →
    st.master = some 0 ∧ st.next = if i + 1 < g.numThreads then some (i + 1) else none
  lists : ∀ (i : Nat) (st : SubGraphState), m.states[i]? = some st → m.nodeList st.head (Ls i)
  owns : ((List.range g.numThreads).flatMap Ls).Perm (List.range m.nodes.length)

/-- The active flag of the destination of edge `e` (false when the handle cannot be
dereferenced). -/
def Memory.edgeLive (m : Memory NodeDataTy EdgeDataTy) (e : Edge EdgeDataTy) : Bool :=
  match m.node e.dst with
  | none => false
  | some nd => nd.active

/-- The destination handle of every edge in `es` refers to a node in memory. -/
def Memory.dstValid (m : Memory NodeDataTy EdgeDataTy) (es : List (Edge EdgeDataTy)) : Prop :=
  ∀ e ∈ es, ∃ nd, m.node e.dst = some nd

/-- The call sequence in which worker 0 creates and activates `k` nodes, one after the
other. -/
def ThirdGraph.fillOps (k : Nat) : List (ThirdGraph.Op Unit) :=
  (List.range k).flatMap
    (fun i => [ThirdGraph.Op.createNode 0 (), ThirdGraph.Op.addNode (some i)])

/-! ## Concrete containers -/

/-- A container for two workers built in an empty memory. -/
def demoGraph : ThirdGraph := { localState := 0, numThreads := 2 }

/-- The memory right after the construction of `demoGraph`. -/
def demoFresh : Memory Nat Unit :=
  { nodes := [],
    states := [{ head := none, next := some 1, master := some 0 },
               { head := none, next := none, master := some 0 }] }

/-- Worker 0 creates nodes 0, 1, 2 and activates them, node 0 gets edges to 1 and 2,
node 1 is removed, then worker 1 creates and activates node 3. -/
def demoOps : List (ThirdGraph.Op Nat) :=
  [ThirdGraph.Op.createNode 0 10, ThirdGraph.Op.createNode 0 11, ThirdGraph.Op.createNode 0 12,
   ThirdGraph.Op.addNode (some 0), ThirdGraph.Op.addNode (some 1), ThirdGraph.Op.addNode (some 2),
   ThirdGraph.Op.addEdge (some 0) (some 1), ThirdGraph.Op.addEdge (some 0) (some 2),
   ThirdGraph.Op.removeNode (some 1),
   ThirdGraph.Op.createNode 1 5, ThirdGraph.Op.addNode (some 3)]

/-- The memory after `demoOps`. -/
def demoMemory : Memory Nat Unit :=
  { nodes := [{ nextNode := none, active := true, data := 10,
                edges := [{ dst := some 1, val := () }, { dst := some 2, val := () }] },
              { nextNode := some 0, active := false, data := 11, edges := [] },
              { nextNode := some 1, active := true, data := 12, edges := [] },
              { nextNode := none, active := true, data := 5, edges := [] }],
    states := [{ head := some 2, next := some 1, master := some 0 },
               { head := some 3, next := none, master := some 0 }] }

/-- Worker 0 creates node 0 and, without activating it, gives it an edge to itself. -/
def loopOps : List (ThirdGraph.Op Nat) :=
  [ThirdGraph.Op.createNode 0 10, ThirdGraph.Op.addEdge (some 0) (some 0)]

/-- The memory after `loopOps` in a fresh `demoGraph`. -/
def loopMemory : Memory Nat Unit :=
  { nodes := [{ nextNode := none, active := false, data := 10,
                edges := [{ dst := some 0, val := () }] }],
    states := [{ head := some 0, next := some 1, master := some 0 },
               { head := none, next := none, master := some 0 }] }

/-- A second two-worker container, built after `demoGraph` in the same memory. -/
def destGraph : ThirdGraph := { localState := 2, numThreads := 2 }

/-- The memory holding the freshly built `demoGraph` and `destGraph`. -/
def twoFresh : Memory Nat Unit :=
  { nodes := [],
    states := [{ head := none, next := some 1, master := some 0 },
               { head := none, next := none, master := some 0 },
               { head := none, next := some 3, master := some 2 },
               { head := none, next := none, master := some 2 }] }

/-! ## Further operations and call sequences -/

/-- Operator `==` of the global iterator: `n == rhs.n`. -/
def ThirdGraph.iterator.eq (a b : ThirdGraph.iterator) : Bool := decide (a.n = b.n)

/-- The position reached from `it` by `k` increments of the edge iterator. -/
def ThirdGraph.edge_iterator.advance (m : Memory NodeDataTy EdgeDataTy) :
    Nat → ThirdGraph.edge_iterator EdgeDataTy → Option (ThirdGraph.edge_iterator EdgeDataTy)
  | 0, it => some it
  | k + 1, it =>
    match ThirdGraph.edge_iterator.increment m it with
    | none => none
    | some it1 => ThirdGraph.edge_iterator.advance m k it1

/-- A call on a container: one of the node and edge operations, or `deserialize` by
worker `tid` on a buffer holding the handle `s`. -/
inductive ThirdGraph.Call (NodeDataTy : Type) where
  | op (o : ThirdGraph.Op NodeDataTy)
  | deserialize (tid : Nat) (s : StatePtr)
deriving DecidableEq

/-- The memory after one call of either kind. -/
def ThirdGraph.stepCall [Inhabited EdgeDataTy] (g : ThirdGraph)
    (m : Memory NodeDataTy EdgeDataTy) :
    ThirdGraph.Call NodeDataTy → Option (Memory NodeDataTy EdgeDataTy)
  | ThirdGraph.Call.op o => ThirdGraph.step g m o
  | ThirdGraph.Call.deserialize tid s => g.deserialize tid s m

/-- The memory after a sequence of calls of either kind, each of which must succeed. -/
def ThirdGraph.runCalls [Inhabited EdgeDataTy] (g : ThirdGraph) :
    List (ThirdGraph.Call NodeDataTy) → Memory NodeDataTy EdgeDataTy →
      Option (Memory NodeDataTy EdgeDataTy)
  | [], m => some m
  | c :: cs, m =>
    match ThirdGraph.stepCall g m c with
    | none => none
    | some m1 => ThirdGraph.runCalls g cs m1

/-- The handle of the last `deserialize` call of a sequence, or `M` when there is none. -/
def ThirdGraph.masterAfter : List (ThirdGraph.Call NodeDataTy) → StatePtr → StatePtr
  | [], M => M
  | ThirdGraph.Call.op _ :: cs, M => ThirdGraph.masterAfter cs M
  | ThirdGraph.Call.deserialize _ s :: cs, _ => ThirdGraph.masterAfter cs s

/-- The scenario of the spec: worker 0 creates three nodes (addresses 0, 1, 2) with the
given payloads and activates them, the first node gets edges to the second and to the
third, and the second node is removed. -/
def scenarioOps (a b c : NodeDataTy) : List (ThirdGraph.Op NodeDataTy) :=
  [ThirdGraph.Op.createNode 0 a, ThirdGraph.Op.createNode 0 b, ThirdGraph.Op.createNode 0 c,
   ThirdGraph.Op.addNode (some 0), ThirdGraph.Op.addNode (some 1), ThirdGraph.Op.addNode (some 2),
   ThirdGraph.Op.addEdge (some 0) (some 1), ThirdGraph.Op.addEdge (some 0) (some 2),
   ThirdGraph.Op.removeNode (some 1)]

/-- The memory of `demoGraph` after worker 0 has created node 0 and nothing else. -/
def pendingMemory : Memory Nat Unit :=
  { nodes := [{ nextNode := none, active := false, data := 10, edges := [] }],
    states := [{ head := some 0, next := some 1, master := some 0 },
               { head := none, next := none, master := some 0 }] }

/-- The memory `demoMemory` of `demoGraph` together with the freshly built `destGraph`. -/
def spliceStart : Memory Nat Unit :=
  { nodes := demoMemory.nodes,
    states := [{ head := some 2, next := some 1, master := some 0 },
               { head := some 3, next := none, master := some 0 },
               { head := none, next := some 3, master := some 2 },
               { head := none, next := none, master := some 2 }] }

/-- Worker 1 of `destGraph` deserializes the master handle of `demoGraph`, then worker 0
of `destGraph` creates a node. -/
def spliceCalls : List (ThirdGraph.Call Nat) :=
  [ThirdGraph.Call.deserialize 1 (some 0),
   ThirdGraph.Call.op (ThirdGraph.Op.createNode 0 7)]

/-- The memory after `spliceCalls` on `destGraph` in `spliceStart`. -/
def splicedMemory : Memory Nat Unit :=
  { nodes := demoMemory.nodes ++
      [{ nextNode := none, active := false, data := 7, edges := [] }],
    states := [{ head := some 2, next := some 3, master := some 0 },
               { head := some 3, next := none, master := some 0 },
               { head := some 4, next := some 3, master := some 0 },
               { head := none, next := some 1, master := some 0 }] }

/-! ## Wire format of nodes, edges and partition states -/

/-- Modelled from the spec: the classes `SerializeBuffer` and `DeSerializeBuffer`
(Galois/Runtime/Serialize.h) are not part of the sources; per the spec a "generic binary
buffer" with "push/pull of primitive values, handles, and nested serializable
structures". A buffer is the sequence of words written so far: a push appends at its
end, a pull takes from its front. -/
abbrev Buffer := List Nat

/-- Modelled from the spec: the push and the pull of one value of a primitive type, the
part of `gSerialize` / `gDeserialize` that the sources do not contain. A pull returns
the value and the rest of the buffer, or fails on a buffer it cannot read. -/
structure Prim (α : Type) where
  push : α → Buffer
  pull : Buffer → Option (α × Buffer)

/-- The primitive round-trips: a pull from what a push wrote, whatever follows it, gives
the value back and leaves what follows. -/
def Prim.RoundTrips {α : Type} (p : Prim α) : Prop :=
  ∀ (x : α) (rest : Buffer), p.pull (p.push x ++ rest) = some (x, rest)

/-- The primitives the container uses: handles (`gptr`), `bool`, the node payload, the
edge payload, and the element count of a sequence. -/
structure Wire (NodeDataTy EdgeDataTy : Type) where
  handle : Prim (Option Nat)
  flag : Prim Bool
  data : Prim NodeDataTy
  val : Prim EdgeDataTy
  count : Prim Nat

/-- Method `Edge::serialize`: `gSerialize(s, dst, val)`, the arguments written from left
to right. The specialization `Edge<NHTy, void>` writes `dst` alone, the case of a payload
primitive that writes nothing. -/
def Edge.serialize (w : Wire NodeDataTy EdgeDataTy) (e : Edge EdgeDataTy) (s : Buffer) :
    Buffer :=
  s ++ w.handle.push e.dst ++ w.val.push e.val

/-- Method `Edge::deserialize`: `gDeserialize(s, dst, val)`, which overwrites both
fields of the edge. -/
def Edge.deserialize (w : Wire NodeDataTy EdgeDataTy) (s : Buffer) :
    Option (Edge EdgeDataTy × Buffer) :=
  match w.handle.pull s with
  | none => none
  | some (dst, s1) =>
    match w.val.pull s1 with
    | none => none
    | some (val, s2) => some ({ dst := dst, val := val }, s2)

/-- The element loop of the sequence writer: every element in order, each by its own
`serialize`. -/
def gSerializeSeq (w : Wire NodeDataTy EdgeDataTy) :
    List (Edge EdgeDataTy) → Buffer → Buffer
  | [], s => s
  | e :: es, s => gSerializeSeq w es (e.serialize w s)

/-- Modelled from the spec: `gSerialize(s, edges)` on the deque, a "nested serializable
structure"; the overload for sequences is not part of the sources. It writes the number
of elements and then the elements. -/
def gSerializeEdges (w : Wire NodeDataTy EdgeDataTy) (es : List (Edge EdgeDataTy))
    (s : Buffer) : Buffer :=
  gSerializeSeq w es (s ++ w.count.push es.length)

/-- The element loop of the sequence reader: `k` elements, each by its own
`deserialize`. -/
def gDeserializeSeq (w : Wire NodeDataTy EdgeDataTy) :
    Nat → Buffer → Option (List (Edge EdgeDataTy) × Buffer)
  | 0, s => some ([], s)
  | k + 1, s =>
    match Edge.deserialize w s with
    | none => none
    | some (e, s1) =>
      match gDeserializeSeq w k s1 with
      | none => none
      | some (es, s2) => some (e :: es, s2)

/-- Modelled from the spec: `gDeserialize(s, edges)` on the deque, the reader matching
`gSerializeEdges`: the number of elements, then that many elements, which replace the
content of the deque. -/
def gDeserializeEdges (w : Wire NodeDataTy EdgeDataTy) (s : Buffer) :
    Option (List (Edge EdgeDataTy) × Buffer) :=
  match w.count.pull s with
  | none => none
  | some (k, s1) => gDeserializeSeq w k s1

/-- Method `GraphNodeBase::serialize`: `gSerialize(s, nextNode, active)`. -/
def GraphNodeBase.serialize (w : Wire NodeDataTy EdgeDataTy)
    (nd : GraphNode NodeDataTy EdgeDataTy) (s : Buffer) : Buffer :=
  s ++ w.handle.push nd.nextNode ++ w.flag.push nd.active

/-- Method `GraphNodeBase::deserialize`: `gDeserialize(s, nextNode, active)`. -/
def GraphNodeBase.deserialize (w : Wire NodeDataTy EdgeDataTy)
    (nd : GraphNode NodeDataTy EdgeDataTy) (s : Buffer) :
    Option (GraphNode NodeDataTy EdgeDataTy × Buffer) :=
  match w.handle.pull s with
  | none => none
  | some (h, s1) =>
    match w.flag.pull s1 with
    | none => none
    | some (b, s2) => some ({ nd with nextNode := h, active := b }, s2)

/-- Method `GraphNodeData::serialize`: `gSerialize(s, data)`. -/
def GraphNodeData.serialize (w : Wire NodeDataTy EdgeDataTy)
    (nd : GraphNode NodeDataTy EdgeDataTy) (s : Buffer) : Buffer :=
  s ++ w.data.push nd.data

/-- Method `GraphNodeData::deserialize`: `gDeserialize(s, data)`. -/
def GraphNodeData.deserialize (w : Wire NodeDataTy EdgeDataTy)
    (nd : GraphNode NodeDataTy EdgeDataTy) (s : Buffer) :
    Option (GraphNode NodeDataTy EdgeDataTy × Buffer) :=
  match w.data.pull s with
  | none => none
  | some (d, s1) => some ({ nd with data := d }, s1)

/-- Method `GraphNodeEdges<Out>::serialize`: `gSerialize(s, edges)`. -/
def GraphNodeEdges.serialize (w : Wire NodeDataTy EdgeDataTy)
    (nd : GraphNode NodeDataTy EdgeDataTy) (s : Buffer) : Buffer :=
  gSerializeEdges w nd.edges s

/-- Method `GraphNodeEdges<Out>::deserialize`: `gDeserialize(s, edges)`. -/
def GraphNodeEdges.deserialize (w : Wire NodeDataTy EdgeDataTy)
    (nd : GraphNode NodeDataTy EdgeDataTy) (s : Buffer) :
    Option (GraphNode NodeDataTy EdgeDataTy × Buffer) :=
  match gDeserializeEdges w s with
  | none => none
  | some (es, s1) => some ({ nd with edges := es }, s1)

/-- Method `GraphNode::serialize`: the three base classes in the order
`GraphNodeBase`, `GraphNodeData`, `GraphNodeEdges`. -/
def GraphNode.serialize (w : Wire NodeDataTy EdgeDataTy)
    (nd : GraphNode NodeDataTy EdgeDataTy) (s : Buffer) : Buffer :=
  GraphNodeEdges.serialize w nd (GraphNodeData.serialize w nd (GraphNodeBase.serialize w nd s))

/-- Method `GraphNode::deserialize` on the node `nd`: the three base classes in the
order `GraphNodeBase`, `GraphNodeData`, `GraphNodeEdges`. -/
def GraphNode.deserialize (w : Wire NodeDataTy EdgeDataTy)
    (nd : GraphNode NodeDataTy EdgeDataTy) (s : Buffer) :
    Option (GraphNode NodeDataTy EdgeDataTy × Buffer) :=
  match GraphNodeBase.deserialize w nd s with
  | none => none
  | some (nd1, s1) =>
    match GraphNodeData.deserialize w nd1 s1 with
    | none => none
    | some (nd2, s2) => GraphNodeEdges.deserialize w nd2 s2

/-- Method `SubGraphState::serialize`: `gSerialize(s, head, next, master)`. -/
def SubGraphState.serialize (h : Prim (Option Nat)) (st : SubGraphState) (s : Buffer) :
    Buffer :=
  s ++ h.push st.head ++ h.push st.next ++ h.push st.master

/-- Method `SubGraphState::deserialize`: `gDeserialize(s, head, next, master)`. -/
def SubGraphState.deserialize (h : Prim (Option Nat)) (s : Buffer) :
    Option (SubGraphState × Buffer) :=
  match h.pull s with
  | none => none
  | some (hd, s1) =>
    match h.pull s1 with
    | none => none
    | some (nx, s2) =>
      match h.pull s2 with
      | none => none
      | some (ms, s3) => some ({ head := hd, next := nx, master := ms }, s3)

/-- A primitive for numbers: one word. -/
def wordPrim : Prim Nat :=
  { push := fun x => [x],
    pull := fun s =>
      match s with
      | [] => none
      | x :: r => some (x, r) }

/-- A primitive for `bool`: the word 0 or 1. -/
def flagPrim : Prim Bool :=
  { push := fun b => [if b then 1 else 0],
    pull := fun s =>
      match s with
      | 0 :: r => some (false, r)
      | 1 :: r => some (true, r)
      | _ => none }

/-- A primitive for handles: the word 0 for the null handle, else 1 and the address. -/
def handlePrim : Prim (Option Nat) :=
  { push := fun h =>
      match h with
      | none => [0]
      | some a => [1, a],
    pull := fun s =>
      match s with
      | 0 :: r => some (none, r)
      | 1 :: a :: r => some (some a, r)
      | _ => none }

/-- A primitive for the empty payload: nothing is written. -/
def unitPrim : Prim Unit :=
  { push := fun _ => [],
    pull := fun s => some ((), s) }

/-- The primitives for nodes with a numeric payload and edges without payload. -/
def demoWire : Wire Nat Unit :=
  { handle := handlePrim, flag := flagPrim, data := wordPrim, val := unitPrim,
    count := wordPrim }

namespace ThirdGraph

/-! ## Link steps of the iterators

The loops of the iterators once more, each returning with its result the number of link
steps it made: a link step is one move of the iterator along a `nextNode` link to the
following node or along a `next` link to the following partition. -/

/-- The loop `hop` with its number of link steps (one per iteration: `s = s->next`). -/
def iterator.hopCount (m : Memory NodeDataTy EdgeDataTy) :
    Nat → iterator → Option (iterator × Nat)
  | 0, _ => none
  | fuel + 1, it =>
    match it.n with
    | some _ => some (it, 0)
    | none =>
      match m.state it.s with
      | none => none
      | some st =>
        match st.next with
        | none => some (it, 0)
        | some p =>
          match m.state (some p) with
          | none => none
          | some st1 =>
            match iterator.hopCount m fuel { n := st1.head, s := some p } with
            | none => none
            | some r => some (r.1, r.2 + 1)

/-- The loop `nextLoop` with its number of link steps: one per iteration
(`n = n->getNextNode()`) and those of the inner loop. -/
def iterator.nextLoopCount (m : Memory NodeDataTy EdgeDataTy) :
    Nat → iterator → Option (iterator × Nat)
  | 0, _ => none
  | fuel + 1, it =>
    match m.node it.n with
    | none => none
    | some nd =>
      match iterator.hopCount m (fuel + 1) { n := nd.nextNode, s := it.s } with
      | none => none
      | some r =>
        match r.1.n with
        | none => some (r.1, r.2 + 1)
        | some a =>
          match m.nodes[a]? with
          | none => none
          | some nd1 =>
            if nd1.active then some (r.1, r.2 + 1)
            else
              match iterator.nextLoopCount m fuel r.1 with
              | none => none
              | some r2 => some (r2.1, r.2 + 1 + r2.2)

/-- Method `iterator::next` with its number of link steps. -/
def iterator.nextCount (m : Memory NodeDataTy EdgeDataTy) (fuel : Nat) (it : iterator) :
    Option (iterator × Nat) :=
  match iterator.nextLoopCount m fuel it with
  | none => none
  | some r => some (iterator.clearAtEnd r.1, r.2)

/-- Constructor `iterator(ms)` with its number of link steps. -/
def iterator.newCount (m : Memory NodeDataTy EdgeDataTy) (fuel : Nat) (ms : StatePtr) :
    Option (iterator × Nat) :=
  match m.state ms with
  | none => none
  | some st =>
    match iterator.hopCount m fuel { n := st.head, s := ms } with
    | none => none
    | some r =>
      match r.1.n with
      | none => some (iterator.clearAtEnd r.1, r.2)
      | some a =>
        match m.nodes[a]? with
        | none => none
        | some nd =>
          if nd.active then some (iterator.clearAtEnd r.1, r.2)
          else
            match iterator.nextCount m fuel r.1 with
            | none => none
            | some r2 => some (iterator.clearAtEnd r2.1, r.2 + r2.2)

/-- Function `std::distance(first, last)` on global iterators with the number of link
steps of its increments. -/
def iterator.distanceCount (m : Memory NodeDataTy EdgeDataTy) :
    Nat → iterator → iterator → Option (Nat × Nat)
  | 0, _, _ => none
  | fuel + 1, first, last =>
    if first.n = last.n then some (0, 0)
    else
      match iterator.nextCount m (fuel + 1) first with
      | none => none
      | some r =>
        match iterator.distanceCount m fuel r.1 last with
        | none => none
        | some d => some (d.1 + 1, r.2 + d.2)

/-- The iterator reached from `it` by `k` increments. -/
def iterator.advance (m : Memory NodeDataTy EdgeDataTy) (fuel : Nat) :
    Nat → iterator → Option iterator
  | 0, it => some it
  | k + 1, it =>
    match iterator.next m fuel it with
    | none => none
    | some it1 => iterator.advance m fuel k it1

/-- Method `begin()` with its number of link steps. -/
def beginCount (g : ThirdGraph) (tid : Nat) (m : Memory NodeDataTy EdgeDataTy) (fuel : Nat) :
    Option (iterator × Nat) :=
  match m.state (g.getLocal tid) with
  | none => none
  | some lState => iterator.newCount m fuel lState.master

/-- Method `size()` with the number of link steps of `begin()` and of the increments
of `std::distance`. -/
def sizeCount (g : ThirdGraph) (tid : Nat) (m : Memory NodeDataTy EdgeDataTy) (fuel : Nat) :
    Option (Nat × Nat) :=
  match g.beginCount tid m fuel with
  | none => none
  | some b =>
    match b.1.distanceCount m fuel end_ with
    | none => none
    | some d => some (toUnsigned d.1, b.2 + d.2)

/-- The loop `skip` of the local iterator with its number of link steps (one per
iteration: `n = n->getNextNode()`). -/
def local_iterator.skipCount (m : Memory NodeDataTy EdgeDataTy) :
    Nat → NodeHandle → Option (NodeHandle × Nat)
  | 0, _ => none
  | _ + 1, none => some (none, 0)
  | fuel + 1, some a =>
    match m.nodes[a]? with
    | none => none
    | some nd =>
      if nd.active then some (some a, 0)
      else
        match local_iterator.skipCount m fuel nd.nextNode with
        | none => none
        | some r => some (r.1, r.2 + 1)

/-- Method `local_iterator::next` with its number of link steps: the first
`n = n->getNextNode()` and those of the loop. -/
def local_iterator.nextCount (m : Memory NodeDataTy EdgeDataTy) (fuel : Nat)
    (it : local_iterator) : Option (local_iterator × Nat) :=
  match m.node it.n with
  | none => none
  | some nd =>
    match local_iterator.skipCount m fuel nd.nextNode with
    | none => none
    | some r => some ({ n := r.1 }, r.2 + 1)

/-- The local iterator reached from `it` by `k` increments. -/
def local_iterator.advance (m : Memory NodeDataTy EdgeDataTy) (fuel : Nat) :
    Nat → local_iterator → Option local_iterator
  | 0, it => some it
  | k + 1, it =>
    match local_iterator.next m fuel it with
    | none => none
    | some it1 => local_iterator.advance m fuel k it1

/-! ## Creators of the nodes -/

/-- The workers of the `createNode` calls of a call sequence, in call order: in a
container built in an empty memory entry `k` is the worker that created the node at
address `k`. -/
def creators : List (Op NodeDataTy) → List Nat
  | [] => []
  | Op.createNode tid _ :: ops => tid :: creators ops
  | Op.addNode _ :: ops => creators ops
  | Op.removeNode _ :: ops => creators ops
  | Op.addEdge _ _ :: ops => creators ops

/-- The addresses of the nodes that worker `w` created in a call sequence, the latest
first. -/
def createdBy (ops : List (Op NodeDataTy)) (w : Nat) : List Nat :=
  ((List.range (creators ops).length).filter
    (fun k => decide ((creators ops)[k]? = some w))).reverse

end ThirdGraph

/-- Global iterator `it` is at most `r` link steps from the end of a chain: it is at the
end, or it stands on a node with at most `r` nodes and partitions from there on. -/
def Memory.Within (m : Memory NodeDataTy EdgeDataTy) (it : ThirdGraph.iterator) (r : Nat) :
    Prop :=
  it.n = none ∨ ∃ a cur c, m.Stands it (a :: cur) c ∧ cur.length + 1 + chainLinks c ≤ r

/-! ## Basic facts about memory writes -/

theorem Memory.writeNode_eq_some {m : Memory NodeDataTy EdgeDataTy} {a : Nat}
    {nd : GraphNode NodeDataTy EdgeDataTy}
    (f : GraphNode NodeDataTy EdgeDataTy → GraphNode NodeDataTy EdgeDataTy)
    (h : m.nodes[a]? = some nd) :
    m.writeNode a f = some { nodes := m.nodes.set a (f nd), states := m.states } := by
  simp [Memory.writeNode, h]

theorem Memory.writeState_eq_some {m : Memory NodeDataTy EdgeDataTy} {a : Nat}
    {st : SubGraphState} (f : SubGraphState → SubGraphState) (h : m.states[a]? = some st) :
    m.writeState a f = some { nodes := m.nodes, states := m.states.set a (f st) } := by
  simp [Memory.writeState, h]

theorem getElem?_set_self_of_some {α : Type} {l : List α} {a : Nat} {x y : α}
    (h : l[a]? = some x) : (l.set a y)[a]? = some y := by
  have hlt : a < l.length := by
    rcases List.getElem?_eq_some.mp h with ⟨hlt, _⟩
    exact hlt
  simp [List.getElem?_set, hlt]

theorem Memory.nodeList_of_nextKept {m m1 : Memory NodeDataTy EdgeDataTy}
    (hk : m.NextKept m1) :
    ∀ (L : List Nat) (h : NodeHandle), m.nodeList h L → m1.nodeList h L := by
  intro L
  induction L with
  | nil => intro h hl; simpa [Memory.nodeList] using hl
  | cons a L ih =>
    intro h hl
    rcases hl with ⟨rfl, nd, hnd, hrest⟩
    rcases hk a nd hnd with ⟨nd1, hnd1, hnext⟩
    exact ⟨rfl, nd1, hnd1, by rw [hnext]; exact ih _ hrest⟩

/-! ## createNode -/

theorem ThirdGraph.createNode_eq (g : ThirdGraph) (tid : Nat) (d : NodeDataTy)
    (m : Memory NodeDataTy EdgeDataTy) (st : SubGraphState)
    (htid : tid < g.numThreads) (hst : m.states[g.localState + tid]? = some st) :
    g.createNode tid d m = some (some m.nodes.length,
      { nodes := m.nodes ++ [{ nextNode := st.head, active := false, data := d, edges := [] }],
        states := m.states.set (g.localState + tid) { st with head := some m.nodes.length } }) := by
  simp [ThirdGraph.createNode, ThirdGraph.getLocal, htid, hst, Memory.writeNode,
    Memory.writeState, GraphNode.new]

/-! ## The global iterator on a well-formed chain -/

theorem chainNodes_cons (a : Nat) (L : List Nat) (c : List (Nat × List Nat)) :
    chainNodes ((a, L) :: c) = L ++ chainNodes c := by
  simp [chainNodes]

theorem chainLinks_cons (a : Nat) (L : List Nat) (c : List (Nat × List Nat)) :
    chainLinks ((a, L) :: c) = L.length + 1 + chainLinks c := by
  simp [chainLinks]

theorem chainLinks_nil : chainLinks [] = 0 := by
  simp [chainLinks]

theorem chainNodes_nil : chainNodes [] = [] := by
  simp [chainNodes]

theorem Memory.nodeList_none {m : Memory NodeDataTy EdgeDataTy} {L : List Nat}
    (h : m.nodeList none L) : L = [] := by
  cases L with
  | nil => rfl
  | cons a L => exact absurd h.1 (by simp)

theorem Memory.nodeList_some {m : Memory NodeDataTy EdgeDataTy} {a : Nat} {L : List Nat}
    (h : m.nodeList (some a) L) :
    ∃ nd L1, L = a :: L1 ∧ m.nodes[a]? = some nd ∧ m.nodeList nd.nextNode L1 := by
  cases L with
  | nil => exact absurd h (by simp [Memory.nodeList])
  | cons b L =>
    rcases h with ⟨hb, nd, hnd, hrest⟩
    have hab : a = b := by simpa using hb
    subst hab
    exact ⟨nd, L, rfl, hnd, hrest⟩

theorem Memory.chain_none {m : Memory NodeDataTy EdgeDataTy} {c : List (Nat × List Nat)}
    (h : m.chain none c) : c = [] := by
  cases c with
  | nil => rfl
  | cons x c =>
    rcases x with ⟨a, L⟩
    exact absurd h.1 (by simp)

/-- The hop loop moves to the first non-empty partition, or to the last partition. -/
theorem ThirdGraph.iterator.hop_spec (m : Memory NodeDataTy EdgeDataTy) :
    ∀ (c : List (Nat × List Nat)) (fuel : Nat) (it : ThirdGraph.iterator) (cur : List Nat),
      m.Stands it cur c → c.length < fuel →
      ∃ it1 cur1 c1, ThirdGraph.iterator.hop m fuel it = some it1 ∧ m.Stands it1 cur1 c1 ∧
        cur1 ++ chainNodes c1 = cur ++ chainNodes c ∧
        cur1.length + chainLinks c1 ≤ cur.length + chainLinks c ∧
        (cur1 = [] → c1 = []) := by
  intro c
  induction c with
  | nil =>
    intro fuel it cur hs hf
    obtain ⟨k, rfl⟩ : ∃ k, fuel = k + 1 := ⟨fuel - 1, by omega⟩
    rcases hs with ⟨hl, p, st, hp, hst, hc⟩
    refine ⟨it, cur, [], ?_, ⟨hl, p, st, hp, hst, hc⟩, rfl, le_refl _, fun _ => rfl⟩
    cases hn : it.n with
    | some a => simp [ThirdGraph.iterator.hop, hn]
    | none =>
      have hnx : st.next = none := by simpa [Memory.chain] using hc
      simp [ThirdGraph.iterator.hop, hn, hp, Memory.state, hst, hnx]
  | cons x c ih =>
    intro fuel it cur hs hf
    obtain ⟨k, rfl⟩ : ∃ k, fuel = k + 1 := ⟨fuel - 1, by omega⟩
    rcases x with ⟨a, L⟩
    rcases hs with ⟨hl, p, st, hp, hst, hc⟩
    cases hn : it.n with
    | some b =>
      refine ⟨it, cur, (a, L) :: c, by simp [ThirdGraph.iterator.hop, hn],
        ⟨hl, p, st, hp, hst, hc⟩, rfl, le_refl _, ?_⟩
      intro hcur
      rw [hn, hcur] at hl
      exact absurd hl (by simp [Memory.nodeList])
    | none =>
      rw [hn] at hl
      have hcur : cur = [] := Memory.nodeList_none hl
      subst hcur
      rcases hc with ⟨hnx, st1, hst1, hL, hc1⟩
      have hs1 : m.Stands { n := st1.head, s := some a } L c :=
        ⟨hL, a, st1, rfl, hst1, hc1⟩
      rcases ih k { n := st1.head, s := some a } L hs1 (by simpa using hf) with
        ⟨it1, cur1, c1, hhop, hst2, hnodes, hlinks, hemp⟩
      refine ⟨it1, cur1, c1, ?_, hst2, ?_, ?_, hemp⟩
      · simp [ThirdGraph.iterator.hop, hn, hp, Memory.state, hst, hnx, hst1, hhop]
      · simp [chainNodes_cons, hnodes]
      · simp only [chainLinks_cons, List.length_nil]
        omega

theorem chainLinks_length_le (c : List (Nat × List Nat)) : c.length ≤ chainLinks c := by
  induction c with
  | nil => simp
  | cons x c ih =>
    rcases x with ⟨a, L⟩
    simp only [chainLinks_cons, List.length_cons]
    omega

theorem Memory.isActive_of_get {m : Memory NodeDataTy EdgeDataTy} {a : Nat}
    {nd : GraphNode NodeDataTy EdgeDataTy} (h : m.nodes[a]? = some nd) :
    m.isActive a = nd.active := by
  simp [Memory.isActive, h]

/-- The do-while loop of `next` stops at the first active node after the current one, or
with a null node when there is none. -/
theorem ThirdGraph.iterator.nextLoop_spec (m : Memory NodeDataTy EdgeDataTy) :
    ∀ (fuel : Nat) (it : ThirdGraph.iterator) (a : Nat) (cur : List Nat)
      (c : List (Nat × List Nat)),
      m.Stands it (a :: cur) c → cur.length + chainLinks c < fuel →
      ∃ it1, ThirdGraph.iterator.nextLoop m fuel it = some it1 ∧
        ((it1.n = none ∧ (cur ++ chainNodes c).filter m.isActive = []) ∨
         ∃ b cur1 c1, m.Stands it1 (b :: cur1) c1 ∧ m.isActive b = true ∧
           (cur ++ chainNodes c).filter m.isActive =
             b :: (cur1 ++ chainNodes c1).filter m.isActive ∧
           cur1.length + chainLinks c1 + 1 ≤ cur.length + chainLinks c) := by
  intro fuel
  induction fuel with
  | zero => intro it a cur c _ hf; omega
  | succ k ih =>
    intro it a cur c hs hf
    rcases hs with ⟨hl, p, st, hp, hst, hc⟩
    rcases hl with ⟨hn, nd, hnd, hrest⟩
    have hs0 : m.Stands { n := nd.nextNode, s := it.s } cur c := ⟨hrest, p, st, hp, hst, hc⟩
    have hlen := chainLinks_length_le c
    rcases ThirdGraph.iterator.hop_spec m c (k + 1) _ cur hs0 (by omega) with
      ⟨it1, cur1, c1, hhop, hs1, hnodes, hlinks, hemp⟩
    cases hn1 : it1.n with
    | none =>
      refine ⟨it1, by simp [ThirdGraph.iterator.nextLoop, hn, Memory.node, hnd, hhop, hn1],
        Or.inl ⟨hn1, ?_⟩⟩
      have h1 := hs1.1
      rw [hn1] at h1
      have hcur1 : cur1 = [] := Memory.nodeList_none h1
      have hc1 : c1 = [] := hemp hcur1
      rw [← hnodes, hcur1, hc1]
      simp [chainNodes_nil]
    | some b =>
      have h1 := hs1.1
      rw [hn1] at h1
      rcases Memory.nodeList_some h1 with ⟨nd1, cur2, hcur1, hnd1, hrest1⟩
      subst hcur1
      have hact := Memory.isActive_of_get hnd1
      cases hb : nd1.active with
      | true =>
        refine ⟨it1, by simp [ThirdGraph.iterator.nextLoop, hn, Memory.node, hnd, hhop, hn1,
          hnd1, hb], Or.inr ⟨b, cur2, c1, hs1, by rw [hact, hb], ?_, ?_⟩⟩
        · rw [← hnodes]
          simp [hact, hb]
        · simp only [List.length_cons] at hlinks
          omega
      | false =>
        simp only [List.length_cons] at hlinks
        rcases ih it1 b cur2 c1 hs1 (by omega) with ⟨it2, hloop, hres⟩
        refine ⟨it2, by simp [ThirdGraph.iterator.nextLoop, hn, Memory.node, hnd, hhop, hn1,
          hnd1, hb, hloop], ?_⟩
        have hfil : (cur ++ chainNodes c).filter m.isActive =
            (cur2 ++ chainNodes c1).filter m.isActive := by
          rw [← hnodes]
          simp [hact, hb]
        rcases hres with ⟨hnone, hnil⟩ | ⟨b2, cur3, c3, hs3, hact3, hfil3, hlinks3⟩
        · exact Or.inl ⟨hnone, by rw [hfil]; exact hnil⟩
        · exact Or.inr ⟨b2, cur3, c3, hs3, hact3, by rw [hfil]; exact hfil3, by omega⟩

theorem ThirdGraph.iterator.toList_of_null (m : Memory NodeDataTy EdgeDataTy) (fuel : Nat)
    (it : ThirdGraph.iterator) (hn : it.n = none) (hf : 0 < fuel) :
    ThirdGraph.iterator.toList m fuel it = some [] := by
  obtain ⟨k, rfl⟩ : ∃ k, fuel = k + 1 := ⟨fuel - 1, by omega⟩
  simp [ThirdGraph.iterator.toList, hn]

theorem ThirdGraph.iterator.clearAtEnd_of_some (it : ThirdGraph.iterator) (a : Nat)
    (h : it.n = some a) : ThirdGraph.iterator.clearAtEnd it = it := by
  simp [ThirdGraph.iterator.clearAtEnd, h]

theorem ThirdGraph.iterator.clearAtEnd_n (it : ThirdGraph.iterator) :
    (ThirdGraph.iterator.clearAtEnd it).n = it.n := by
  unfold ThirdGraph.iterator.clearAtEnd
  split <;> simp_all

/-- Stepping an iterator that stands at an active node up to `end()` lists the active
nodes from there on. -/
theorem ThirdGraph.iterator.toList_spec (m : Memory NodeDataTy EdgeDataTy) :
    ∀ (fuel : Nat) (it : ThirdGraph.iterator) (a : Nat) (cur : List Nat)
      (c : List (Nat × List Nat)),
      m.Stands it (a :: cur) c → cur.length + chainLinks c + 2 ≤ fuel →
      ThirdGraph.iterator.toList m fuel it =
        some (a :: (cur ++ chainNodes c).filter m.isActive) := by
  intro fuel
  induction fuel with
  | zero => intro it a cur c _ hf; omega
  | succ k ih =>
    intro it a cur c hs hf
    have hn : it.n = some a := hs.1.1
    rcases ThirdGraph.iterator.nextLoop_spec m (k + 1) it a cur c hs (by omega) with
      ⟨it1, hloop, hres⟩
    rcases hres with ⟨hnone, hnil⟩ | ⟨b, cur1, c1, hs1, _, hfil, hlinks⟩
    · have hend : ThirdGraph.iterator.toList m k (ThirdGraph.iterator.clearAtEnd it1) = some [] :=
        ThirdGraph.iterator.toList_of_null m k _
          (by rw [ThirdGraph.iterator.clearAtEnd_n]; exact hnone) (by omega)
      simp [ThirdGraph.iterator.toList, hn, ThirdGraph.iterator.next, hloop, hend, hnil]
    · have hb : it1.n = some b := hs1.1.1
      have hrec := ih it1 b cur1 c1 hs1 (by omega)
      simp [ThirdGraph.iterator.toList, hn, ThirdGraph.iterator.next, hloop,
        ThirdGraph.iterator.clearAtEnd_of_some it1 b hb, hrec, hfil]

/-- The constructor `iterator(ms)` on a well-formed chain yields an iterator from which
stepping up to `end()` lists the active nodes of the whole chain. -/
theorem ThirdGraph.iterator.new_spec (m : Memory NodeDataTy EdgeDataTy) (ms : StatePtr)
    (c : List (Nat × List Nat)) (fuel : Nat) (hc : m.chain ms c) (hne : c ≠ [])
    (hf : chainLinks c + 1 ≤ fuel) :
    ∃ it, ThirdGraph.iterator.new m fuel ms = some it ∧
      ∀ fuel2, chainLinks c + 1 ≤ fuel2 →
        ThirdGraph.iterator.toList m fuel2 it = some ((chainNodes c).filter m.isActive) := by
  cases c with
  | nil => exact absurd rfl hne
  | cons x c =>
    rcases x with ⟨p, L⟩
    rcases hc with ⟨hms, st, hst, hL, hc1⟩
    subst hms
    have hs0 : m.Stands { n := st.head, s := some p } L c := ⟨hL, p, st, rfl, hst, hc1⟩
    have hlen := chainLinks_length_le c
    simp only [chainLinks_cons] at hf
    rcases ThirdGraph.iterator.hop_spec m c fuel _ L hs0 (by omega) with
      ⟨it1, cur1, c1, hhop, hs1, hnodes, hlinks, hemp⟩
    rw [chainNodes_cons, ← hnodes]
    simp only [chainLinks_cons]
    cases hn1 : it1.n with
    | none =>
      have h1 := hs1.1
      rw [hn1] at h1
      have hcur1 : cur1 = [] := Memory.nodeList_none h1
      have hc1e : c1 = [] := hemp hcur1
      refine ⟨ThirdGraph.iterator.clearAtEnd it1, by
        simp [ThirdGraph.iterator.new, Memory.state, hst, hhop, hn1], ?_⟩
      intro fuel2 hf2
      rw [ThirdGraph.iterator.toList_of_null m fuel2 _
        (by rw [ThirdGraph.iterator.clearAtEnd_n]; exact hn1) (by omega)]
      simp [hcur1, hc1e, chainNodes_nil]
    | some b =>
      have h1 := hs1.1
      rw [hn1] at h1
      rcases Memory.nodeList_some h1 with ⟨nd1, cur2, hcur1, hnd1, hrest1⟩
      subst hcur1
      have hact := Memory.isActive_of_get hnd1
      simp only [List.length_cons] at hlinks
      cases hb : nd1.active with
      | true =>
        refine ⟨it1, by
          simp [ThirdGraph.iterator.new, Memory.state, hst, hhop, hn1, hnd1, hb,
            ThirdGraph.iterator.clearAtEnd_of_some it1 b hn1], ?_⟩
        intro fuel2 hf2
        rw [ThirdGraph.iterator.toList_spec m fuel2 it1 b cur2 c1 hs1 (by omega)]
        simp [hact, hb]
      | false =>
        rcases ThirdGraph.iterator.nextLoop_spec m fuel it1 b cur2 c1 hs1 (by omega) with
          ⟨it2, hloop, hres⟩
        have hfil : (b :: cur2 ++ chainNodes c1).filter m.isActive =
            (cur2 ++ chainNodes c1).filter m.isActive := by
          simp [hact, hb]
        rw [hfil]
        rcases hres with ⟨hnone, hnil⟩ | ⟨b2, cur3, c3, hs3, _, hfil3, hlinks3⟩
        · refine ⟨ThirdGraph.iterator.clearAtEnd (ThirdGraph.iterator.clearAtEnd it2), by
            simp [ThirdGraph.iterator.new, Memory.state, hst, hhop, hn1, hnd1, hb,
              ThirdGraph.iterator.next, hloop], ?_⟩
          intro fuel2 hf2
          rw [ThirdGraph.iterator.toList_of_null m fuel2 _
            (by rw [ThirdGraph.iterator.clearAtEnd_n, ThirdGraph.iterator.clearAtEnd_n];
                exact hnone) (by omega)]
          exact congrArg some hnil.symm
        · have hb2 : it2.n = some b2 := hs3.1.1
          refine ⟨it2, by
            simp [ThirdGraph.iterator.new, Memory.state, hst, hhop, hn1, hnd1, hb,
              ThirdGraph.iterator.next, hloop,
              ThirdGraph.iterator.clearAtEnd_of_some it2 b2 hb2], ?_⟩
          intro fuel2 hf2
          rw [ThirdGraph.iterator.toList_spec m fuel2 it2 b2 cur3 c3 hs3 (by omega), hfil3]

theorem ThirdGraph.iterator.distance_eq (m : Memory NodeDataTy EdgeDataTy) :
    ∀ (fuel : Nat) (it : ThirdGraph.iterator),
      ThirdGraph.iterator.distance m fuel it ThirdGraph.end_ =
        (ThirdGraph.iterator.toList m fuel it).map List.length := by
  intro fuel
  induction fuel with
  | zero => intro it; simp [ThirdGraph.iterator.distance, ThirdGraph.iterator.toList]
  | succ k ih =>
    intro it
    cases hn : it.n with
    | none =>
      simp [ThirdGraph.iterator.distance, ThirdGraph.iterator.toList, hn, ThirdGraph.end_,
        ThirdGraph.iterator.nil]
    | some a =>
      cases hnx : ThirdGraph.iterator.next m (k + 1) it with
      | none =>
        simp [ThirdGraph.iterator.distance, ThirdGraph.iterator.toList, hn, ThirdGraph.end_,
          ThirdGraph.iterator.nil, hnx]
      | some it1 =>
        have h := ih it1
        simp only [ThirdGraph.end_, ThirdGraph.iterator.nil] at h
        cases hl : ThirdGraph.iterator.toList m k it1 with
        | none =>
          rw [hl] at h
          simp [ThirdGraph.iterator.distance, ThirdGraph.iterator.toList, hn, ThirdGraph.end_,
            ThirdGraph.iterator.nil, hnx, hl, h]
        | some xs =>
          rw [hl] at h
          simp [ThirdGraph.iterator.distance, ThirdGraph.iterator.toList, hn, ThirdGraph.end_,
            ThirdGraph.iterator.nil, hnx, hl, h]

/-- Global iteration over a well-formed chain lists its active nodes, in chain order. -/
theorem ThirdGraph.globalNodes_eq (g : ThirdGraph) (tid : Nat)
    (m : Memory NodeDataTy EdgeDataTy) (lState : SubGraphState)
    (c : List (Nat × List Nat)) (fuel : Nat)
    (hl : m.state (g.getLocal tid) = some lState) (hc : m.chain lState.master c)
    (hne : c ≠ []) (hf : chainLinks c + 1 ≤ fuel) :
    g.globalNodes tid m fuel = some ((chainNodes c).filter m.isActive) := by
  rcases ThirdGraph.iterator.new_spec m lState.master c fuel hc hne hf with ⟨it, hnew, hlist⟩
  simp [ThirdGraph.globalNodes, ThirdGraph.begin, hl, hnew, hlist fuel hf]

theorem ThirdGraph.size_eq (g : ThirdGraph) (tid : Nat)
    (m : Memory NodeDataTy EdgeDataTy) (lState : SubGraphState)
    (c : List (Nat × List Nat)) (fuel : Nat)
    (hl : m.state (g.getLocal tid) = some lState) (hc : m.chain lState.master c)
    (hne : c ≠ []) (hf : chainLinks c + 1 ≤ fuel) :
    g.size tid m fuel = some (toUnsigned ((chainNodes c).filter m.isActive).length) := by
  rcases ThirdGraph.iterator.new_spec m lState.master c fuel hc hne hf with ⟨it, hnew, hlist⟩
  simp [ThirdGraph.size, ThirdGraph.begin, hl, hnew, ThirdGraph.iterator.distance_eq,
    hlist fuel hf]

/-! ## The constructor -/

theorem ThirdGraph.ctorStep_eq (g : ThirdGraph) (first : Nat)
    (m : Memory NodeDataTy EdgeDataTy) (i : Nat) (st : SubGraphState)
    (hi : i < g.numThreads) (hst : m.states[g.localState + i]? = some st) :
    g.ctorStep first m i = some
      { nodes := m.nodes,
        states := m.states.set (g.localState + i)
          { head := st.head,
            next := if i + 1 < g.numThreads then some (g.localState + (i + 1)) else st.next,
            master := some first } } := by
  have hlt : g.localState + i < m.states.length := by
    rcases List.getElem?_eq_some.mp hst with ⟨hlt, _⟩
    exact hlt
  by_cases hlast : i + 1 < g.numThreads
  · have hne : ¬ i = g.numThreads - 1 := by omega
    simp [ThirdGraph.ctorStep, ThirdGraph.getLocal, hi, hlast, hne, Memory.writeState, hst, hlt]
  · have heq : i = g.numThreads - 1 := by omega
    simp [ThirdGraph.ctorStep, ThirdGraph.getLocal, hi, hlast, ← heq, Memory.writeState, hst]

/-- The slot written by the constructor loop for worker `i`. -/
theorem ThirdGraph.ctorLoop_spec (g : ThirdGraph) (first : Nat) :
    ∀ (len k : Nat) (m : Memory NodeDataTy EdgeDataTy),
      k + len ≤ g.numThreads → g.localState + g.numThreads ≤ m.states.length →
      ∃ m1, g.ctorLoop first (List.range' k len) m = some m1 ∧ m1.nodes = m.nodes ∧
        m1.states.length = m.states.length ∧
        ∀ j, m1.states[j]? =
          if g.localState + k ≤ j ∧ j < g.localState + k + len then
            (m.states[j]?).map (fun st =>
              { head := st.head,
                next := if j - g.localState + 1 < g.numThreads then some (j + 1) else st.next,
                master := some first })
          else m.states[j]? := by
  intro len
  induction len with
  | zero =>
    intro k m _ _
    refine ⟨m, by simp [ThirdGraph.ctorLoop], rfl, rfl, ?_⟩
    intro j
    rw [if_neg (by omega)]
  | succ len ih =>
    intro k m hk hlen
    have hlt : g.localState + k < m.states.length := by omega
    obtain ⟨st, hst⟩ : ∃ st, m.states[g.localState + k]? = some st :=
      ⟨m.states[g.localState + k], List.getElem?_eq_getElem hlt⟩
    have hstep := ThirdGraph.ctorStep_eq g first m k st (by omega) hst
    rcases ih (k + 1)
      { nodes := m.nodes,
        states := m.states.set (g.localState + k)
          { head := st.head,
            next := if k + 1 < g.numThreads then some (g.localState + (k + 1)) else st.next,
            master := some first } }
      (by omega) (by simpa using hlen) with ⟨m1, hloop, hnodes, hlen1, hget⟩
    refine ⟨m1, by simp [List.range', ThirdGraph.ctorLoop, hstep, hloop], by simpa using hnodes,
      by simpa using hlen1, ?_⟩
    intro j
    rw [hget j]
    by_cases hj : j = g.localState + k
    · subst hj
      have h1 : ¬ (g.localState + (k + 1) ≤ g.localState + k ∧
          g.localState + k < g.localState + (k + 1) + len) := by omega
      have h2 : g.localState + k ≤ g.localState + k ∧
          g.localState + k < g.localState + k + (len + 1) := by omega
      have h3 : g.localState + k - g.localState + 1 = k + 1 := by omega
      simp [h1, h2, hst, hlt, h3, Nat.add_assoc]
    · have hne : ¬ g.localState + k = j := fun h => hj h.symm
      by_cases hin : g.localState + (k + 1) ≤ j ∧ j < g.localState + (k + 1) + len
      · have h2 : g.localState + k ≤ j ∧ j < g.localState + k + (len + 1) := by omega
        simp [hin, h2, List.getElem?_set, hne]
      · have h2 : ¬ (g.localState + k ≤ j ∧ j < g.localState + k + (len + 1)) := by omega
        simp [hin, h2, List.getElem?_set, hne]

/-- The memory the constructor leaves behind. -/
theorem ThirdGraph.new_memory (n : Nat) (m : Memory NodeDataTy EdgeDataTy) :
    ∃ m1, ThirdGraph.new n m = some ({ localState := m.states.length, numThreads := n }, m1) ∧
      m1.nodes = m.nodes ∧ m1.states.length = m.states.length + n ∧
      ∀ j, m1.states[j]? =
        if j < m.states.length then m.states[j]?
        else if j < m.states.length + n then
          some { head := none,
                 next := if j - m.states.length + 1 < n then some (j + 1) else none,
                 master := some m.states.length }
        else none := by
  rcases ThirdGraph.ctorLoop_spec
    { localState := m.states.length, numThreads := n } m.states.length n 0
    { nodes := m.nodes, states := m.states ++
        (List.range n).map (fun i => SubGraphState.new (m.states.length + i)) }
    (by simp) (by simp) with ⟨m1, hloop, hnodes, hlen, hget⟩
  refine ⟨m1, ?_, by simpa using hnodes, by simpa using hlen, ?_⟩
  · simp only [List.range_eq_range'] at hloop ⊢
    simp [ThirdGraph.new, List.range_eq_range', hloop]
  · intro j
    rw [hget j]
    by_cases h1 : j < m.states.length
    · have : ¬ (m.states.length + 0 ≤ j ∧ j < m.states.length + 0 + n) := by omega
      simp [this, h1, List.getElem?_append_left h1]
    · by_cases h2 : j < m.states.length + n
      · have h3 : m.states.length + 0 ≤ j ∧ j < m.states.length + 0 + n := by omega
        have h4 : m.states.length ≤ j := by omega
        have h5 : j - m.states.length < n := by omega
        have h6 : m.states.length + (j - m.states.length) = j := by omega
        simp [h3, h1, h2, List.getElem?_append_right h4, List.getElem?_map,
          List.getElem?_range h5, SubGraphState.new, h6]
      · have h3 : ¬ (m.states.length + 0 ≤ j ∧ j < m.states.length + 0 + n) := by omega
        have h4 : m.states.length ≤ j := by omega
        have h5 : ¬ j - m.states.length < n := by omega
        simp [h3, h1, h2, List.getElem?_append_right h4, List.getElem?_map]
        omega

/-! ## Effect of the node operations -/

theorem ThirdGraph.addNode_eq (m : Memory NodeDataTy EdgeDataTy) (a : Nat)
    (nd : GraphNode NodeDataTy EdgeDataTy) (h : m.nodes[a]? = some nd) :
    ThirdGraph.addNode (some a) m =
      some { nodes := m.nodes.set a { nd with active := true }, states := m.states } := by
  simp [ThirdGraph.addNode, Memory.writeNode, h, GraphNode.setActive]

theorem ThirdGraph.removeNode_eq_active (m : Memory NodeDataTy EdgeDataTy) (a : Nat)
    (nd : GraphNode NodeDataTy EdgeDataTy) (h : m.nodes[a]? = some nd)
    (hact : nd.active = true) :
    ThirdGraph.removeNode (some a) m =
      some { nodes := m.nodes.set a { nd with active := false, edges := [] },
             states := m.states } := by
  have hlt : a < m.nodes.length := by
    rcases List.getElem?_eq_some.mp h with ⟨hlt, _⟩
    exact hlt
  simp [ThirdGraph.removeNode, Memory.writeNode, h, hact, GraphNode.setActive,
    GraphNode.clearEdges, hlt]

theorem ThirdGraph.removeNode_eq_inactive (m : Memory NodeDataTy EdgeDataTy) (a : Nat)
    (nd : GraphNode NodeDataTy EdgeDataTy) (h : m.nodes[a]? = some nd)
    (hact : nd.active = false) :
    ThirdGraph.removeNode (some a) m = some m := by
  simp [ThirdGraph.removeNode, h, hact]

theorem ThirdGraph.addEdge_eq [Inhabited EdgeDataTy] (m : Memory NodeDataTy EdgeDataTy)
    (a : Nat) (dst : NodeHandle) (nd : GraphNode NodeDataTy EdgeDataTy)
    (h : m.nodes[a]? = some nd) (hdst : dst ≠ none) :
    ThirdGraph.addEdge (some a) dst m =
      some { nodes := m.nodes.set a
               { nd with edges := nd.edges ++ [{ dst := dst, val := default }] },
             states := m.states } := by
  cases dst with
  | none => exact absurd rfl hdst
  | some b => simp [ThirdGraph.addEdge, Memory.writeNode, h, GraphNode.createEdge]

/-- A call of `addNode`, `removeNode` or `addEdge` rewrites at most one node, and keeps
its `nextNode` and `data`. -/
theorem ThirdGraph.step_node_op [Inhabited EdgeDataTy] (g : ThirdGraph)
    (m m1 : Memory NodeDataTy EdgeDataTy) (op : ThirdGraph.Op NodeDataTy)
    (hop : ∀ tid d, op ≠ ThirdGraph.Op.createNode tid d)
    (h : ThirdGraph.step g m op = some m1) :
    m1 = m ∨ ∃ a nd nd1, m.nodes[a]? = some nd ∧ nd1.nextNode = nd.nextNode ∧
      nd1.data = nd.data ∧
      m1 = { nodes := m.nodes.set a nd1, states := m.states } := by
  cases op with
  | createNode tid d => exact absurd rfl (hop tid d)
  | addNode N =>
    cases N with
    | none => simp [ThirdGraph.step, ThirdGraph.addNode] at h
    | some a =>
      cases hnd : m.nodes[a]? with
      | none => simp [ThirdGraph.step, ThirdGraph.addNode, Memory.writeNode, hnd] at h
      | some nd =>
        rw [ThirdGraph.step, ThirdGraph.addNode_eq m a nd hnd] at h
        exact Or.inr ⟨a, nd, { nd with active := true }, hnd, rfl, rfl,
          (Option.some.inj h).symm⟩
  | removeNode N =>
    cases N with
    | none => simp [ThirdGraph.step, ThirdGraph.removeNode] at h
    | some a =>
      cases hnd : m.nodes[a]? with
      | none => simp [ThirdGraph.step, ThirdGraph.removeNode, hnd] at h
      | some nd =>
        cases hact : nd.active with
        | true =>
          rw [ThirdGraph.step, ThirdGraph.removeNode_eq_active m a nd hnd hact] at h
          exact Or.inr ⟨a, nd, { nd with active := false, edges := [] }, hnd, rfl, rfl,
            (Option.some.inj h).symm⟩
        | false =>
          rw [ThirdGraph.step, ThirdGraph.removeNode_eq_inactive m a nd hnd hact] at h
          exact Or.inl (Option.some.inj h).symm
  | addEdge src dst =>
    cases src with
    | none => simp [ThirdGraph.step, ThirdGraph.addEdge] at h
    | some a =>
      cases dst with
      | none => simp [ThirdGraph.step, ThirdGraph.addEdge] at h
      | some b =>
        cases hnd : m.nodes[a]? with
        | none => simp [ThirdGraph.step, ThirdGraph.addEdge, Memory.writeNode, hnd] at h
        | some nd =>
          rw [ThirdGraph.step, ThirdGraph.addEdge_eq m a (some b) nd hnd (by simp)] at h
          exact Or.inr ⟨a, nd, { nd with edges := nd.edges ++ [{ dst := some b, val := default }] },
            hnd, rfl, rfl, (Option.some.inj h).symm⟩

theorem Memory.nextKept_set (m : Memory NodeDataTy EdgeDataTy) (a : Nat)
    (nd nd1 : GraphNode NodeDataTy EdgeDataTy) (h : m.nodes[a]? = some nd)
    (hnext : nd1.nextNode = nd.nextNode) :
    m.NextKept { nodes := m.nodes.set a nd1, states := m.states } := by
  intro j x hx
  by_cases hj : a = j
  · subst hj
    rw [h] at hx
    cases hx
    exact ⟨nd1, getElem?_set_self_of_some h, hnext⟩
  · exact ⟨x, by simp [List.getElem?_set, hj, hx], rfl⟩

theorem Memory.nextKept_refl (m : Memory NodeDataTy EdgeDataTy) : m.NextKept m :=
  fun _ nd h => ⟨nd, h, rfl⟩

/-! ## The shape invariant -/

theorem ThirdGraph.shaped_new (n : Nat) (g : ThirdGraph) (m : Memory NodeDataTy EdgeDataTy)
    (h : ThirdGraph.new n (Memory.empty : Memory NodeDataTy EdgeDataTy) = some (g, m)) :
    g.numThreads = n ∧ m.nodes = [] ∧ g.Shaped m (fun _ => []) := by
  rcases ThirdGraph.new_memory n (Memory.empty : Memory NodeDataTy EdgeDataTy) with
    ⟨m1, hnew, hnodes, hlen, hget⟩
  rw [hnew] at h
  have hg : g = { localState := 0, numThreads := n } := by
    have := (Prod.mk.inj (Option.some.inj h)).1
    simpa [Memory.empty] using this.symm
  have hm : m = m1 := (Prod.mk.inj (Option.some.inj h)).2.symm
  subst hg
  subst hm
  have hnodes1 : m.nodes = [] := by simpa [Memory.empty] using hnodes
  refine ⟨rfl, hnodes1, ⟨rfl, by simpa [Memory.empty] using hlen, ?_, ?_, ?_⟩⟩
  · intro i st hst
    rw [hget i] at hst
    simp only [Memory.empty, List.length_nil, Nat.not_lt_zero, if_false, Nat.zero_add,
      Nat.sub_zero] at hst
    by_cases hi : i < n
    · simp only [hi, if_true] at hst
      cases hst
      simp
    · simp [hi] at hst
  · intro i st hst
    rw [hget i] at hst
    simp only [Memory.empty, List.length_nil, Nat.not_lt_zero, if_false, Nat.zero_add,
      Nat.sub_zero] at hst
    by_cases hi : i < n
    · simp only [hi, if_true] at hst
      cases hst
      simp [Memory.nodeList]
    · simp [hi] at hst
  · simp [hnodes1]

theorem flatMap_update_perm (f : Nat → List Nat) (t x : Nat) :
    ∀ (l : List Nat), l.Nodup → t ∈ l →
      (l.flatMap (Function.update f t (x :: f t))).Perm (x :: l.flatMap f) := by
  intro l
  induction l with
  | nil => intro _ h; simp at h
  | cons b l ih =>
    intro hnd hmem
    rcases List.nodup_cons.mp hnd with ⟨hb, hl⟩
    by_cases hbt : b = t
    · subst hbt
      have hsame : l.flatMap (Function.update f b (x :: f b)) = l.flatMap f := by
        apply List.flatMap_congr
        intro y hy
        have : y ≠ b := fun h => hb (h ▸ hy)
        simp [Function.update, this]
      simp [List.flatMap_cons, hsame]
    · have hmem1 : t ∈ l := by
        rcases List.mem_cons.mp hmem with h | h
        · exact absurd h.symm hbt
        · exact h
      have h1 := ih hl hmem1
      simp only [List.flatMap_cons, Function.update_noteq hbt]
      exact (List.Perm.append_left (f b) h1).trans List.perm_middle

theorem ThirdGraph.shaped_createNode (g : ThirdGraph) (m m1 : Memory NodeDataTy EdgeDataTy)
    (Ls : Nat → List Nat) (tid : Nat) (d : NodeDataTy) (N : NodeHandle)
    (hs : g.Shaped m Ls) (h : g.createNode tid d m = some (N, m1)) :
    N = some m.nodes.length ∧ m1.nodes.length = m.nodes.length + 1 ∧
      m1.isActive m.nodes.length = false ∧ (∀ k, k < m.nodes.length → m1.nodes[k]? = m.nodes[k]?) ∧
      g.Shaped m1 (Function.update Ls tid (m.nodes.length :: Ls tid)) := by
  have htid : tid < g.numThreads := by
    by_contra hlt
    simp [ThirdGraph.createNode, ThirdGraph.getLocal, hlt] at h
  have hlt : g.localState + tid < m.states.length := by
    rw [hs.base, hs.slots]; omega
  obtain ⟨st, hst⟩ : ∃ st, m.states[g.localState + tid]? = some st :=
    ⟨m.states[g.localState + tid], List.getElem?_eq_getElem hlt⟩
  rw [ThirdGraph.createNode_eq g tid d m st htid hst] at h
  have hN : N = some m.nodes.length := (Prod.mk.inj (Option.some.inj h)).1.symm
  have hm1 := (Prod.mk.inj (Option.some.inj h)).2.symm
  subst hm1
  have hbase := hs.base
  rw [hbase, Nat.zero_add] at hst
  have hkept : m.NextKept
      { nodes := m.nodes ++ [{ nextNode := st.head, active := false, data := d, edges := [] }],
        states := m.states.set (g.localState + tid) { st with head := some m.nodes.length } } := by
    intro a nd hnd
    have hlt : a < m.nodes.length := by
      rcases List.getElem?_eq_some.mp hnd with ⟨hlt, _⟩
      exact hlt
    exact ⟨nd, by simp [List.getElem?_append_left hlt, hnd], rfl⟩
  refine ⟨hN, by simp, by simp [Memory.isActive], ?_, ⟨hbase, by simpa using hs.slots, ?_, ?_, ?_⟩⟩
  · intro k hk
    simp [List.getElem?_append_left hk]
  · intro i st1 hst1
    simp only [hbase, Nat.zero_add] at hst1
    by_cases hi : tid = i
    · subst hi
      rw [getElem?_set_self_of_some hst] at hst1
      cases hst1
      exact hs.links tid st hst
    · rw [List.getElem?_set_ne hi] at hst1
      exact hs.links i st1 hst1
  · intro i st1 hst1
    simp only [hbase, Nat.zero_add] at hst1
    by_cases hi : tid = i
    · subst hi
      rw [getElem?_set_self_of_some hst] at hst1
      cases hst1
      simp only [Function.update_same]
      exact ⟨rfl, { nextNode := st.head, active := false, data := d, edges := [] }, by simp,
        Memory.nodeList_of_nextKept hkept _ _ (hs.lists tid st hst)⟩
    · rw [List.getElem?_set_ne hi] at hst1
      have hi1 : i ≠ tid := fun h => hi h.symm
      simp only [Function.update_noteq hi1]
      exact Memory.nodeList_of_nextKept hkept _ _ (hs.lists i st1 hst1)
  · have h1 := flatMap_update_perm Ls tid m.nodes.length (List.range g.numThreads)
      (List.nodup_range _) (List.mem_range.mpr htid)
    have h2 : (m.nodes.length :: (List.range g.numThreads).flatMap Ls).Perm
        (m.nodes.length :: List.range m.nodes.length) := List.Perm.cons _ hs.owns
    have h3 : (m.nodes.length :: List.range m.nodes.length).Perm
        (List.range (m.nodes.length + 1)) := by
      rw [List.range_succ]
      exact (List.perm_append_singleton _ _).symm
    simpa using (h1.trans h2).trans h3

theorem ThirdGraph.shaped_of_nextKept (g : ThirdGraph) (m m1 : Memory NodeDataTy EdgeDataTy)
    (Ls : Nat → List Nat) (hs : g.Shaped m Ls) (hstates : m1.states = m.states)
    (hlen : m1.nodes.length = m.nodes.length) (hk : m.NextKept m1) : g.Shaped m1 Ls := by
  refine ⟨hs.base, by rw [hstates]; exact hs.slots, ?_, ?_, by rw [hlen]; exact hs.owns⟩
  · intro i st hst
    rw [hstates] at hst
    exact hs.links i st hst
  · intro i st hst
    rw [hstates] at hst
    exact Memory.nodeList_of_nextKept hk _ _ (hs.lists i st hst)

theorem ThirdGraph.shaped_step [Inhabited EdgeDataTy] (g : ThirdGraph)
    (m m1 : Memory NodeDataTy EdgeDataTy) (Ls : Nat → List Nat)
    (op : ThirdGraph.Op NodeDataTy) (hs : g.Shaped m Ls)
    (h : ThirdGraph.step g m op = some m1) : ∃ Ls1, g.Shaped m1 Ls1 := by
  by_cases hop : ∃ tid d, op = ThirdGraph.Op.createNode tid d
  · rcases hop with ⟨tid, d, rfl⟩
    cases hc : g.createNode tid d m with
    | none => simp [ThirdGraph.step, hc] at h
    | some r =>
      rcases r with ⟨N, m2⟩
      have hm : m2 = m1 := by simpa [ThirdGraph.step, hc] using h
      subst hm
      exact ⟨_, (ThirdGraph.shaped_createNode g m m2 Ls tid d N hs hc).2.2.2.2⟩
  · have hop1 : ∀ tid d, op ≠ ThirdGraph.Op.createNode tid d :=
      fun tid d he => hop ⟨tid, d, he⟩
    rcases ThirdGraph.step_node_op g m m1 op hop1 h with rfl | ⟨a, nd, nd1, hnd, hnext, _, rfl⟩
    · exact ⟨Ls, hs⟩
    · exact ⟨Ls, ThirdGraph.shaped_of_nextKept g m _ Ls hs rfl (by simp)
        (Memory.nextKept_set m a nd nd1 hnd hnext)⟩

theorem ThirdGraph.shaped_run [Inhabited EdgeDataTy] (g : ThirdGraph) :
    ∀ (ops : List (ThirdGraph.Op NodeDataTy)) (m m1 : Memory NodeDataTy EdgeDataTy)
      (Ls : Nat → List Nat), g.Shaped m Ls → ThirdGraph.run g ops m = some m1 →
      ∃ Ls1, g.Shaped m1 Ls1 := by
  intro ops
  induction ops with
  | nil =>
    intro m m1 Ls hs h
    have : m = m1 := by simpa [ThirdGraph.run] using h
    subst this
    exact ⟨Ls, hs⟩
  | cons op ops ih =>
    intro m m1 Ls hs h
    cases hst : ThirdGraph.step g m op with
    | none => simp [ThirdGraph.run, hst] at h
    | some m2 =>
      rcases ThirdGraph.shaped_step g m m2 Ls op hs hst with ⟨Ls2, hs2⟩
      exact ih m2 m1 Ls2 hs2 (by simpa [ThirdGraph.run, hst] using h)

theorem ThirdGraph.shaped_reached [Inhabited EdgeDataTy] (n : Nat)
    (ops : List (ThirdGraph.Op NodeDataTy)) (g : ThirdGraph)
    (m : Memory NodeDataTy EdgeDataTy) (h : ThirdGraph.ReachedBy n ops g m) :
    g.numThreads = n ∧ ∃ Ls, g.Shaped m Ls := by
  rcases h with ⟨m0, hnew, hrun⟩
  rcases ThirdGraph.shaped_new n g m0 hnew with ⟨hn, _, hs0⟩
  exact ⟨hn, ThirdGraph.shaped_run g ops m0 m _ hs0 hrun⟩

/-! ## The chain of a shaped container -/

theorem ThirdGraph.chain_of_shaped (g : ThirdGraph) (m : Memory NodeDataTy EdgeDataTy)
    (Ls : Nat → List Nat) (hs : g.Shaped m Ls) :
    ∀ (len k : Nat), k + len = g.numThreads →
      m.chain (if k < g.numThreads then some k else none)
        ((List.range' k len).map (fun i => (i, Ls i))) := by
  intro len
  induction len with
  | zero =>
    intro k hk
    have : ¬ k < g.numThreads := by omega
    simp [this, Memory.chain]
  | succ len ih =>
    intro k hk
    have hlt : k < g.numThreads := by omega
    have hlt1 : k < m.states.length := by rw [hs.slots]; exact hlt
    obtain ⟨st, hst⟩ : ∃ st, m.states[k]? = some st :=
      ⟨m.states[k], List.getElem?_eq_getElem hlt1⟩
    have hnext := (hs.links k st hst).2
    have hrec := ih (k + 1) (by omega)
    rw [← hnext] at hrec
    simp only [hlt, if_true, List.range', List.map_cons]
    exact ⟨rfl, st, hst, hs.lists k st hst, hrec⟩

theorem chainNodes_map (Ls : Nat → List Nat) (l : List Nat) :
    chainNodes (l.map (fun i => (i, Ls i))) = l.flatMap Ls := by
  induction l with
  | nil => simp [chainNodes]
  | cons a l ih => simp [chainNodes_cons, ih]

theorem chainLinks_map (Ls : Nat → List Nat) (l : List Nat) :
    chainLinks (l.map (fun i => (i, Ls i))) = (l.flatMap Ls).length + l.length := by
  induction l with
  | nil => simp [chainLinks]
  | cons a l ih =>
    simp only [List.map_cons, chainLinks_cons, ih, List.flatMap_cons, List.length_append,
      List.length_cons]
    omega

theorem ThirdGraph.state_of_shaped (g : ThirdGraph) (m : Memory NodeDataTy EdgeDataTy)
    (Ls : Nat → List Nat) (hs : g.Shaped m Ls) (tid : Nat) (htid : tid < g.numThreads) :
    ∃ st, m.state (g.getLocal tid) = some st ∧ st.master = some 0 ∧
      m.nodeList st.head (Ls tid) := by
  have hlt1 : tid < m.states.length := by rw [hs.slots]; exact htid
  obtain ⟨st, hst⟩ : ∃ st, m.states[tid]? = some st :=
    ⟨m.states[tid], List.getElem?_eq_getElem hlt1⟩
  exact ⟨st, by simp [Memory.state, ThirdGraph.getLocal, htid, hs.base, hst],
    (hs.links tid st hst).1, hs.lists tid st hst⟩

/-- Global iteration in a shaped container: the active nodes of slot 0, slot 1, ... -/
theorem ThirdGraph.globalNodes_shaped (g : ThirdGraph) (m : Memory NodeDataTy EdgeDataTy)
    (Ls : Nat → List Nat) (hs : g.Shaped m Ls) (tid fuel : Nat) (htid : tid < g.numThreads)
    (hf : m.nodes.length + g.numThreads + 1 ≤ fuel) :
    g.globalNodes tid m fuel =
        some (((List.range g.numThreads).flatMap Ls).filter m.isActive) ∧
      g.size tid m fuel =
        some (toUnsigned (((List.range g.numThreads).flatMap Ls).filter m.isActive).length) := by
  rcases ThirdGraph.state_of_shaped g m Ls hs tid htid with ⟨st, hst, hmaster, _⟩
  have hchain := ThirdGraph.chain_of_shaped g m Ls hs g.numThreads 0 (by simp)
  have hpos : 0 < g.numThreads := by omega
  simp only [hpos, if_true, ← List.range_eq_range'] at hchain
  rw [← hmaster] at hchain
  have hne : (List.range g.numThreads).map (fun i => (i, Ls i)) ≠ [] := by
    intro h
    have := congrArg List.length h
    simp at this
    omega
  have hlinks : chainLinks ((List.range g.numThreads).map (fun i => (i, Ls i))) + 1 ≤ fuel := by
    rw [chainLinks_map, hs.owns.length_eq]
    simpa using hf
  have h1 := ThirdGraph.globalNodes_eq g tid m st _ fuel hst hchain hne hlinks
  have h2 := ThirdGraph.size_eq g tid m st _ fuel hst hchain hne hlinks
  rw [chainNodes_map] at h1 h2
  exact ⟨h1, h2⟩

theorem countP_range_getElem? {α : Type} (p : α → Bool) :
    ∀ (l : List α),
      (List.range l.length).countP (fun i => match l[i]? with | none => false | some x => p x) =
        l.countP p := by
  intro l
  induction l with
  | nil => simp
  | cons x l ih =>
    rw [List.length_cons, List.range_succ_eq_map, List.countP_cons, List.countP_cons,
      List.countP_map]
    have : ((fun i => match (x :: l)[i]? with | none => false | some y => p y) ∘ Nat.succ) =
        (fun i => match l[i]? with | none => false | some y => p y) := by
      funext i
      simp
    rw [this, ih]
    simp

theorem Memory.activeCount_eq (m : Memory NodeDataTy EdgeDataTy) :
    ((List.range m.nodes.length).filter m.isActive).length = m.activeCount := by
  rw [← List.countP_eq_length_filter]
  have h := countP_range_getElem? (fun nd : GraphNode NodeDataTy EdgeDataTy => nd.active) m.nodes
  unfold Memory.activeCount
  rw [← h]
  congr 1
  funext i
  unfold Memory.isActive
  cases m.nodes[i]? <;> rfl

theorem Memory.isActive_lt (m : Memory NodeDataTy EdgeDataTy) (k : Nat)
    (h : m.isActive k = true) : k < m.nodes.length := by
  by_contra hlt
  have : m.nodes[k]? = none := List.getElem?_eq_none (by omega)
  simp [Memory.isActive, this] at h

/-- In a shaped container the global iteration holds every active node exactly once and
nothing else; `size()` is the number of active nodes as an `unsigned`. -/
theorem ThirdGraph.globalNodes_count (g : ThirdGraph) (m : Memory NodeDataTy EdgeDataTy)
    (Ls : Nat → List Nat) (hs : g.Shaped m Ls) (tid fuel : Nat) (htid : tid < g.numThreads)
    (hf : m.nodes.length + g.numThreads + 1 ≤ fuel) :
    ∃ xs, g.globalNodes tid m fuel = some xs ∧
      (∀ k, xs.count k = if m.isActive k = true then 1 else 0) ∧
      g.size tid m fuel = some (toUnsigned m.activeCount) := by
  rcases ThirdGraph.globalNodes_shaped g m Ls hs tid fuel htid hf with ⟨h1, h2⟩
  have hperm : (((List.range g.numThreads).flatMap Ls).filter m.isActive).Perm
      ((List.range m.nodes.length).filter m.isActive) := List.Perm.filter _ hs.owns
  refine ⟨_, h1, ?_, ?_⟩
  · intro k
    rw [hperm.count_eq k]
    by_cases hk : m.isActive k = true
    · have hmem : k ∈ (List.range m.nodes.length).filter m.isActive := by
        simp [List.mem_filter, hk, Memory.isActive_lt m k hk]
      rw [List.count_eq_one_of_mem ((List.nodup_range _).filter _) hmem]
      simp [hk]
    · have hmem : k ∉ (List.range m.nodes.length).filter m.isActive := by
        simp [List.mem_filter, hk]
      rw [List.count_eq_zero_of_not_mem hmem]
      simp [hk]
  · rw [h2, hperm.length_eq, Memory.activeCount_eq]

/-! ## The active flag along a call sequence -/

theorem ThirdGraph.createNode_some (g : ThirdGraph) (tid : Nat) (d : NodeDataTy)
    (m m1 : Memory NodeDataTy EdgeDataTy) (N : NodeHandle)
    (h : g.createNode tid d m = some (N, m1)) :
    ∃ st, tid < g.numThreads ∧ m.states[g.localState + tid]? = some st ∧
      N = some m.nodes.length ∧
      m1 = { nodes := m.nodes ++
               [{ nextNode := st.head, active := false, data := d, edges := [] }],
             states := m.states.set (g.localState + tid)
               { st with head := some m.nodes.length } } := by
  have htid : tid < g.numThreads := by
    by_contra hlt
    simp [ThirdGraph.createNode, ThirdGraph.getLocal, hlt] at h
  cases hst : m.states[g.localState + tid]? with
  | none => simp [ThirdGraph.createNode, ThirdGraph.getLocal, htid, hst] at h
  | some st =>
    rw [ThirdGraph.createNode_eq g tid d m st htid hst] at h
    exact ⟨st, htid, rfl, (Prod.mk.inj (Option.some.inj h)).1.symm,
      (Prod.mk.inj (Option.some.inj h)).2.symm⟩

theorem Memory.isActive_set (m : Memory NodeDataTy EdgeDataTy) (a k : Nat)
    (nd nd1 : GraphNode NodeDataTy EdgeDataTy) (h : m.nodes[a]? = some nd) :
    Memory.isActive { nodes := m.nodes.set a nd1, states := m.states } k =
      if a = k then nd1.active else m.isActive k := by
  by_cases hk : a = k
  · subst hk
    simp [Memory.isActive, getElem?_set_self_of_some h]
  · simp [Memory.isActive, List.getElem?_set_ne hk, hk]

theorem ThirdGraph.createNode_isActive (g : ThirdGraph) (tid : Nat) (d : NodeDataTy)
    (m m1 : Memory NodeDataTy EdgeDataTy) (N : NodeHandle)
    (h : g.createNode tid d m = some (N, m1)) (k : Nat) : m1.isActive k = m.isActive k := by
  rcases ThirdGraph.createNode_some g tid d m m1 N h with ⟨st, _, _, _, rfl⟩
  rcases Nat.lt_trichotomy k m.nodes.length with hk | hk | hk
  · simp [Memory.isActive, List.getElem?_append_left hk]
  · subst hk
    simp [Memory.isActive]
  · have h1 : m.nodes[k]? = none := List.getElem?_eq_none (by omega)
    have h2 : (m.nodes ++ [({ nextNode := st.head, active := false, data := d, edges := [] } :
        GraphNode NodeDataTy EdgeDataTy)])[k]? = none :=
      List.getElem?_eq_none (by simp; omega)
    simp [Memory.isActive, h1, h2]

theorem ThirdGraph.addNode_isActive (m m1 : Memory NodeDataTy EdgeDataTy) (a : Nat)
    (h : ThirdGraph.addNode (some a) m = some m1) (k : Nat) :
    m1.isActive k = if a = k then true else m.isActive k := by
  cases hnd : m.nodes[a]? with
  | none => simp [ThirdGraph.addNode, Memory.writeNode, hnd] at h
  | some nd =>
    rw [ThirdGraph.addNode_eq m a nd hnd] at h
    rw [← Option.some.inj h, Memory.isActive_set m a k nd _ hnd]

theorem ThirdGraph.removeNode_isActive (m m1 : Memory NodeDataTy EdgeDataTy) (a : Nat)
    (h : ThirdGraph.removeNode (some a) m = some m1) (k : Nat) :
    m1.isActive k = if a = k then false else m.isActive k := by
  cases hnd : m.nodes[a]? with
  | none => simp [ThirdGraph.removeNode, hnd] at h
  | some nd =>
    cases hact : nd.active with
    | true =>
      rw [ThirdGraph.removeNode_eq_active m a nd hnd hact] at h
      rw [← Option.some.inj h, Memory.isActive_set m a k nd _ hnd]
    | false =>
      rw [ThirdGraph.removeNode_eq_inactive m a nd hnd hact] at h
      rw [← Option.some.inj h]
      by_cases hk : a = k
      · subst hk
        simp [Memory.isActive, hnd, hact]
      · simp [hk]

theorem ThirdGraph.addEdge_isActive [Inhabited EdgeDataTy] (m m1 : Memory NodeDataTy EdgeDataTy)
    (src dst : NodeHandle) (h : ThirdGraph.addEdge src dst m = some m1) (k : Nat) :
    m1.isActive k = m.isActive k := by
  cases src with
  | none => simp [ThirdGraph.addEdge] at h
  | some a =>
    cases dst with
    | none => simp [ThirdGraph.addEdge] at h
    | some b =>
      cases hnd : m.nodes[a]? with
      | none => simp [ThirdGraph.addEdge, Memory.writeNode, hnd] at h
      | some nd =>
        rw [ThirdGraph.addEdge_eq m a (some b) nd hnd (by simp)] at h
        rw [← Option.some.inj h, Memory.isActive_set m a k nd _ hnd]
        by_cases hk : a = k
        · subst hk
          simp [Memory.isActive, hnd]
        · simp [hk]

/-- Only `addNode(k)` can switch node `k` on. -/
theorem ThirdGraph.step_stays_inactive [Inhabited EdgeDataTy] (g : ThirdGraph)
    (m m1 : Memory NodeDataTy EdgeDataTy) (op : ThirdGraph.Op NodeDataTy) (k : Nat)
    (h : ThirdGraph.step g m op = some m1) (hop : op ≠ ThirdGraph.Op.addNode (some k))
    (hk : m.isActive k = false) : m1.isActive k = false := by
  cases op with
  | createNode tid d =>
    cases hc : g.createNode tid d m with
    | none => simp [ThirdGraph.step, hc] at h
    | some r =>
      rcases r with ⟨N, m2⟩
      have hm : m2 = m1 := by simpa [ThirdGraph.step, hc] using h
      subst hm
      rw [ThirdGraph.createNode_isActive g tid d m m2 N hc k, hk]
  | addNode N =>
    cases N with
    | none => simp [ThirdGraph.step, ThirdGraph.addNode] at h
    | some a =>
      have hak : a ≠ k := fun he => hop (by rw [he])
      rw [ThirdGraph.addNode_isActive m m1 a h k]
      simp [hak, hk]
  | removeNode N =>
    cases N with
    | none => simp [ThirdGraph.step, ThirdGraph.removeNode] at h
    | some a =>
      rw [ThirdGraph.removeNode_isActive m m1 a h k]
      by_cases hak : a = k <;> simp [hak, hk]
  | addEdge src dst =>
    rw [ThirdGraph.addEdge_isActive m m1 src dst h k, hk]

/-- Only `removeNode(k)` can switch node `k` off. -/
theorem ThirdGraph.step_stays_active [Inhabited EdgeDataTy] (g : ThirdGraph)
    (m m1 : Memory NodeDataTy EdgeDataTy) (op : ThirdGraph.Op NodeDataTy) (k : Nat)
    (h : ThirdGraph.step g m op = some m1) (hop : op ≠ ThirdGraph.Op.removeNode (some k))
    (hk : m.isActive k = true) : m1.isActive k = true := by
  cases op with
  | createNode tid d =>
    cases hc : g.createNode tid d m with
    | none => simp [ThirdGraph.step, hc] at h
    | some r =>
      rcases r with ⟨N, m2⟩
      have hm : m2 = m1 := by simpa [ThirdGraph.step, hc] using h
      subst hm
      rw [ThirdGraph.createNode_isActive g tid d m m2 N hc k, hk]
  | addNode N =>
    cases N with
    | none => simp [ThirdGraph.step, ThirdGraph.addNode] at h
    | some a =>
      rw [ThirdGraph.addNode_isActive m m1 a h k]
      by_cases hak : a = k <;> simp [hak, hk]
  | removeNode N =>
    cases N with
    | none => simp [ThirdGraph.step, ThirdGraph.removeNode] at h
    | some a =>
      have hak : a ≠ k := fun he => hop (by rw [he])
      rw [ThirdGraph.removeNode_isActive m m1 a h k]
      simp [hak, hk]
  | addEdge src dst =>
    rw [ThirdGraph.addEdge_isActive m m1 src dst h k, hk]

theorem ThirdGraph.run_stays_inactive [Inhabited EdgeDataTy] (g : ThirdGraph) (k : Nat) :
    ∀ (ops : List (ThirdGraph.Op NodeDataTy)) (m m1 : Memory NodeDataTy EdgeDataTy),
      ThirdGraph.run g ops m = some m1 → ThirdGraph.Op.addNode (some k) ∉ ops →
      m.isActive k = false → m1.isActive k = false := by
  intro ops
  induction ops with
  | nil =>
    intro m m1 h _ hk
    have : m = m1 := by simpa [ThirdGraph.run] using h
    rw [← this, hk]
  | cons op ops ih =>
    intro m m1 h hnot hk
    cases hst : ThirdGraph.step g m op with
    | none => simp [ThirdGraph.run, hst] at h
    | some m2 =>
      have hop : op ≠ ThirdGraph.Op.addNode (some k) :=
        fun he => hnot (by rw [he]; exact List.mem_cons_self _ _)
      exact ih m2 m1 (by simpa [ThirdGraph.run, hst] using h)
        (fun hmem => hnot (List.mem_cons_of_mem _ hmem))
        (ThirdGraph.step_stays_inactive g m m2 op k hst hop hk)

theorem ThirdGraph.run_stays_active [Inhabited EdgeDataTy] (g : ThirdGraph) (k : Nat) :
    ∀ (ops : List (ThirdGraph.Op NodeDataTy)) (m m1 : Memory NodeDataTy EdgeDataTy),
      ThirdGraph.run g ops m = some m1 → ThirdGraph.Op.removeNode (some k) ∉ ops →
      m.isActive k = true → m1.isActive k = true := by
  intro ops
  induction ops with
  | nil =>
    intro m m1 h _ hk
    have : m = m1 := by simpa [ThirdGraph.run] using h
    rw [← this, hk]
  | cons op ops ih =>
    intro m m1 h hnot hk
    cases hst : ThirdGraph.step g m op with
    | none => simp [ThirdGraph.run, hst] at h
    | some m2 =>
      have hop : op ≠ ThirdGraph.Op.removeNode (some k) :=
        fun he => hnot (by rw [he]; exact List.mem_cons_self _ _)
      exact ih m2 m1 (by simpa [ThirdGraph.run, hst] using h)
        (fun hmem => hnot (List.mem_cons_of_mem _ hmem))
        (ThirdGraph.step_stays_active g m m2 op k hst hop hk)

theorem ThirdGraph.run_append [Inhabited EdgeDataTy] (g : ThirdGraph) :
    ∀ (ops1 ops2 : List (ThirdGraph.Op NodeDataTy)) (m : Memory NodeDataTy EdgeDataTy),
      ThirdGraph.run g (ops1 ++ ops2) m =
        match ThirdGraph.run g ops1 m with
        | none => none
        | some m1 => ThirdGraph.run g ops2 m1 := by
  intro ops1
  induction ops1 with
  | nil => intro ops2 m; simp [ThirdGraph.run]
  | cons op ops1 ih =>
    intro ops2 m
    cases hst : ThirdGraph.step g m op with
    | none => simp [ThirdGraph.run, hst]
    | some m2 => simp [ThirdGraph.run, hst, ih]

/-! ## Edge traversal -/

theorem ThirdGraph.is_edge_of_valid (m : Memory NodeDataTy EdgeDataTy) (e : Edge EdgeDataTy)
    (h : ∃ nd, m.node e.dst = some nd) : ThirdGraph.is_edge m e = some (m.edgeLive e) := by
  rcases h with ⟨nd, hnd⟩
  simp [ThirdGraph.is_edge, Memory.edgeLive, hnd]

theorem ThirdGraph.lockLoop_of_valid (m : Memory NodeDataTy EdgeDataTy) :
    ∀ (es : List (Edge EdgeDataTy)), m.dstValid es → ThirdGraph.lockLoop m es = some () := by
  intro es
  induction es with
  | nil => intro _; rfl
  | cons e es ih =>
    intro hv
    have he := ThirdGraph.is_edge_of_valid m e (hv e (List.mem_cons_self _ _))
    have hes := ih (fun x hx => hv x (List.mem_cons_of_mem _ hx))
    simp [ThirdGraph.lockLoop, he, hes]

theorem ThirdGraph.edge_iterator.satisfy_predicate_of_valid (m : Memory NodeDataTy EdgeDataTy) :
    ∀ (es : List (Edge EdgeDataTy)), m.dstValid es →
      ThirdGraph.edge_iterator.satisfy_predicate m es =
        some (es.dropWhile (fun e => !m.edgeLive e)) := by
  intro es
  induction es with
  | nil => intro _; rfl
  | cons e es ih =>
    intro hv
    have he := ThirdGraph.is_edge_of_valid m e (hv e (List.mem_cons_self _ _))
    have hes := ih (fun x hx => hv x (List.mem_cons_of_mem _ hx))
    cases hl : m.edgeLive e with
    | true => simp [ThirdGraph.edge_iterator.satisfy_predicate, he, hl]
    | false => simp [ThirdGraph.edge_iterator.satisfy_predicate, he, hl, hes]

theorem dropWhile_not_valid {α : Type} (p : α → Bool) (l : List α) (q : α → Prop)
    (h : ∀ x ∈ l, q x) : ∀ x ∈ l.dropWhile p, q x :=
  fun x hx => h x ((List.dropWhile_sublist p).subset hx)

theorem filter_dropWhile_not {α : Type} (p : α → Bool) :
    ∀ (l : List α), (l.dropWhile (fun x => !p x)).filter p = l.filter p := by
  intro l
  induction l with
  | nil => rfl
  | cons x l ih =>
    cases hx : p x with
    | true => simp [List.dropWhile, hx]
    | false => simp [List.dropWhile, hx, ih]

theorem dropWhile_not_cons {α : Type} (p : α → Bool) :
    ∀ (l : List α) (x : α) (r : List α), l.dropWhile (fun y => !p y) = x :: r → p x = true := by
  intro l
  induction l with
  | nil => intro x r h; simp at h
  | cons y l ih =>
    intro x r h
    cases hy : p y with
    | true =>
      simp [List.dropWhile, hy] at h
      rw [← h.1]; exact hy
    | false =>
      simp [List.dropWhile, hy] at h
      exact ih x r h

theorem length_dropWhile_le {α : Type} (p : α → Bool) (l : List α) :
    (l.dropWhile p).length ≤ l.length :=
  (List.dropWhile_sublist p).length_le

/-- Stepping a filter iterator over edges with valid destinations lists the edges with
an active destination. -/
theorem ThirdGraph.edge_iterator.toList_filter (m : Memory NodeDataTy EdgeDataTy) :
    ∀ (fuel : Nat) (es : List (Edge EdgeDataTy)), m.dstValid es → es.length + 1 ≤ fuel →
      ThirdGraph.edge_iterator.toList m fuel { base := es.dropWhile (fun e => !m.edgeLive e) }
        { base := [] } = some (es.filter m.edgeLive) := by
  intro fuel
  induction fuel with
  | zero => intro es _ hf; omega
  | succ k ih =>
    intro es hv hf
    cases hd : es.dropWhile (fun e => !m.edgeLive e) with
    | nil =>
      have hfil := filter_dropWhile_not m.edgeLive es
      rw [hd] at hfil
      simp [ThirdGraph.edge_iterator.toList, ThirdGraph.edge_iterator.eq, ← hfil]
    | cons e r =>
      have hlive := dropWhile_not_cons m.edgeLive es e r hd
      have hsub : (e :: r).length ≤ es.length := by
        rw [← hd]; exact length_dropWhile_le _ es
      have hvr : m.dstValid r := by
        intro x hx
        exact dropWhile_not_valid _ es _ hv x (by rw [hd]; exact List.mem_cons_of_mem _ hx)
      have hsat := ThirdGraph.edge_iterator.satisfy_predicate_of_valid m r hvr
      have hrec := ih r hvr (by simp at hsub; omega)
      have hfil := filter_dropWhile_not m.edgeLive es
      rw [hd] at hfil
      simp [ThirdGraph.edge_iterator.toList, ThirdGraph.edge_iterator.eq,
        ThirdGraph.edge_iterator.increment, hsat, hrec, ← hfil, hlive]

theorem ThirdGraph.edges_eq (m : Memory NodeDataTy EdgeDataTy) (N : NodeHandle)
    (nd : GraphNode NodeDataTy EdgeDataTy) (fuel : Nat) (hnd : m.node N = some nd)
    (hv : m.dstValid nd.edges) (hf : nd.edges.length + 1 ≤ fuel) :
    ThirdGraph.edges N m fuel = some (nd.edges.filter m.edgeLive) := by
  simp [ThirdGraph.edges, ThirdGraph.edge_begin, ThirdGraph.edge_end, hnd,
    ThirdGraph.lockLoop_of_valid m nd.edges hv,
    ThirdGraph.edge_iterator.satisfy_predicate_of_valid m nd.edges hv,
    ThirdGraph.edge_iterator.toList_filter m fuel nd.edges hv hf]

/-! ## removeNode, addNode -/

theorem Memory.chain_of_nextKept {m m1 : Memory NodeDataTy EdgeDataTy}
    (hk : m.NextKept m1) (hstates : m1.states = m.states) :
    ∀ (c : List (Nat × List Nat)) (p : StatePtr), m.chain p c → m1.chain p c := by
  intro c
  induction c with
  | nil => intro p h; simpa [Memory.chain] using h
  | cons x c ih =>
    intro p h
    rcases x with ⟨a, L⟩
    rcases h with ⟨hp, st, hst, hL, hc⟩
    exact ⟨hp, st, by rw [hstates]; exact hst, Memory.nodeList_of_nextKept hk L _ hL,
      ih _ hc⟩

/-- What `removeNode` does to a node in memory. -/
theorem ThirdGraph.removeNode_spec (m : Memory NodeDataTy EdgeDataTy) (a : Nat)
    (nd : GraphNode NodeDataTy EdgeDataTy) (hnd : m.nodes[a]? = some nd) :
    ∃ m1 nd1, ThirdGraph.removeNode (some a) m = some m1 ∧ m1.nodes[a]? = some nd1 ∧
      nd1.active = false ∧ nd1.nextNode = nd.nextNode ∧ nd1.data = nd.data ∧
      (nd.active = true → nd1.edges = []) ∧ (nd.active = false → m1 = m) ∧
      m1.states = m.states ∧ m.NextKept m1 ∧
      ∀ k : Nat, k ≠ a → m1.nodes[k]? = m.nodes[k]? := by
  cases hact : nd.active with
  | true =>
    refine ⟨_, { nd with active := false, edges := [] },
      ThirdGraph.removeNode_eq_active m a nd hnd hact, getElem?_set_self_of_some hnd, rfl, rfl,
      rfl, fun _ => rfl, fun h => by simp at h, rfl,
      Memory.nextKept_set m a nd _ hnd rfl, ?_⟩
    intro k hk
    exact List.getElem?_set_ne (fun h => hk h.symm)
  | false =>
    exact ⟨m, nd, ThirdGraph.removeNode_eq_inactive m a nd hnd hact, hnd, hact, rfl, rfl,
      fun h => by simp at h, fun _ => rfl, rfl, Memory.nextKept_refl m, fun _ _ => rfl⟩

theorem ThirdGraph.addNode_addNode (N : NodeHandle) (m : Memory NodeDataTy EdgeDataTy) :
    (ThirdGraph.addNode N m).bind (ThirdGraph.addNode N) = ThirdGraph.addNode N m := by
  cases N with
  | none => simp [ThirdGraph.addNode]
  | some a =>
    cases hnd : m.nodes[a]? with
    | none => simp [ThirdGraph.addNode, Memory.writeNode, hnd]
    | some nd =>
      rw [ThirdGraph.addNode_eq m a nd hnd, Option.some_bind,
        ThirdGraph.addNode_eq _ a { nd with active := true } (getElem?_set_self_of_some hnd)]
      simp [List.set_set]

theorem ThirdGraph.removeNode_removeNode (N : NodeHandle) (m : Memory NodeDataTy EdgeDataTy) :
    (ThirdGraph.removeNode N m).bind (ThirdGraph.removeNode N) = ThirdGraph.removeNode N m := by
  cases N with
  | none => simp [ThirdGraph.removeNode]
  | some a =>
    cases hnd : m.nodes[a]? with
    | none => simp [ThirdGraph.removeNode, hnd]
    | some nd =>
      cases hact : nd.active with
      | true =>
        rw [ThirdGraph.removeNode_eq_active m a nd hnd hact, Option.some_bind]
        exact ThirdGraph.removeNode_eq_inactive _ a { nd with active := false, edges := [] }
          (getElem?_set_self_of_some hnd) rfl
      | false =>
        rw [ThirdGraph.removeNode_eq_inactive m a nd hnd hact, Option.some_bind,
          ThirdGraph.removeNode_eq_inactive m a nd hnd hact]

/-- After `removeNode(D)` another node `k` still stores its edges, their destination
handles still refer to nodes, and the destination `D` is inactive. -/
theorem ThirdGraph.edges_after_removeNode (m m1 : Memory NodeDataTy EdgeDataTy) (k D : Nat)
    (nd : GraphNode NodeDataTy EdgeDataTy) (hk : k ≠ D) (hnd : m.nodes[k]? = some nd)
    (hv : m.dstValid nd.edges) (hrem : ThirdGraph.removeNode (some D) m = some m1) :
    m1.nodes[k]? = some nd ∧ m1.dstValid nd.edges ∧
      ∀ e ∈ nd.edges, e.dst = some D → m1.edgeLive e = false := by
  cases hD : m.nodes[D]? with
  | none => simp [ThirdGraph.removeNode, hD] at hrem
  | some ndD =>
    rcases ThirdGraph.removeNode_spec m D ndD hD with
      ⟨m2, nd2, hrem2, hnd2, hact2, _, _, _, _, _, _, hother⟩
    rw [hrem2] at hrem
    have hm : m2 = m1 := Option.some.inj hrem
    subst hm
    refine ⟨by rw [hother k hk]; exact hnd, ?_, ?_⟩
    · intro e he
      rcases hv e he with ⟨x, hx⟩
      cases hdst : e.dst with
      | none => rw [hdst] at hx; simp [Memory.node] at hx
      | some j =>
        rw [hdst] at hx
        by_cases hj : j = D
        · subst hj
          exact ⟨nd2, by simpa [Memory.node] using hnd2⟩
        · exact ⟨x, by simpa [Memory.node, hother j hj] using hx⟩
    · intro e _ hdst
      simp [Memory.edgeLive, hdst, Memory.node, hnd2, hact2]

/-! ## Frame of createNode -/

theorem ThirdGraph.createNode_frame (g : ThirdGraph) (tid : Nat) (d : NodeDataTy)
    (m m1 : Memory NodeDataTy EdgeDataTy) (N : NodeHandle)
    (h : g.createNode tid d m = some (N, m1)) :
    (∀ p : Nat, p ≠ g.localState + tid → m1.states[p]? = m.states[p]?) ∧
      (∃ st st1, m.states[g.localState + tid]? = some st ∧
        m1.states[g.localState + tid]? = some st1 ∧ st1.next = st.next ∧
        st1.master = st.master) ∧
      (∀ (k : Nat) (nd : GraphNode NodeDataTy EdgeDataTy),
        m.nodes[k]? = some nd → m1.nodes[k]? = some nd) ∧
      m1.states.length = m.states.length := by
  rcases ThirdGraph.createNode_some g tid d m m1 N h with ⟨st, _, hst, _, rfl⟩
  refine ⟨?_, ⟨st, _, hst, getElem?_set_self_of_some hst, rfl, rfl⟩, ?_, by simp⟩
  · intro p hp
    exact List.getElem?_set_ne (fun h => hp h.symm)
  · intro k nd hnd
    have hlt : k < m.nodes.length := by
      rcases List.getElem?_eq_some.mp hnd with ⟨hlt, _⟩
      exact hlt
    simp [List.getElem?_append_left hlt, hnd]

/-! ## The local iterator and the size reduction -/

theorem ThirdGraph.local_iterator.skip_spec (m : Memory NodeDataTy EdgeDataTy) :
    ∀ (L : List Nat) (fuel : Nat) (h : NodeHandle), m.nodeList h L → L.length < fuel →
      ∃ h1, ThirdGraph.local_iterator.skip m fuel h = some h1 ∧
        m.nodeList h1 (L.dropWhile (fun a => !m.isActive a)) := by
  intro L
  induction L with
  | nil =>
    intro fuel h hl hf
    obtain ⟨k, rfl⟩ : ∃ k, fuel = k + 1 := ⟨fuel - 1, by omega⟩
    have hh : h = none := by simpa [Memory.nodeList] using hl
    subst hh
    exact ⟨none, by simp [ThirdGraph.local_iterator.skip], by simp [Memory.nodeList]⟩
  | cons a L ih =>
    intro fuel h hl hf
    obtain ⟨k, rfl⟩ : ∃ k, fuel = k + 1 := ⟨fuel - 1, by omega⟩
    rcases hl with ⟨hh, nd, hnd, hrest⟩
    subst hh
    have hact := Memory.isActive_of_get hnd
    cases hb : nd.active with
    | true =>
      refine ⟨some a, by simp [ThirdGraph.local_iterator.skip, hnd, hb], ?_⟩
      simp only [List.dropWhile, hact, hb, Bool.not_true]
      exact ⟨rfl, nd, hnd, hrest⟩
    | false =>
      rcases ih k nd.nextNode hrest (by simpa using hf) with ⟨h1, hskip, hlist⟩
      refine ⟨h1, by simp [ThirdGraph.local_iterator.skip, hnd, hb, hskip], ?_⟩
      simpa [List.dropWhile, hact, hb] using hlist

theorem ThirdGraph.local_iterator.next_spec (m : Memory NodeDataTy EdgeDataTy)
    (it : ThirdGraph.local_iterator) (a : Nat) (L : List Nat) (fuel : Nat)
    (hl : m.nodeList it.n (a :: L)) (hf : L.length < fuel) :
    ∃ h1, ThirdGraph.local_iterator.next m fuel it = some { n := h1 } ∧
      m.nodeList h1 (L.dropWhile (fun a => !m.isActive a)) := by
  rcases hl with ⟨hn, nd, hnd, hrest⟩
  rcases ThirdGraph.local_iterator.skip_spec m L fuel nd.nextNode hrest hf with
    ⟨h1, hskip, hlist⟩
  exact ⟨h1, by simp [ThirdGraph.local_iterator.next, hn, Memory.node, hnd, hskip], hlist⟩

theorem ThirdGraph.local_iterator.copy_spec (m : Memory NodeDataTy EdgeDataTy)
    (it : ThirdGraph.local_iterator) (L : List Nat) (fuel : Nat)
    (hl : m.nodeList it.n L) (hf : L.length ≤ fuel) :
    ∃ h1, ThirdGraph.local_iterator.copy m fuel it = some { n := h1 } ∧
      m.nodeList h1 (L.dropWhile (fun a => !m.isActive a)) := by
  cases L with
  | nil =>
    have hn : it.n = none := by simpa [Memory.nodeList] using hl
    refine ⟨none, ?_, by simp [Memory.nodeList]⟩
    cases it
    simp at hn
    simp [ThirdGraph.local_iterator.copy, hn]
  | cons a L =>
    have hl1 := hl
    rcases hl with ⟨hn, nd, hnd, hrest⟩
    have hact := Memory.isActive_of_get hnd
    cases hb : nd.active with
    | true =>
      refine ⟨some a, ?_, ?_⟩
      · cases it
        simp at hn
        simp [ThirdGraph.local_iterator.copy, hn, hnd, hb]
      · simp only [List.dropWhile, hact, hb, Bool.not_true]
        exact ⟨rfl, nd, hnd, hrest⟩
    | false =>
      rcases ThirdGraph.local_iterator.next_spec m it a L fuel hl1
        (by simpa using hf) with ⟨h1, hnext, hlist⟩
      refine ⟨h1, by simp [ThirdGraph.local_iterator.copy, hn, hnd, hb, hnext], ?_⟩
      simpa [List.dropWhile, hact, hb] using hlist

theorem ThirdGraph.local_iterator.distanceLoop_spec (m : Memory NodeDataTy EdgeDataTy) :
    ∀ (fuel : Nat) (L : List Nat) (it : ThirdGraph.local_iterator),
      m.nodeList it.n (L.dropWhile (fun a => !m.isActive a)) → L.length + 1 ≤ fuel →
      ThirdGraph.local_iterator.distanceLoop m fuel it ThirdGraph.local_end =
        some (L.filter m.isActive).length := by
  intro fuel
  induction fuel with
  | zero => intro L it _ hf; omega
  | succ k ih =>
    intro L it hl hf
    have hfil := filter_dropWhile_not m.isActive L
    have hle := length_dropWhile_le (fun a => !m.isActive a) L
    cases hd : L.dropWhile (fun a => !m.isActive a) with
    | nil =>
      rw [hd] at hl hfil
      have hn : it.n = none := by simpa [Memory.nodeList] using hl
      simp [ThirdGraph.local_iterator.distanceLoop, hn, ThirdGraph.local_end, ← hfil]
    | cons a D =>
      rw [hd] at hl hfil hle
      have hact := dropWhile_not_cons m.isActive L a D hd
      have hn : it.n = some a := hl.1
      simp only [List.length_cons] at hle
      rcases ThirdGraph.local_iterator.next_spec m it a D (k + 1) hl (by omega) with
        ⟨h1, hnext, hlist⟩
      have hrec := ih D { n := h1 } hlist (by omega)
      simp [ThirdGraph.local_iterator.distanceLoop, hn, ThirdGraph.local_end, hnext] at hrec ⊢
      simp [hrec, ← hfil, hact]

/-- The count `std::distance(local_begin(), local_end())` of worker `tid`. -/
theorem ThirdGraph.local_distance_spec (g : ThirdGraph) (m : Memory NodeDataTy EdgeDataTy)
    (tid : Nat) (st : SubGraphState) (L : List Nat) (fuel : Nat)
    (hst : m.state (g.getLocal tid) = some st) (hl : m.nodeList st.head L)
    (hf : L.length + 1 ≤ fuel) :
    ∃ b, g.local_begin tid m = some b ∧
      b.distance m fuel ThirdGraph.local_end = some (L.filter m.isActive).length := by
  refine ⟨{ n := st.head }, by simp [ThirdGraph.local_begin, hst], ?_⟩
  rcases ThirdGraph.local_iterator.copy_spec m { n := st.head } L fuel hl (by omega) with
    ⟨h1, hcopy, hlist⟩
  have hend : ThirdGraph.local_iterator.copy m fuel ThirdGraph.local_end =
      some ThirdGraph.local_end := by
    simp [ThirdGraph.local_iterator.copy, ThirdGraph.local_end]
  simp only [ThirdGraph.local_iterator.distance, hcopy, hend]
  exact ThirdGraph.local_iterator.distanceLoop_spec m fuel L { n := h1 } hlist hf

theorem toUnsigned_add_toUnsigned (a b : Nat) :
    toUnsigned (a + toUnsigned b) = toUnsigned (a + b) := by
  simp [toUnsigned, Nat.add_mod]

theorem toUnsigned_toUnsigned_add (a b : Nat) :
    toUnsigned (toUnsigned a + b) = toUnsigned (a + b) := by
  simp [toUnsigned, Nat.add_mod]

theorem length_le_flatMap (f : Nat → List Nat) :
    ∀ (l : List Nat) (t : Nat), t ∈ l → (f t).length ≤ (l.flatMap f).length := by
  intro l
  induction l with
  | nil => intro t h; simp at h
  | cons b l ih =>
    intro t h
    rcases List.mem_cons.mp h with rfl | h
    · simp
    · have := ih t h
      simp only [List.flatMap_cons, List.length_append]
      omega

/-- The broadcast adds up, as `unsigned`, the active nodes of the visited workers. -/
theorem on_each_spec (g : ThirdGraph) (m : Memory NodeDataTy EdgeDataTy)
    (Ls : Nat → List Nat) (hs : g.Shaped m Ls) (fuel : Nat)
    (hf : m.nodes.length + g.numThreads + 1 ≤ fuel) :
    ∀ (tids : List Nat) (r : R), (∀ t ∈ tids, t < g.numThreads) →
      ∃ r1, on_each g m fuel tids r = some r1 ∧
        toUnsigned r1.i = toUnsigned (r.i + ((tids.flatMap Ls).filter m.isActive).length) ∧
        (r.i = toUnsigned r.i → r1.i = toUnsigned r1.i) := by
  intro tids
  induction tids with
  | nil => intro r _; exact ⟨r, rfl, by simp, fun h => h⟩
  | cons t tids ih =>
    intro r ht
    have htl : t < g.numThreads := ht t (List.mem_cons_self _ _)
    rcases ThirdGraph.state_of_shaped g m Ls hs t htl with ⟨st, hst, _, hl⟩
    have hlen : (Ls t).length ≤ m.nodes.length := by
      have h1 := length_le_flatMap Ls (List.range g.numThreads) t (List.mem_range.mpr htl)
      rw [hs.owns.length_eq] at h1
      simpa using h1
    rcases ThirdGraph.local_distance_spec g m t st (Ls t) fuel hst hl (by omega) with
      ⟨b, hb, hd⟩
    rcases ih (r.add (toUnsigned ((Ls t).filter m.isActive).length))
      (fun x hx => ht x (List.mem_cons_of_mem _ hx)) with ⟨r1, hrun, hsum, hnorm⟩
    refine ⟨r1, by simp [on_each, f.call, hb, hd, hrun], ?_, ?_⟩
    · rw [hsum]
      simp only [R.add, List.flatMap_cons, List.filter_append, List.length_append]
      rw [toUnsigned_toUnsigned_add, Nat.add_right_comm, toUnsigned_add_toUnsigned]
      congr 1
      omega
    · intro _
      apply hnorm
      simp [R.add, toUnsigned]

theorem ThirdGraphSize_shaped (g : ThirdGraph) (m : Memory NodeDataTy EdgeDataTy)
    (Ls : Nat → List Nat) (hs : g.Shaped m Ls) (fuel : Nat)
    (hf : m.nodes.length + g.numThreads + 1 ≤ fuel) :
    ThirdGraphSize g m fuel = some (toUnsigned m.activeCount) := by
  rcases on_each_spec g m Ls hs fuel hf (List.range g.numThreads) R.new
    (fun t ht => List.mem_range.mp ht) with ⟨r1, hrun, hsum, hnorm⟩
  have hperm : (((List.range g.numThreads).flatMap Ls).filter m.isActive).Perm
      ((List.range m.nodes.length).filter m.isActive) := List.Perm.filter _ hs.owns
  have h0 : r1.i = toUnsigned r1.i := hnorm (by simp [R.new, toUnsigned])
  simp only [ThirdGraphSize, hrun]
  rw [h0, hsum, hperm.length_eq, Memory.activeCount_eq]
  simp [R.new]

/-! ## Filling a container -/

theorem ThirdGraph.fillOps_succ (k : Nat) :
    ThirdGraph.fillOps (k + 1) = ThirdGraph.fillOps k ++
      [ThirdGraph.Op.createNode 0 (), ThirdGraph.Op.addNode (some k)] := by
  simp [ThirdGraph.fillOps, List.range_succ, List.flatMap_append]

/-- Running `fillOps k` in a shaped container without nodes succeeds and leaves `k`
nodes, all of them active. -/
theorem ThirdGraph.run_fillOps (g : ThirdGraph) (m0 : Memory Unit Unit) (Ls0 : Nat → List Nat)
    (hs0 : g.Shaped m0 Ls0) (hpos : 0 < g.numThreads) (hempty : m0.nodes = []) :
    ∀ k, ∃ m, ThirdGraph.run g (ThirdGraph.fillOps k) m0 = some m ∧ m.nodes.length = k ∧
      m.activeCount = k := by
  intro k
  induction k with
  | zero =>
    exact ⟨m0, by simp [ThirdGraph.fillOps, ThirdGraph.run], by simp [hempty],
      by simp [Memory.activeCount, hempty]⟩
  | succ k ih =>
    rcases ih with ⟨m, hrun, hlen, hcount⟩
    rcases ThirdGraph.shaped_run g _ m0 m Ls0 hs0 hrun with ⟨Ls, hs⟩
    rcases ThirdGraph.state_of_shaped g m Ls hs 0 hpos with ⟨st, hst, _, _⟩
    have hst1 : m.states[g.localState + 0]? = some st := by
      simpa [Memory.state, ThirdGraph.getLocal, hpos] using hst
    have hcreate := ThirdGraph.createNode_eq g 0 () m st hpos hst1
    have hadd : ThirdGraph.addNode (some k)
        ({ nodes := m.nodes ++ [GraphNode.mk st.head false () []],
           states := m.states.set (g.localState + 0) { st with head := some m.nodes.length } } :
          Memory Unit Unit) =
        some { nodes := m.nodes ++ [GraphNode.mk st.head true () []],
               states := m.states.set (g.localState + 0)
                 { st with head := some m.nodes.length } } := by
      have hget : (m.nodes ++ [GraphNode.mk st.head false () []])[k]? =
          some (GraphNode.mk st.head false () []) := by
        rw [← hlen]; simp
      rw [ThirdGraph.addNode_eq _ k _ hget]
      have hset : (m.nodes ++ [GraphNode.mk st.head false () []]).set k
          (GraphNode.mk st.head true () []) =
          m.nodes ++ [GraphNode.mk st.head true () []] := by
        rw [← hlen]; simp
      simp [hset]
    refine ⟨{ nodes := m.nodes ++ [GraphNode.mk st.head true () []],
              states := m.states.set (g.localState + 0)
                { st with head := some m.nodes.length } }, ?_, ?_, ?_⟩
    · rw [ThirdGraph.fillOps_succ, ThirdGraph.run_append, hrun]
      simp only [ThirdGraph.run, ThirdGraph.step, hcreate, hadd]
    · simp [hlen]
    · simp only [Memory.activeCount] at hcount ⊢
      simp [List.countP_append, hcount]

/-! ## The claims -/

/-- Claim C1: `createNode` prepends to the partition of the calling worker. For every
memory and every worker `tid` whose slot holds `st`, the call succeeds, the returned node
is inactive and carries the given payload and no edges, its `nextNode` is the previous
head `st.head`, the slot of `tid` has the returned node as head (and is otherwise as
before), and the list read from the new head is the new node followed by the previous
list, so a partition lists its nodes in reverse creation order. -/
theorem createNode_prepends (g : ThirdGraph) (tid : Nat) (d : NodeDataTy)
    (m : Memory NodeDataTy EdgeDataTy) (st : SubGraphState)
    (htid : tid < g.numThreads) (hst : m.state (g.getLocal tid) = some st) :
    ∃ N m1, g.createNode tid d m = some (some N, m1) ∧
      m1.node (some N) =
        some { nextNode := st.head, active := false, data := d, edges := [] } ∧
      m1.state (g.getLocal tid) = some { st with head := some N } ∧
      ∀ L, m.nodeList st.head L → m1.nodeList (some N) (N :: L) := by
  have hst1 : m.states[g.localState + tid]? = some st := by
    simpa [Memory.state, ThirdGraph.getLocal, htid] using hst
  refine ⟨m.nodes.length, _, ThirdGraph.createNode_eq g tid d m st htid hst1, ?_, ?_, ?_⟩
  · simp [Memory.node]
  · simp [Memory.state, ThirdGraph.getLocal, htid, getElem?_set_self_of_some hst1]
  · intro L hL
    refine ⟨rfl, { nextNode := st.head, active := false, data := d, edges := [] }, by simp, ?_⟩
    refine Memory.nodeList_of_nextKept ?_ L _ hL
    intro a nd hnd
    have hlt : a < m.nodes.length := by
      rcases List.getElem?_eq_some.mp hnd with ⟨hlt, _⟩
      exact hlt
    exact ⟨nd, by simp [List.getElem?_append_left hlt, hnd], rfl⟩

/-- Witness of C1: worker 0 of `demoGraph` creates a node in `demoMemory`, where its list
is 2, 1, 0; the new node 4 is put in front. -/
theorem createNode_prepends_witness :
    ∃ N m1, demoGraph.createNode 0 7 demoMemory = some (some N, m1) ∧
      m1.node (some N) = some { nextNode := some 2, active := false, data := 7, edges := [] } ∧
      m1.state (demoGraph.getLocal 0) =
        some { head := some N, next := some 1, master := some 0 } ∧
      ∀ L, demoMemory.nodeList (some 2) L → m1.nodeList (some N) (N :: L) :=
  createNode_prepends demoGraph 0 7 demoMemory
    { head := some 2, next := some 1, master := some 0 } (by decide) rfl

/-- Claim C2: global iteration yields exactly the active nodes of the chain. If the
partition chain from the master of the calling worker is finite and acyclic, that is,
following `next` from the master visits the partitions of `c` and then null, each with
its finite node list, then `begin(), ++, ...` up to `end()` returns (given fuel for one
step per link) the concatenation of the node lists in chain order restricted to the
active nodes: empty partitions contribute nothing, inactive nodes are skipped, every
yielded node is active, the result is a sublist of the linked nodes, and no node is
yielded twice when no node is linked twice. -/
theorem global_iteration_lists_active_nodes (g : ThirdGraph) (tid : Nat)
    (m : Memory NodeDataTy EdgeDataTy) (lState : SubGraphState)
    (c : List (Nat × List Nat)) (fuel : Nat)
    (hl : m.state (g.getLocal tid) = some lState) (hc : m.chain lState.master c)
    (hne : c ≠ []) (hf : chainLinks c + 1 ≤ fuel) :
    ∃ xs, g.globalNodes tid m fuel = some xs ∧
      xs = (c.flatMap (fun x => x.2)).filter m.isActive ∧
      (∀ a ∈ xs, m.isActive a = true) ∧
      xs.Sublist (c.flatMap (fun x => x.2)) ∧
      ((c.flatMap (fun x => x.2)).Nodup → xs.Nodup) := by
  refine ⟨_, ThirdGraph.globalNodes_eq g tid m lState c fuel hl hc hne hf, rfl, ?_, ?_, ?_⟩
  · intro a ha
    exact (List.mem_filter.mp ha).2
  · exact List.filter_sublist _
  · intro hnd
    exact hnd.filter _

/-- Witness of C2: in `demoMemory` the chain is slot 0 with nodes 2, 1, 0 and slot 1 with
node 3; node 1 is inactive. -/
theorem global_iteration_lists_active_nodes_witness :
    ∃ xs, demoGraph.globalNodes 1 demoMemory 7 = some xs ∧
      xs = ([(0, [2, 1, 0]), (1, [3])].flatMap (fun x => x.2)).filter demoMemory.isActive ∧
      (∀ a ∈ xs, demoMemory.isActive a = true) ∧
      xs.Sublist ([(0, [2, 1, 0]), (1, [3])].flatMap (fun x => x.2)) ∧
      (([(0, [2, 1, 0]), (1, [3])].flatMap (fun x => x.2)).Nodup → xs.Nodup) :=
  global_iteration_lists_active_nodes demoGraph 1 demoMemory
    { head := some 3, next := none, master := some 0 } [(0, [2, 1, 0]), (1, [3])] 7 rfl
    ⟨rfl, _, rfl, ⟨rfl, _, rfl, rfl, _, rfl, rfl, _, rfl, rfl⟩, rfl, _, rfl,
      ⟨rfl, _, rfl, rfl⟩, rfl⟩
    (by simp) (by decide)

/-- Claim C3: visibility follows activation. In a container reached from the constructor
by `createNode`, `addNode`, `removeNode` and `addEdge` calls, the global iteration of any
worker returns a list in which a created node that no call of the sequence activated
does not occur, and in which a node with an `addNode` call that no later `removeNode`
call undoes occurs exactly once. -/
theorem visibility_follows_activation [Inhabited EdgeDataTy] (n : Nat)
    (ops : List (ThirdGraph.Op NodeDataTy)) (g : ThirdGraph)
    (m : Memory NodeDataTy EdgeDataTy) (tid fuel : Nat)
    (hr : ThirdGraph.ReachedBy n ops g m) (htid : tid < n)
    (hf : m.nodes.length + n + 1 ≤ fuel) :
    ∃ xs, g.globalNodes tid m fuel = some xs ∧
      (∀ k, k < m.nodes.length → ThirdGraph.Op.addNode (some k) ∉ ops → k ∉ xs) ∧
      (∀ k pre post, ops = pre ++ ThirdGraph.Op.addNode (some k) :: post →
        ThirdGraph.Op.removeNode (some k) ∉ post → xs.count k = 1) := by
  rcases ThirdGraph.shaped_reached n ops g m hr with ⟨hn, Ls, hs⟩
  rcases hr with ⟨m0, hnew, hrun⟩
  rcases ThirdGraph.shaped_new n g m0 hnew with ⟨_, hnodes0, _⟩
  rcases ThirdGraph.globalNodes_count g m Ls hs tid fuel (by omega) (by omega) with
    ⟨xs, hxs, hcount, _⟩
  refine ⟨xs, hxs, ?_, ?_⟩
  · intro k _ hnot
    have h0 : m0.isActive k = false := by simp [Memory.isActive, hnodes0]
    have hk := ThirdGraph.run_stays_inactive g k ops m0 m hrun hnot h0
    have hc := hcount k
    rw [hk] at hc
    exact List.count_eq_zero.mp (by simpa using hc)
  · intro k pre post hops hnot
    rw [hops, ThirdGraph.run_append] at hrun
    cases hpre : ThirdGraph.run g pre m0 with
    | none => simp [hpre] at hrun
    | some ma =>
      simp only [hpre] at hrun
      cases hadd : ThirdGraph.addNode (some k) ma with
      | none => simp [ThirdGraph.run, ThirdGraph.step, hadd] at hrun
      | some mb =>
        have hpost : ThirdGraph.run g post mb = some m := by
          simpa [ThirdGraph.run, ThirdGraph.step, hadd] using hrun
        have hb : mb.isActive k = true := by
          rw [ThirdGraph.addNode_isActive ma mb k hadd k]; simp
        have hk := ThirdGraph.run_stays_active g k post mb m hpost hnot hb
        have hc := hcount k
        rw [hk] at hc
        simpa using hc

/-- Witness of C3: the container reached by `demoOps`, seen by worker 1. -/
theorem visibility_follows_activation_witness :
    ∃ xs, demoGraph.globalNodes 1 demoMemory 7 = some xs ∧
      (∀ k, k < demoMemory.nodes.length → ThirdGraph.Op.addNode (some k) ∉ demoOps → k ∉ xs) ∧
      (∀ k pre post, demoOps = pre ++ ThirdGraph.Op.addNode (some k) :: post →
        ThirdGraph.Op.removeNode (some k) ∉ post → xs.count k = 1) :=
  visibility_follows_activation 2 demoOps demoGraph demoMemory 1 7
    ⟨demoFresh, rfl, rfl⟩ (by decide) (by decide)

/-- Counterexample to C4 as stated: in the container reached by `loopOps` node 0 was
never activated and holds one edge; `removeNode` on it changes nothing, so its edge
collection is not empty afterwards. -/
theorem removeNode_keeps_edges_of_inactive_node :
    ThirdGraph.ReachedBy 2 loopOps demoGraph loopMemory ∧
      ∃ m1 nd1, ThirdGraph.removeNode (some 0) loopMemory = some m1 ∧
        m1.node (some 0) = some nd1 ∧ nd1.edges ≠ [] :=
  ⟨⟨demoFresh, rfl, rfl⟩, loopMemory, _, rfl, rfl, by decide⟩

/-- Claim C4, amended: for every node `a` in memory, `removeNode` succeeds and leaves the
node inactive, so that it does not occur in the global iteration over a well-formed
chain; its edge collection is empty afterwards if the node was active before the call,
and is the collection it had before if the node was already inactive. -/
theorem removeNode_hides_node (g : ThirdGraph) (tid : Nat)
    (m : Memory NodeDataTy EdgeDataTy) (a : Nat) (nd : GraphNode NodeDataTy EdgeDataTy)
    (lState : SubGraphState) (c : List (Nat × List Nat)) (fuel : Nat)
    (hnd : m.nodes[a]? = some nd)
    (hl : m.state (g.getLocal tid) = some lState) (hc : m.chain lState.master c)
    (hne : c ≠ []) (hf : chainLinks c + 1 ≤ fuel) :
    ∃ m1 nd1, ThirdGraph.removeNode (some a) m = some m1 ∧ m1.node (some a) = some nd1 ∧
      nd1.active = false ∧ (nd.active = true → nd1.edges = []) ∧
      (nd.active = false → nd1.edges = nd.edges) ∧
      ∃ xs, g.globalNodes tid m1 fuel = some xs ∧ a ∉ xs := by
  rcases ThirdGraph.removeNode_spec m a nd hnd with
    ⟨m1, nd1, hrem, hnd1, hact, _, _, hedges, hsame, hstates, hkept, _⟩
  have hl1 : m1.state (g.getLocal tid) = some lState := by
    cases hp : g.getLocal tid with
    | none => rw [hp] at hl; simp [Memory.state] at hl
    | some p =>
      rw [hp] at hl
      simpa [Memory.state, hstates] using hl
  have hc1 := Memory.chain_of_nextKept hkept hstates c _ hc
  refine ⟨m1, nd1, hrem, by simpa [Memory.node] using hnd1, hact, hedges, ?_,
    _, ThirdGraph.globalNodes_eq g tid m1 lState c fuel hl1 hc1 hne hf, ?_⟩
  · intro hin
    have hm := hsame hin
    subst hm
    rw [hnd] at hnd1
    cases hnd1
    rfl
  · intro hmem
    have h1 := (List.mem_filter.mp hmem).2
    rw [Memory.isActive_of_get hnd1, hact] at h1
    exact absurd h1 (by simp)

/-- Witness of C4: removing the active node 0 of `demoMemory`, which holds two edges. -/
theorem removeNode_hides_node_witness :
    ∃ m1 nd1, ThirdGraph.removeNode (some 0) demoMemory = some m1 ∧
      m1.node (some 0) = some nd1 ∧ nd1.active = false ∧
      (true = true → nd1.edges = []) ∧
      (true = false → nd1.edges = [{ dst := some 1, val := () }, { dst := some 2, val := () }]) ∧
      ∃ xs, demoGraph.globalNodes 1 m1 7 = some xs ∧ 0 ∉ xs :=
  removeNode_hides_node demoGraph 1 demoMemory 0
    { nextNode := none, active := true, data := 10,
      edges := [{ dst := some 1, val := () }, { dst := some 2, val := () }] }
    { head := some 3, next := none, master := some 0 } [(0, [2, 1, 0]), (1, [3])] 7 rfl rfl
    ⟨rfl, _, rfl, ⟨rfl, _, rfl, rfl, _, rfl, rfl, _, rfl, rfl⟩, rfl, _, rfl,
      ⟨rfl, _, rfl, rfl⟩, rfl⟩
    (by simp) (by decide)

/-- Claim C5: `addNode` and `removeNode` are idempotent. For every memory and every
handle `N`, a second `addNode(N)` after a first one leaves the memory of the first, a
second `removeNode(N)` after a first one leaves the memory of the first, and both calls
succeed on every handle that refers to a node. -/
theorem addNode_removeNode_idempotent (N : NodeHandle) (m : Memory NodeDataTy EdgeDataTy) :
    (ThirdGraph.addNode N m).bind (ThirdGraph.addNode N) = ThirdGraph.addNode N m ∧
      (ThirdGraph.removeNode N m).bind (ThirdGraph.removeNode N) = ThirdGraph.removeNode N m ∧
      ∀ nd, m.node N = some nd →
        (ThirdGraph.addNode N m).isSome = true ∧ (ThirdGraph.removeNode N m).isSome = true := by
  refine ⟨ThirdGraph.addNode_addNode N m, ThirdGraph.removeNode_removeNode N m, ?_⟩
  intro nd hnd
  cases N with
  | none => simp [Memory.node] at hnd
  | some a =>
    have hnd1 : m.nodes[a]? = some nd := by simpa [Memory.node] using hnd
    rcases ThirdGraph.removeNode_spec m a nd hnd1 with ⟨m1, _, hrem, _⟩
    exact ⟨by rw [ThirdGraph.addNode_eq m a nd hnd1]; rfl, by rw [hrem]; rfl⟩

/-- Claim C6: edge traversal is the active-destination filter of the edge list. For every
node `N` whose stored edges all have a destination handle that refers to a node, the
traversal from `edge_begin(N)` up to `edge_end(N)` returns the stored edge collection of
`N`, in insertion order, restricted to the edges whose destination is active at the time
of the traversal: an edge with an active destination is visited, an edge with an inactive
destination is not visited although it is stored in the collection. In particular, once
another node `D` has been deactivated by `removeNode`, the edges of `N` to `D` are still
stored in the collection of `N` and are not visited by the next traversal. -/
theorem edge_traversal_filters_active_destinations (m : Memory NodeDataTy EdgeDataTy)
    (N : NodeHandle) (nd : GraphNode NodeDataTy EdgeDataTy) (fuel : Nat)
    (hnd : m.node N = some nd) (hv : m.dstValid nd.edges)
    (hf : nd.edges.length + 1 ≤ fuel) :
    (∃ es, ThirdGraph.edges N m fuel = some es ∧ es = nd.edges.filter m.edgeLive ∧
      es.Sublist nd.edges ∧
      ∀ e ∈ nd.edges, (m.edgeLive e = true → e ∈ es) ∧ (m.edgeLive e = false → e ∉ es)) ∧
    ∀ (D : Nat) (m1 : Memory NodeDataTy EdgeDataTy), N ≠ some D →
      ThirdGraph.removeNode (some D) m = some m1 →
      m1.node N = some nd ∧
        ∃ es1, ThirdGraph.edges N m1 fuel = some es1 ∧ es1 = nd.edges.filter m1.edgeLive ∧
          ∀ e ∈ nd.edges, e.dst = some D → e ∉ es1 := by
  constructor
  · refine ⟨_, ThirdGraph.edges_eq m N nd fuel hnd hv hf, rfl, List.filter_sublist _, ?_⟩
    intro e he
    constructor
    · intro hlive
      exact List.mem_filter.mpr ⟨he, hlive⟩
    · intro hdead hmem
      have h1 := (List.mem_filter.mp hmem).2
      rw [hdead] at h1
      exact absurd h1 (by simp)
  · intro D m1 hND hrem
    cases N with
    | none => simp [Memory.node] at hnd
    | some k =>
      have hk : k ≠ D := fun h => hND (by rw [h])
      have hnd0 : m.nodes[k]? = some nd := by simpa [Memory.node] using hnd
      rcases ThirdGraph.edges_after_removeNode m m1 k D nd hk hnd0 hv hrem with
        ⟨hnd1, hv1, hdead⟩
      have hnd2 : m1.node (some k) = some nd := by simpa [Memory.node] using hnd1
      refine ⟨hnd2, _, ThirdGraph.edges_eq m1 (some k) nd fuel hnd2 hv1 hf, rfl, ?_⟩
      intro e he hdst hmem
      have h1 := (List.mem_filter.mp hmem).2
      rw [hdead e he hdst] at h1
      exact absurd h1 (by simp)

/-- Witness of C6: node 0 of `demoMemory` stores edges to node 1, removed after the edge
was added, and to node 2. -/
theorem edge_traversal_filters_active_destinations_witness :
    (∃ es, ThirdGraph.edges (some 0) demoMemory 3 = some es ∧
      es = [{ dst := some 1, val := () }, { dst := some 2, val := () }].filter
        demoMemory.edgeLive ∧
      es.Sublist [{ dst := some 1, val := () }, { dst := some 2, val := () }] ∧
      ∀ e ∈ [({ dst := some 1, val := () } : Edge Unit), { dst := some 2, val := () }],
        (demoMemory.edgeLive e = true → e ∈ es) ∧ (demoMemory.edgeLive e = false → e ∉ es)) ∧
    ∀ (D : Nat) (m1 : Memory Nat Unit), some 0 ≠ some D →
      ThirdGraph.removeNode (some D) demoMemory = some m1 →
      m1.node (some 0) =
          some { nextNode := none, active := true, data := 10,
                 edges := [{ dst := some 1, val := () }, { dst := some 2, val := () }] } ∧
        ∃ es1, ThirdGraph.edges (some 0) m1 3 = some es1 ∧
          es1 = [{ dst := some 1, val := () }, { dst := some 2, val := () }].filter
            m1.edgeLive ∧
          ∀ e ∈ [({ dst := some 1, val := () } : Edge Unit), { dst := some 2, val := () }],
            e.dst = some D → e ∉ es1 :=
  edge_traversal_filters_active_destinations demoMemory (some 0)
    { nextNode := none, active := true, data := 10,
      edges := [{ dst := some 1, val := () }, { dst := some 2, val := () }] } 3 rfl
    (by
      intro e he
      simp only [List.mem_cons, List.mem_singleton, List.not_mem_nil, or_false] at he
      rcases he with rfl | rfl
      · exact ⟨_, rfl⟩
      · exact ⟨_, rfl⟩)
    (by decide)

/-- Claim C7: partition isolation. A `createNode` call of worker `tid` succeeds and
leaves every partition state other than the slot of `tid` unchanged (head, next and
master), in particular the slot of every other worker; it keeps the `next` and `master`
links of the slot of `tid`; and it leaves every previously existing node unchanged
(`nextNode`, active flag, data and edges). -/
theorem createNode_partition_isolation (g : ThirdGraph) (tid : Nat) (d : NodeDataTy)
    (m : Memory NodeDataTy EdgeDataTy) (st : SubGraphState)
    (htid : tid < g.numThreads) (hst : m.state (g.getLocal tid) = some st) :
    ∃ N m1 st1, g.createNode tid d m = some (N, m1) ∧
      (∀ W, W ≠ tid → m1.state (g.getLocal W) = m.state (g.getLocal W)) ∧
      (∀ p, p ≠ g.getLocal tid → m1.state p = m.state p) ∧
      m1.state (g.getLocal tid) = some st1 ∧ st1.next = st.next ∧ st1.master = st.master ∧
      (∀ (k : Nat) (nd : GraphNode NodeDataTy EdgeDataTy),
        m.node (some k) = some nd → m1.node (some k) = some nd) := by
  have hst0 : m.states[g.localState + tid]? = some st := by
    simpa [Memory.state, ThirdGraph.getLocal, htid] using hst
  obtain ⟨N, m1, hc⟩ : ∃ N m1, g.createNode tid d m = some (N, m1) :=
    ⟨_, _, ThirdGraph.createNode_eq g tid d m st htid hst0⟩
  rcases ThirdGraph.createNode_frame g tid d m m1 N hc with ⟨hother, hown, hnodes, _⟩
  rcases hown with ⟨st0, st1, hst0a, hst1, hnext, hmaster⟩
  rw [hst0] at hst0a
  cases hst0a
  have hother1 : ∀ p, p ≠ g.getLocal tid → m1.state p = m.state p := by
    intro p hp
    cases p with
    | none => rfl
    | some q =>
      have hq : q ≠ g.localState + tid := by
        intro h
        apply hp
        simp [ThirdGraph.getLocal, htid, h]
      simpa [Memory.state] using hother q hq
  refine ⟨N, m1, st1, hc, ?_, hother1, ?_, hnext, hmaster, ?_⟩
  · intro W hW
    apply hother1
    unfold ThirdGraph.getLocal
    by_cases hWn : W < g.numThreads
    · simp only [hWn, htid, if_true]
      intro h
      have := Option.some.inj h
      omega
    · simp [hWn, htid]
  · simpa [Memory.state, ThirdGraph.getLocal, htid] using hst1
  · intro k nd hk
    simpa [Memory.node] using hnodes k nd (by simpa [Memory.node] using hk)

/-- Witness of C7: worker 1 of `demoGraph` creates a node in `demoMemory`. -/
theorem createNode_partition_isolation_witness :
    ∃ N m1 st1, demoGraph.createNode 1 9 demoMemory = some (N, m1) ∧
      (∀ W, W ≠ 1 → m1.state (demoGraph.getLocal W) = demoMemory.state (demoGraph.getLocal W)) ∧
      (∀ p, p ≠ demoGraph.getLocal 1 → m1.state p = demoMemory.state p) ∧
      m1.state (demoGraph.getLocal 1) = some st1 ∧ st1.next = none ∧ st1.master = some 0 ∧
      (∀ (k : Nat) (nd : GraphNode Nat Unit),
        demoMemory.node (some k) = some nd → m1.node (some k) = some nd) :=
  createNode_partition_isolation demoGraph 1 9 demoMemory
    { head := some 3, next := none, master := some 0 } (by decide) rfl

/-- Counterexample to C8 as stated: after worker 0 of a one-worker container has created
and activated 4294967296 nodes, the number of active nodes is 4294967296 while `size()`,
whose result is an `unsigned`, returns 0. -/
theorem size_wraps_around :
    ∃ (g : ThirdGraph) (m : Memory Unit Unit),
      ThirdGraph.ReachedBy 1 (ThirdGraph.fillOps 4294967296) g m ∧
      m.activeCount = 4294967296 ∧ g.size 0 m 4294967298 = some 0 := by
  obtain ⟨m0, hnew⟩ : ∃ m0, ThirdGraph.new 1 (Memory.empty : Memory Unit Unit) =
      some ({ localState := 0, numThreads := 1 }, m0) := ⟨_, rfl⟩
  rcases ThirdGraph.shaped_new 1 _ m0 hnew with ⟨_, hnodes0, hs0⟩
  rcases ThirdGraph.run_fillOps _ m0 _ hs0 (by decide) hnodes0 4294967296 with
    ⟨m, hrun, hlen, hcount⟩
  rcases ThirdGraph.shaped_run _ _ m0 m _ hs0 hrun with ⟨Ls, hs⟩
  rcases ThirdGraph.globalNodes_count _ m Ls hs 0 4294967298 (by decide)
    (by rw [hlen]; decide) with ⟨_, _, _, hsize⟩
  refine ⟨_, m, ⟨m0, hnew, hrun⟩, hcount, ?_⟩
  rw [hsize, hcount]
  rfl

/-- Claim C8, amended: in a container reached from the constructor by `createNode`,
`addNode`, `removeNode` and `addEdge` calls, `size()` called by any worker returns the
number of created nodes whose active flag is set, reduced modulo 2^32 by the return type
`unsigned`; it returns that number itself whenever fewer than 2^32 nodes are active, and
so 0 for a container without active node. -/
theorem size_counts_active_nodes [Inhabited EdgeDataTy] (n : Nat)
    (ops : List (ThirdGraph.Op NodeDataTy)) (g : ThirdGraph)
    (m : Memory NodeDataTy EdgeDataTy) (tid fuel : Nat)
    (hr : ThirdGraph.ReachedBy n ops g m) (htid : tid < n)
    (hf : m.nodes.length + n + 1 ≤ fuel) :
    g.size tid m fuel = some (m.activeCount % 2 ^ 32) ∧
      (m.activeCount < 2 ^ 32 → g.size tid m fuel = some m.activeCount) := by
  rcases ThirdGraph.shaped_reached n ops g m hr with ⟨hn, Ls, hs⟩
  rcases ThirdGraph.globalNodes_count g m Ls hs tid fuel (by omega) (by omega) with
    ⟨_, _, _, hsize⟩
  refine ⟨hsize, ?_⟩
  intro hlt
  rw [hsize]
  simp only [toUnsigned, unsignedBits]
  rw [Nat.mod_eq_of_lt hlt]

/-- Witness of C8: the container reached by `demoOps` has three active nodes. -/
theorem size_counts_active_nodes_witness :
    demoGraph.size 1 demoMemory 7 = some (demoMemory.activeCount % 2 ^ 32) ∧
      (demoMemory.activeCount < 2 ^ 32 →
        demoGraph.size 1 demoMemory 7 = some demoMemory.activeCount) :=
  size_counts_active_nodes 2 demoOps demoGraph demoMemory 1 7
    ⟨demoFresh, rfl, rfl⟩ (by decide) (by decide)

/-- Claim C10 at its failing input: `destGraph` is built after `demoGraph` in the same
memory and its worker 1 deserializes the master handle of `demoGraph` (slot 0). The
master then points to slot 3, the slot of the calling worker, not to slot 2, the first
slot of `destGraph`; the chain from the master is slot 0, slot 3, slot 1, and slot 2 is
not on it. Called by worker 0 instead, the same deserialization gives the chain slot 0,
slot 2, slot 3, slot 1 of the claim. -/
theorem deserialize_links_calling_worker_slot :
    ThirdGraph.new 2 demoFresh = some (destGraph, twoFresh) ∧
      demoGraph.serialize 0 twoFresh = some (some 0) ∧
      (∃ m1, destGraph.deserialize 1 (some 0) twoFresh = some m1 ∧
        (m1.state (some 0)).map (fun st => st.next) = some (destGraph.getLocal 1) ∧
        destGraph.getLocal 1 ≠ destGraph.getLocal 0 ∧
        m1.chain (some 0) [(0, []), (3, []), (1, [])]) ∧
      ∃ m2, destGraph.deserialize 0 (some 0) twoFresh = some m2 ∧
        m2.chain (some 0) [(0, []), (2, []), (3, []), (1, [])] :=
  ⟨rfl, rfl,
    ⟨_, rfl, rfl, by decide,
      ⟨rfl, _, rfl, rfl, rfl, _, rfl, rfl, rfl, _, rfl, rfl, rfl⟩⟩,
    ⟨_, rfl, ⟨rfl, _, rfl, rfl, rfl, _, rfl, rfl, rfl, _, rfl, rfl, rfl, _, rfl, rfl, rfl⟩⟩⟩

/-! ## deserialize -/

theorem getElem?_some_of_lt {α : Type} (l : List α) (j : Nat) (h : j < l.length) :
    ∃ x, l[j]? = some x :=
  ⟨l[j], List.getElem?_eq_getElem h⟩

theorem lt_of_getElem?_some {α : Type} {l : List α} {j : Nat} {x : α} (h : l[j]? = some x) :
    j < l.length := by
  rcases List.getElem?_eq_some.mp h with ⟨hlt, _⟩
  exact hlt

/-- The loop of `deserialize` stores the master of the calling worker in every other
slot of the range it runs over. -/
theorem ThirdGraph.deserLoop_spec (g : ThirdGraph) (tid : Nat) (s : StatePtr)
    (htid : tid < g.numThreads) :
    ∀ (len k : Nat) (m : Memory NodeDataTy EdgeDataTy),
      k + len ≤ g.numThreads → g.localState + g.numThreads ≤ m.states.length →
      (∃ lst, m.states[g.localState + tid]? = some lst ∧ lst.master = s) →
      ∃ m1, g.deserLoop tid (g.localState + tid) (List.range' k len) m = some m1 ∧
        m1.nodes = m.nodes ∧ m1.states.length = m.states.length ∧
        ∀ j, m1.states[j]? =
          if g.localState + k ≤ j ∧ j < g.localState + k + len then
            (m.states[j]?).map
              (fun st => { head := st.head, next := st.next, master := s })
          else m.states[j]? := by
  intro len
  induction len with
  | zero =>
    intro k m _ _ _
    refine ⟨m, by simp [ThirdGraph.deserLoop], rfl, rfl, ?_⟩
    intro j
    rw [if_neg (by omega)]
  | succ len ih =>
    intro k m hk hlen hl
    rcases hl with ⟨lst, hlst, hmaster⟩
    by_cases hkt : k = tid
    · subst hkt
      rcases ih (k + 1) m (by omega) hlen ⟨lst, hlst, hmaster⟩ with
        ⟨m1, hloop, hnodes, hlen1, hget⟩
      refine ⟨m1, by simp [List.range', ThirdGraph.deserLoop, hloop], hnodes, hlen1, ?_⟩
      intro j
      rw [hget j]
      by_cases hj : j = g.localState + k
      · subst hj
        have h1 : ¬ (g.localState + (k + 1) ≤ g.localState + k ∧
            g.localState + k < g.localState + (k + 1) + len) := by omega
        have h2 : g.localState + k ≤ g.localState + k ∧
            g.localState + k < g.localState + k + (len + 1) := by omega
        rw [if_neg h1, if_pos h2, hlst]
        cases lst
        simp at hmaster
        simp [hmaster]
      · by_cases hin : g.localState + (k + 1) ≤ j ∧ j < g.localState + (k + 1) + len
        · have h2 : g.localState + k ≤ j ∧ j < g.localState + k + (len + 1) := by omega
          rw [if_pos hin, if_pos h2]
        · have h2 : ¬ (g.localState + k ≤ j ∧ j < g.localState + k + (len + 1)) := by omega
          rw [if_neg hin, if_neg h2]
    · have hlt : g.localState + k < m.states.length := by omega
      rcases getElem?_some_of_lt m.states _ hlt with ⟨st, hst⟩
      have hne : g.localState + k ≠ g.localState + tid := by omega
      have hlst1 : (m.states.set (g.localState + k)
          { head := st.head, next := st.next, master := s })[g.localState + tid]? = some lst := by
        rw [List.getElem?_set_ne hne]; exact hlst
      rcases ih (k + 1)
        { nodes := m.nodes,
          states := m.states.set (g.localState + k)
            { head := st.head, next := st.next, master := s } }
        (by omega) (by simpa using hlen) ⟨lst, hlst1, hmaster⟩ with
        ⟨m1, hloop, hnodes, hlen1, hget⟩
      have hkn : k < g.numThreads := by omega
      refine ⟨m1, ?_, by simpa using hnodes, by simpa using hlen1, ?_⟩
      · simp [List.range', ThirdGraph.deserLoop, hkt, ThirdGraph.getLocal, hkn, hlst,
          Memory.writeState, hst, hmaster, hloop]
      · intro j
        rw [hget j]
        by_cases hj : j = g.localState + k
        · subst hj
          have h1 : ¬ (g.localState + (k + 1) ≤ g.localState + k ∧
              g.localState + k < g.localState + (k + 1) + len) := by omega
          have h2 : g.localState + k ≤ g.localState + k ∧
              g.localState + k < g.localState + k + (len + 1) := by omega
          rw [if_neg h1, if_pos h2, hst]
          simp [hlt]
        · have hne1 : ¬ g.localState + k = j := fun h => hj h.symm
          by_cases hin : g.localState + (k + 1) ≤ j ∧ j < g.localState + (k + 1) + len
          · have h2 : g.localState + k ≤ j ∧ j < g.localState + k + (len + 1) := by omega
            rw [if_pos hin, if_pos h2]
            simp [List.getElem?_set, hne1]
          · have h2 : ¬ (g.localState + k ≤ j ∧ j < g.localState + k + (len + 1)) := by omega
            rw [if_neg hin, if_neg h2]
            simp [List.getElem?_set, hne1]

/-- The first half of `deserialize`: afterwards every slot of the container holds the
incoming handle as master, and nothing else has changed. -/
theorem ThirdGraph.deserialize_masters (g : ThirdGraph) (tid : Nat) (s : StatePtr)
    (m : Memory NodeDataTy EdgeDataTy) (htid : tid < g.numThreads)
    (hlen : g.localState + g.numThreads ≤ m.states.length) :
    ∃ m1 m2, m.writeState (g.localState + tid)
          (fun st => { head := st.head, next := st.next, master := s }) = some m1 ∧
      g.deserLoop tid (g.localState + tid) (List.range g.numThreads) m1 = some m2 ∧
      m2.nodes = m.nodes ∧ m2.states.length = m.states.length ∧
      ∀ j, m2.states[j]? =
        if g.localState ≤ j ∧ j < g.localState + g.numThreads then
          (m.states[j]?).map (fun st => { head := st.head, next := st.next, master := s })
        else m.states[j]? := by
  have hlt : g.localState + tid < m.states.length := by omega
  rcases getElem?_some_of_lt m.states _ hlt with ⟨st, hst⟩
  have hw := Memory.writeState_eq_some
    (fun st => ({ head := st.head, next := st.next, master := s } : SubGraphState)) hst
  rcases ThirdGraph.deserLoop_spec g tid s htid g.numThreads 0
    { nodes := m.nodes,
      states := m.states.set (g.localState + tid)
        { head := st.head, next := st.next, master := s } }
    (by omega) (by simpa using hlen)
    ⟨_, getElem?_set_self_of_some hst, rfl⟩ with ⟨m2, hloop, hnodes, hlen2, hget⟩
  refine ⟨_, m2, hw, by rw [List.range_eq_range']; exact hloop, by simpa using hnodes,
    by simpa using hlen2, ?_⟩
  intro j
  rw [hget j]
  by_cases hj : j = g.localState + tid
  · subst hj
    have h1 : g.localState + 0 ≤ g.localState + tid ∧
        g.localState + tid < g.localState + 0 + g.numThreads := by omega
    have h2 : g.localState ≤ g.localState + tid ∧
        g.localState + tid < g.localState + g.numThreads := by omega
    rw [if_pos h1, if_pos h2, hst]
    simp [hlt]
  · have hne1 : ¬ g.localState + tid = j := fun h => hj h.symm
    by_cases hin : g.localState ≤ j ∧ j < g.localState + g.numThreads
    · have h1 : g.localState + 0 ≤ j ∧ j < g.localState + 0 + g.numThreads := by omega
      rw [if_pos hin, if_pos h1]
      simp [List.getElem?_set, hne1]
    · have h1 : ¬ (g.localState + 0 ≤ j ∧ j < g.localState + 0 + g.numThreads) := by omega
      rw [if_neg hin, if_neg h1]
      simp [List.getElem?_set, hne1]

theorem Memory.writeState_at (m : Memory NodeDataTy EdgeDataTy) (a : Nat)
    (st : SubGraphState) (f : SubGraphState → SubGraphState) (h : m.states[a]? = some st) :
    m.writeState a f = some { nodes := m.nodes, states := m.states.set a (f st) } :=
  Memory.writeState_eq_some f h

theorem getElem?_set_map {α : Type} (l : List α) (a j : Nat) (x : α) (f : α → α)
    (h : l[a]? = some x) :
    (l.set a (f x))[j]? = if j = a then (l[j]?).map f else l[j]? := by
  by_cases hj : j = a
  · subst hj
    rw [if_pos rfl, getElem?_set_self_of_some h, h]
    rfl
  · rw [if_neg hj, List.getElem?_set_ne (fun h => hj h.symm)]

/-- The memory `deserialize` leaves behind when worker `tid` reads the handle of the
partition state at address `p`: every slot of the container has that handle as master,
the last slot has the former `next` of `p` as `next`, and `p` has the slot of the calling
worker as `next`. -/
theorem ThirdGraph.deserialize_spec (g : ThirdGraph) (tid p : Nat)
    (m : Memory NodeDataTy EdgeDataTy) (stp : SubGraphState) (htid : tid < g.numThreads)
    (hlen : g.localState + g.numThreads ≤ m.states.length) (hp : m.states[p]? = some stp) :
    ∃ m4, g.deserialize tid (some p) m = some m4 ∧ m4.nodes = m.nodes ∧
      m4.states.length = m.states.length ∧
      ∀ j, m4.states[j]? = (m.states[j]?).map (fun st =>
        ({ head := st.head,
           next := if j = p then some (g.localState + tid)
                   else if j = g.localState + (g.numThreads - 1) then stp.next else st.next,
           master := if g.localState ≤ j ∧ j < g.localState + g.numThreads then some p
                     else st.master } : SubGraphState)) := by
  rcases ThirdGraph.deserialize_masters g tid (some p) m htid hlen with
    ⟨m1, m2, hw, hloop, hnodes2, hlen2, hget2⟩
  have hin : g.localState ≤ g.localState + tid ∧
      g.localState + tid < g.localState + g.numThreads := by omega
  rcases getElem?_some_of_lt m.states (g.localState + tid) (by omega) with ⟨st0, hst0⟩
  have hl : m2.states[g.localState + tid]? =
      some { head := st0.head, next := st0.next, master := some p } := by
    rw [hget2, if_pos hin, hst0]; rfl
  have hlastlt : g.numThreads - 1 < g.numThreads := by omega
  rcases getElem?_some_of_lt m2.states (g.localState + (g.numThreads - 1))
    (by omega) with ⟨stl, hstl⟩
  obtain ⟨mState, hmState, hmnext⟩ : ∃ x, m2.states[p]? = some x ∧ x.next = stp.next := by
    rw [hget2, hp]
    by_cases hpin : g.localState ≤ p ∧ p < g.localState + g.numThreads
    · rw [if_pos hpin]; exact ⟨_, rfl, rfl⟩
    · rw [if_neg hpin]; exact ⟨_, rfl, rfl⟩
  have hw3 := Memory.writeState_eq_some
    (fun st => ({ head := st.head, next := mState.next, master := st.master } : SubGraphState))
    hstl
  have hp3lt : p < (m2.states.set (g.localState + (g.numThreads - 1))
      { head := stl.head, next := mState.next, master := stl.master }).length := by
    rw [List.length_set]; exact lt_of_getElem?_some hmState
  rcases getElem?_some_of_lt _ p hp3lt with ⟨x3, hx3⟩
  have hw4 := Memory.writeState_at
    ({ nodes := m2.nodes,
       states := m2.states.set (g.localState + (g.numThreads - 1))
         { head := stl.head, next := mState.next, master := stl.master } } :
      Memory NodeDataTy EdgeDataTy) p x3
    (fun st => ({ head := st.head, next := some (g.localState + tid),
                  master := st.master } : SubGraphState)) hx3
  refine ⟨{ nodes := m2.nodes,
            states := (m2.states.set (g.localState + (g.numThreads - 1))
              { head := stl.head, next := mState.next, master := stl.master }).set p
              { head := x3.head, next := some (g.localState + tid), master := x3.master } },
    ?_, ?_, ?_, ?_⟩
  · simp only [ThirdGraph.deserialize, ThirdGraph.getLocal, htid, hlastlt, if_true, hw, hloop,
      hl, hmState, hw3]
    exact hw4
  · simpa using hnodes2
  · simpa using hlen2
  · intro j
    have h4 := getElem?_set_map
      (m2.states.set (g.localState + (g.numThreads - 1))
        { head := stl.head, next := mState.next, master := stl.master }) p j x3
      (fun st => ({ head := st.head, next := some (g.localState + tid),
                    master := st.master } : SubGraphState)) hx3
    have h3 := getElem?_set_map m2.states (g.localState + (g.numThreads - 1)) j stl
      (fun st => ({ head := st.head, next := mState.next, master := st.master } : SubGraphState))
      hstl
    simp only [] at h4 h3 ⊢
    rw [h4, h3, hget2 j, hmnext]
    cases hmj : m.states[j]? with
    | none => split_ifs <;> rfl
    | some st =>
      simp only [Option.map_some']
      split_ifs <;> rfl

/-- A successful `deserialize` was called by a worker of the container on a handle that
refers to a partition state. -/
theorem ThirdGraph.deserialize_some (g : ThirdGraph) (tid : Nat) (s : StatePtr)
    (m m4 : Memory NodeDataTy EdgeDataTy)
    (hlen : g.localState + g.numThreads ≤ m.states.length)
    (h : g.deserialize tid s m = some m4) :
    tid < g.numThreads ∧ ∃ p stp, s = some p ∧ m.states[p]? = some stp := by
  have htid : tid < g.numThreads := by
    by_contra hlt
    simp [ThirdGraph.deserialize, ThirdGraph.getLocal, hlt] at h
  refine ⟨htid, ?_⟩
  rcases ThirdGraph.deserialize_masters g tid s m htid hlen with
    ⟨m1, m2, hw, hloop, _, _, hget2⟩
  have hin : g.localState ≤ g.localState + tid ∧
      g.localState + tid < g.localState + g.numThreads := by omega
  rcases getElem?_some_of_lt m.states (g.localState + tid) (by omega) with ⟨st0, hst0⟩
  have hl : m2.states[g.localState + tid]? =
      some { head := st0.head, next := st0.next, master := s } := by
    rw [hget2, if_pos hin, hst0]; rfl
  cases s with
  | none =>
    simp [ThirdGraph.deserialize, ThirdGraph.getLocal, htid, hw, hloop, hl] at h
  | some p =>
    cases hp : m.states[p]? with
    | some stp => exact ⟨p, stp, rfl, hp⟩
    | none =>
      have hp2 : m2.states[p]? = none := by
        rw [hget2, hp]
        split_ifs <;> rfl
      have hlastlt : g.numThreads - 1 < g.numThreads := by omega
      simp [ThirdGraph.deserialize, ThirdGraph.getLocal, htid, hlastlt, hw, hloop, hl, hp2] at h

/-! ## Chains are determined by the memory -/

theorem Memory.nodeList_unique (m : Memory NodeDataTy EdgeDataTy) :
    ∀ (L L1 : List Nat) (h : NodeHandle), m.nodeList h L → m.nodeList h L1 → L = L1 := by
  intro L
  induction L with
  | nil =>
    intro L1 h hl hl1
    have hh : h = none := by simpa [Memory.nodeList] using hl
    subst hh
    exact (Memory.nodeList_none hl1).symm
  | cons a L ih =>
    intro L1 h hl hl1
    rcases hl with ⟨hh, nd, hnd, hrest⟩
    subst hh
    rcases Memory.nodeList_some hl1 with ⟨nd1, L2, hL1, hnd1, hrest1⟩
    rw [hnd] at hnd1
    cases hnd1
    rw [hL1, ih L2 _ hrest hrest1]

theorem Memory.chain_unique (m : Memory NodeDataTy EdgeDataTy) :
    ∀ (c c1 : List (Nat × List Nat)) (p : StatePtr), m.chain p c → m.chain p c1 → c = c1 := by
  intro c
  induction c with
  | nil =>
    intro c1 p hc hc1
    have hp : p = none := by simpa [Memory.chain] using hc
    subst hp
    exact (Memory.chain_none hc1).symm
  | cons x c ih =>
    intro c1 p hc hc1
    rcases x with ⟨a, L⟩
    rcases hc with ⟨hp, st, hst, hL, hrest⟩
    subst hp
    cases c1 with
    | nil => simp [Memory.chain] at hc1
    | cons y c1 =>
      rcases y with ⟨b, L1⟩
      rcases hc1 with ⟨hb, st1, hst1, hL1, hrest1⟩
      have hab : a = b := by simpa using hb
      subst hab
      rw [hst] at hst1
      cases hst1
      rw [Memory.nodeList_unique m L L1 _ hL hL1, ih c1 _ hrest hrest1]

/-- The chain from a partition of a chain is the rest of that chain from there on. -/
theorem Memory.chain_suffix (m : Memory NodeDataTy EdgeDataTy) :
    ∀ (c : List (Nat × List Nat)) (p : StatePtr) (a : Nat), m.chain p c →
      a ∈ c.map (fun x => x.1) →
      ∃ c1, m.chain (some a) c1 ∧ c1.length ≤ c.length ∧
        (p ≠ some a → c1.length < c.length) := by
  intro c
  induction c with
  | nil => intro p a _ ha; simp at ha
  | cons x c ih =>
    intro p a hc ha
    rcases x with ⟨b, L⟩
    have hc0 := hc
    rcases hc with ⟨hp, st, hst, hL, hrest⟩
    by_cases hab : a = b
    · subst hab
      exact ⟨(a, L) :: c, by rw [← hp]; exact hc0, le_refl _, fun h => absurd hp h⟩
    · have ha1 : a ∈ c.map (fun x => x.1) := by
        simp only [List.map_cons, List.mem_cons] at ha
        rcases ha with h | h
        · exact absurd h hab
        · exact h
      rcases ih st.next a hrest ha1 with ⟨c1, hc1, hle, _⟩
      exact ⟨c1, hc1, by simp; omega, fun _ => by simp; omega⟩

/-- A partition occurs only once on a chain: the head of a chain is not among the
partitions after it. -/
theorem Memory.chain_head_not_in_tail (m : Memory NodeDataTy EdgeDataTy) (a : Nat)
    (L : List Nat) (c : List (Nat × List Nat)) (p : StatePtr)
    (hc : m.chain p ((a, L) :: c)) : a ∉ c.map (fun x => x.1) := by
  intro hmem
  have hc0 := hc
  rcases hc with ⟨hp, st, hst, hL, hrest⟩
  rcases Memory.chain_suffix m c st.next a hrest hmem with ⟨c1, hc1, hle, _⟩
  have heq := Memory.chain_unique m _ _ _ (by rw [← hp]; exact hc0) hc1
  rw [← heq] at hle
  simp at hle

/-- A chain is still a chain in a memory that keeps the nodes and the partition states
on the chain. -/
theorem Memory.chain_transfer (m m1 : Memory NodeDataTy EdgeDataTy) (hk : m.NextKept m1) :
    ∀ (c : List (Nat × List Nat)) (p : StatePtr), m.chain p c →
      (∀ a ∈ c.map (fun x => x.1), m1.states[a]? = m.states[a]?) → m1.chain p c := by
  intro c
  induction c with
  | nil => intro p h _; simpa [Memory.chain] using h
  | cons x c ih =>
    intro p h hsame
    rcases x with ⟨a, L⟩
    rcases h with ⟨hp, st, hst, hL, hc⟩
    refine ⟨hp, st, ?_, Memory.nodeList_of_nextKept hk L _ hL, ih _ hc ?_⟩
    · rw [hsame a (by simp)]; exact hst
    · intro b hb
      exact hsame b (by simp only [List.map_cons, List.mem_cons]; exact Or.inr hb)

theorem Memory.chain_addr_lt (m : Memory NodeDataTy EdgeDataTy) :
    ∀ (c : List (Nat × List Nat)) (p : StatePtr), m.chain p c →
      ∀ a ∈ c.map (fun x => x.1), a < m.states.length := by
  intro c
  induction c with
  | nil => intro p _ a ha; simp at ha
  | cons x c ih =>
    intro p h a ha
    rcases x with ⟨b, L⟩
    rcases h with ⟨_, st, hst, _, hc⟩
    simp only [List.map_cons, List.mem_cons] at ha
    rcases ha with rfl | ha
    · exact lt_of_getElem?_some hst
    · exact ih _ hc a ha

/-! ## Splicing a fresh container into a chain -/

theorem chainNodes_append (c1 c2 : List (Nat × List Nat)) :
    chainNodes (c1 ++ c2) = chainNodes c1 ++ chainNodes c2 := by
  simp [chainNodes]

theorem chainLinks_append (c1 c2 : List (Nat × List Nat)) :
    chainLinks (c1 ++ c2) = chainLinks c1 + chainLinks c2 := by
  simp [chainLinks]

theorem chainNodes_empty_slots (f : Nat → Nat) (l : List Nat) :
    chainNodes (l.map (fun i => (f i, ([] : List Nat)))) = [] := by
  induction l with
  | nil => rfl
  | cons a l ih => simp [chainNodes_cons, ih]

theorem chainLinks_empty_slots (f : Nat → Nat) (l : List Nat) :
    chainLinks (l.map (fun i => (f i, ([] : List Nat)))) = l.length := by
  induction l with
  | nil => rfl
  | cons a l ih =>
    simp only [List.map_cons, chainLinks_cons, ih, List.length_nil, List.length_cons]
    omega

theorem SubGraphState.eta (st : SubGraphState) :
    ({ head := st.head, next := st.next, master := st.master } : SubGraphState) = st := by
  cases st
  rfl

theorem Memory.isActive_congr (m m1 : Memory NodeDataTy EdgeDataTy) (h : m1.nodes = m.nodes) :
    m1.isActive = m.isActive := by
  funext a
  simp [Memory.isActive, h]

theorem Memory.nextKept_of_nodes_eq (m m1 : Memory NodeDataTy EdgeDataTy)
    (h : m1.nodes = m.nodes) : m.NextKept m1 := by
  intro a nd hnd
  exact ⟨nd, by rw [h]; exact hnd, rfl⟩

/-- Deserializing the handle `p0` of the head of the chain `(p0, L0) :: rest` into a
container `gB` freshly built in the same memory: the partition `p0` is followed by the
slots of `gB` from the calling worker on, then by `rest`; every slot of `gB` has `p0` as
master and leads to `rest`; no node changes. -/
theorem ThirdGraph.splice_spec (m m1 : Memory NodeDataTy EdgeDataTy) (gB : ThirdGraph)
    (nB tB p0 : Nat) (L0 : List Nat) (rest : List (Nat × List Nat))
    (hc : m.chain (some p0) ((p0, L0) :: rest))
    (hnew : ThirdGraph.new nB m = some (gB, m1)) (htB : tB < nB) :
    ∃ m2, gB.deserialize tB (some p0) m1 = some m2 ∧ m2.nodes = m.nodes ∧
      gB.localState = m.states.length ∧ gB.numThreads = nB ∧
      (∀ w, w < nB → ∃ st, m2.state (gB.getLocal w) = some st ∧ st.master = some p0) ∧
      (∀ j, j < nB → m2.chain (gB.getLocal j)
        ((List.range' j (nB - j)).map (fun i => (gB.localState + i, ([] : List Nat))) ++ rest)) ∧
      m2.chain (some p0)
        ((p0, L0) ::
          ((List.range' tB (nB - tB)).map (fun i => (gB.localState + i, ([] : List Nat))) ++
            rest)) := by
  rcases ThirdGraph.new_memory nB m with ⟨m1a, hnew1, hnodes1, hlen1, hget1⟩
  rw [hnew1] at hnew
  have hg : gB = { localState := m.states.length, numThreads := nB } :=
    (Prod.mk.inj (Option.some.inj hnew)).1.symm
  have hm : m1a = m1 := (Prod.mk.inj (Option.some.inj hnew)).2
  subst hg
  subst hm
  have hc0 := hc
  rcases hc with ⟨_, st0, hst0, hL0, hrest⟩
  have hp0 : p0 < m.states.length := lt_of_getElem?_some hst0
  have hst1 : m1a.states[p0]? = some st0 := by rw [hget1, if_pos hp0]; exact hst0
  rcases ThirdGraph.deserialize_spec
    ({ localState := m.states.length, numThreads := nB } : ThirdGraph) tB p0 m1a st0 htB
    (by simp [hlen1]) hst1 with ⟨m2, hdes, hnodes2, _, hget2⟩
  simp only [] at hget2
  have hnodes : m2.nodes = m.nodes := by rw [hnodes2, hnodes1]
  have hkept : m.NextKept m2 := Memory.nextKept_of_nodes_eq m m2 hnodes
  -- the partition states of `m` other than `p0`
  have hold : ∀ a, a < m.states.length → a ≠ p0 → m2.states[a]? = m.states[a]? := by
    intro a ha hne
    rw [hget2, hget1, if_pos ha]
    have h1 : ¬ (m.states.length ≤ a ∧ a < m.states.length + nB) := by omega
    have h2 : ¬ a = m.states.length + (nB - 1) := by omega
    cases hsa : m.states[a]? with
    | none => rfl
    | some st => simp [hne, h1, h2, SubGraphState.eta]
  -- the slots of the new container
  have hslot : ∀ j, j < nB → m2.states[m.states.length + j]? =
      some { head := none,
             next := if j + 1 < nB then some (m.states.length + j + 1) else st0.next,
             master := some p0 } := by
    intro j hj
    rw [hget2, hget1]
    have h0 : ¬ m.states.length + j < m.states.length := by omega
    have h1 : m.states.length + j < m.states.length + nB := by omega
    have h2 : ¬ m.states.length + j = p0 := by omega
    have h3 : m.states.length ≤ m.states.length + j ∧
        m.states.length + j < m.states.length + nB := by omega
    have h4 : m.states.length + j - m.states.length = j := by omega
    rw [if_neg h0, if_pos h1]
    by_cases hlast : j + 1 < nB
    · have h5 : ¬ m.states.length + j = m.states.length + (nB - 1) := by omega
      simp [h2, h3, h4, h5, hlast]
    · have h5 : m.states.length + j = m.states.length + (nB - 1) := by omega
      have h6 : j = nB - 1 := by omega
      simp [h2, h3, h4, hlast, ← h6]
  have hp0new : m2.states[p0]? =
      some { head := st0.head, next := some (m.states.length + tB), master := st0.master } := by
    rw [hget2, hst1]
    have h1 : ¬ (m.states.length ≤ p0 ∧ p0 < m.states.length + nB) := by omega
    simp [h1]
  -- the rest of the chain is untouched
  have hrest2 : m2.chain st0.next rest := by
    refine Memory.chain_transfer m m2 hkept rest _ hrest ?_
    intro a ha
    have halt := Memory.chain_addr_lt m rest _ hrest a ha
    have hane : a ≠ p0 := by
      intro h
      exact Memory.chain_head_not_in_tail m p0 L0 rest _ hc0 (h ▸ ha)
    exact hold a halt hane
  -- the slots from `j` on, followed by the rest
  have hslots : ∀ (k j : Nat), j + (k + 1) = nB →
      m2.chain (some (m.states.length + j))
        ((List.range' j (k + 1)).map (fun i => (m.states.length + i, ([] : List Nat))) ++
          rest) := by
    intro k
    induction k with
    | zero =>
      intro j hj
      have hlast : ¬ j + 1 < nB := by omega
      have hs := hslot j (by omega)
      rw [if_neg hlast] at hs
      exact ⟨rfl, _, hs, rfl, hrest2⟩
    | succ k ih =>
      intro j hj
      have hnext : j + 1 < nB := by omega
      have hs := hslot j (by omega)
      rw [if_pos hnext] at hs
      exact ⟨rfl, _, hs, rfl, ih (j + 1) (by omega)⟩
  refine ⟨m2, hdes, hnodes, rfl, rfl, ?_, ?_, ?_⟩
  · intro w hw
    refine ⟨{ head := none,
              next := if w + 1 < nB then some (m.states.length + w + 1) else st0.next,
              master := some p0 }, ?_, rfl⟩
    simp [Memory.state, ThirdGraph.getLocal, hw, hslot w hw]
  · intro j hj
    have h := hslots (nB - j - 1) j (by omega)
    have hk : nB - j - 1 + 1 = nB - j := by omega
    rw [hk] at h
    simpa [ThirdGraph.getLocal, hj] using h
  · have h := hslots (nB - tB - 1) tB (by omega)
    have hk : nB - tB - 1 + 1 = nB - tB := by omega
    rw [hk] at h
    exact ⟨rfl, _, hp0new, Memory.nodeList_of_nextKept hkept L0 _ hL0, h⟩

/-! ## The shared master -/

/-- The node and edge operations keep the number of partition states and the master of
each. -/
theorem ThirdGraph.step_masters [Inhabited EdgeDataTy] (g : ThirdGraph)
    (m m1 : Memory NodeDataTy EdgeDataTy) (op : ThirdGraph.Op NodeDataTy)
    (h : ThirdGraph.step g m op = some m1) :
    m1.states.length = m.states.length ∧
      ∀ (j : Nat) (st : SubGraphState), m.states[j]? = some st →
        ∃ st1, m1.states[j]? = some st1 ∧ st1.master = st.master := by
  by_cases hop : ∃ tid d, op = ThirdGraph.Op.createNode tid d
  · rcases hop with ⟨tid, d, rfl⟩
    cases hc : g.createNode tid d m with
    | none => simp [ThirdGraph.step, hc] at h
    | some r =>
      rcases r with ⟨N, m2⟩
      have hm : m2 = m1 := by simpa [ThirdGraph.step, hc] using h
      subst hm
      rcases ThirdGraph.createNode_frame g tid d m m2 N hc with ⟨hother, hown, _, hlen⟩
      refine ⟨hlen, ?_⟩
      intro j st hst
      by_cases hj : j = g.localState + tid
      · subst hj
        rcases hown with ⟨st0, st1, hst0, hst1, _, hmaster⟩
        rw [hst] at hst0
        cases hst0
        exact ⟨st1, hst1, hmaster⟩
      · exact ⟨st, by rw [hother j hj]; exact hst, rfl⟩
  · have hop1 : ∀ tid d, op ≠ ThirdGraph.Op.createNode tid d :=
      fun tid d he => hop ⟨tid, d, he⟩
    rcases ThirdGraph.step_node_op g m m1 op hop1 h with rfl | ⟨a, nd, nd1, _, _, _, rfl⟩
    · exact ⟨rfl, fun j st hst => ⟨st, hst, rfl⟩⟩
    · exact ⟨rfl, fun j st hst => ⟨st, hst, rfl⟩⟩

/-- After a successful `deserialize` every slot of the container holds the incoming
handle as master. -/
theorem ThirdGraph.deserialize_shared_master (g : ThirdGraph) (tid : Nat) (s : StatePtr)
    (m m4 : Memory NodeDataTy EdgeDataTy)
    (hlen : g.localState + g.numThreads ≤ m.states.length)
    (h : g.deserialize tid s m = some m4) :
    m4.states.length = m.states.length ∧
      ∀ i, i < g.numThreads →
        ∃ st, m4.states[g.localState + i]? = some st ∧ st.master = s := by
  rcases ThirdGraph.deserialize_some g tid s m m4 hlen h with ⟨htid, p, stp, rfl, hp⟩
  rcases ThirdGraph.deserialize_spec g tid p m stp htid hlen hp with
    ⟨m5, hdes, _, hlen5, hget⟩
  rw [hdes] at h
  have hm : m5 = m4 := Option.some.inj h
  subst hm
  refine ⟨hlen5, ?_⟩
  intro i hi
  rcases getElem?_some_of_lt m.states (g.localState + i) (by omega) with ⟨st, hst⟩
  have hin : g.localState ≤ g.localState + i ∧
      g.localState + i < g.localState + g.numThreads := by omega
  refine ⟨_, by rw [hget, hst]; rfl, ?_⟩
  simp [hin]

/-- All slots of the container exist and hold the master `M`. -/
theorem ThirdGraph.runCalls_shared_master [Inhabited EdgeDataTy] (g : ThirdGraph) :
    ∀ (calls : List (ThirdGraph.Call NodeDataTy)) (m m1 : Memory NodeDataTy EdgeDataTy)
      (M : StatePtr), g.localState + g.numThreads ≤ m.states.length →
      (∀ i, i < g.numThreads → ∃ st, m.states[g.localState + i]? = some st ∧ st.master = M) →
      ThirdGraph.runCalls g calls m = some m1 →
      g.localState + g.numThreads ≤ m1.states.length ∧
        ∀ i, i < g.numThreads →
          ∃ st, m1.states[g.localState + i]? = some st ∧
            st.master = ThirdGraph.masterAfter calls M := by
  intro calls
  induction calls with
  | nil =>
    intro m m1 M hlen hinv h
    have : m = m1 := by simpa [ThirdGraph.runCalls] using h
    subst this
    exact ⟨hlen, hinv⟩
  | cons c calls ih =>
    intro m m1 M hlen hinv h
    cases hst : ThirdGraph.stepCall g m c with
    | none => simp [ThirdGraph.runCalls, hst] at h
    | some m2 =>
      have hrest : ThirdGraph.runCalls g calls m2 = some m1 := by
        simpa [ThirdGraph.runCalls, hst] using h
      cases c with
      | op o =>
        rcases ThirdGraph.step_masters g m m2 o hst with ⟨hlen2, hkeep⟩
        refine ih m2 m1 M (by omega) ?_ hrest
        intro i hi
        rcases hinv i hi with ⟨st, hsti, hmaster⟩
        rcases hkeep _ st hsti with ⟨st1, hst1, hm1⟩
        exact ⟨st1, hst1, by rw [hm1, hmaster]⟩
      | deserialize tid s =>
        rcases ThirdGraph.deserialize_shared_master g tid s m m2 hlen hst with ⟨hlen2, hall⟩
        exact ih m2 m1 s (by omega) hall hrest

/-- In the memory left by the constructor every slot exists and has slot 0 as master. -/
theorem ThirdGraph.new_shared_master (n : Nat) (g : ThirdGraph)
    (m0 m1 : Memory NodeDataTy EdgeDataTy) (h : ThirdGraph.new n m0 = some (g, m1)) :
    g.numThreads = n ∧ g.localState + g.numThreads ≤ m1.states.length ∧
      ∀ i, i < g.numThreads →
        ∃ st, m1.states[g.localState + i]? = some st ∧ st.master = some g.localState := by
  rcases ThirdGraph.new_memory n m0 with ⟨m1a, hnew, _, hlen, hget⟩
  rw [hnew] at h
  have hg : g = { localState := m0.states.length, numThreads := n } :=
    (Prod.mk.inj (Option.some.inj h)).1.symm
  have hm : m1a = m1 := (Prod.mk.inj (Option.some.inj h)).2
  subst hg
  subst hm
  refine ⟨rfl, by simp [hlen], ?_⟩
  intro i hi
  have h0 : ¬ m0.states.length + i < m0.states.length := by omega
  have h1 : m0.states.length + i < m0.states.length + n := by
    simp only [] at hi; omega
  exact ⟨_, by rw [hget, if_neg h0, if_pos h1], rfl⟩

/-- The iterator `begin()`, the global iteration and `size()` depend on the calling
worker only through the master of its slot. -/
theorem ThirdGraph.begin_of_same_master (g : ThirdGraph) (m : Memory NodeDataTy EdgeDataTy)
    (w1 w2 fuel : Nat) (st1 st2 : SubGraphState)
    (h1 : m.state (g.getLocal w1) = some st1) (h2 : m.state (g.getLocal w2) = some st2)
    (hm : st1.master = st2.master) :
    g.begin w1 m fuel = g.begin w2 m fuel ∧
      g.globalNodes w1 m fuel = g.globalNodes w2 m fuel ∧
      g.size w1 m fuel = g.size w2 m fuel := by
  have hb : g.begin w1 m fuel = g.begin w2 m fuel := by
    simp [ThirdGraph.begin, h1, h2, hm]
  exact ⟨hb, by simp only [ThirdGraph.globalNodes, hb], by simp only [ThirdGraph.size, hb]⟩

/-! ## States of the global iterator -/

/-- The do-while loop of `next` ends on a null node or on an active node. -/
theorem ThirdGraph.iterator.nextLoop_inv (m : Memory NodeDataTy EdgeDataTy) :
    ∀ (fuel : Nat) (it it1 : ThirdGraph.iterator),
      ThirdGraph.iterator.nextLoop m fuel it = some it1 →
      it1.n = none ∨ ∃ a, it1.n = some a ∧ m.isActive a = true := by
  intro fuel
  induction fuel with
  | zero => intro it it1 h; simp [ThirdGraph.iterator.nextLoop] at h
  | succ k ih =>
    intro it it1 h
    cases hnd : m.node it.n with
    | none => simp [ThirdGraph.iterator.nextLoop, hnd] at h
    | some nd =>
      cases hhop : ThirdGraph.iterator.hop m (k + 1) { n := nd.nextNode, s := it.s } with
      | none => simp [ThirdGraph.iterator.nextLoop, hnd, hhop] at h
      | some it2 =>
        cases hn2 : it2.n with
        | none =>
          have : it2 = it1 := by
            simpa [ThirdGraph.iterator.nextLoop, hnd, hhop, hn2] using h
          subst this
          exact Or.inl hn2
        | some b =>
          cases hb : m.nodes[b]? with
          | none => simp [ThirdGraph.iterator.nextLoop, hnd, hhop, hn2, hb] at h
          | some nd1 =>
            cases hact : nd1.active with
            | true =>
              have : it2 = it1 := by
                simpa [ThirdGraph.iterator.nextLoop, hnd, hhop, hn2, hb, hact] using h
              subst this
              exact Or.inr ⟨b, hn2, by rw [Memory.isActive_of_get hb, hact]⟩
            | false =>
              have hrec : ThirdGraph.iterator.nextLoop m k it2 = some it1 := by
                simpa [ThirdGraph.iterator.nextLoop, hnd, hhop, hn2, hb, hact] using h
              exact ih it2 it1 hrec

theorem ThirdGraph.iterator.clearAtEnd_inv (m : Memory NodeDataTy EdgeDataTy)
    (it : ThirdGraph.iterator)
    (h : it.n = none ∨ ∃ a, it.n = some a ∧ m.isActive a = true) :
    ((ThirdGraph.iterator.clearAtEnd it).n = none ∧ (ThirdGraph.iterator.clearAtEnd it).s = none) ∨
      ∃ a, (ThirdGraph.iterator.clearAtEnd it).n = some a ∧ m.isActive a = true := by
  rcases h with hn | ⟨a, hn, hact⟩
  · exact Or.inl (by simp [ThirdGraph.iterator.clearAtEnd, hn])
  · exact Or.inr ⟨a, by rw [ThirdGraph.iterator.clearAtEnd_of_some it a hn]; exact hn, hact⟩

/-- Every iterator returned by `next` is the terminal state or stands on an active
node. -/
theorem ThirdGraph.iterator.next_inv (m : Memory NodeDataTy EdgeDataTy) (fuel : Nat)
    (it it1 : ThirdGraph.iterator) (h : ThirdGraph.iterator.next m fuel it = some it1) :
    (it1.n = none ∧ it1.s = none) ∨ ∃ a, it1.n = some a ∧ m.isActive a = true := by
  cases hloop : ThirdGraph.iterator.nextLoop m fuel it with
  | none => simp [ThirdGraph.iterator.next, hloop] at h
  | some it2 =>
    have : ThirdGraph.iterator.clearAtEnd it2 = it1 := by
      simpa [ThirdGraph.iterator.next, hloop] using h
    rw [← this]
    exact ThirdGraph.iterator.clearAtEnd_inv m it2
      (ThirdGraph.iterator.nextLoop_inv m fuel it it2 hloop)

theorem ThirdGraph.iterator.clearAtEnd_idem (m : Memory NodeDataTy EdgeDataTy)
    (it : ThirdGraph.iterator)
    (h : (it.n = none ∧ it.s = none) ∨ ∃ a, it.n = some a ∧ m.isActive a = true) :
    ((ThirdGraph.iterator.clearAtEnd it).n = none ∧ (ThirdGraph.iterator.clearAtEnd it).s = none) ∨
      ∃ a, (ThirdGraph.iterator.clearAtEnd it).n = some a ∧ m.isActive a = true := by
  rcases h with ⟨hn, _⟩ | h
  · exact ThirdGraph.iterator.clearAtEnd_inv m it (Or.inl hn)
  · exact ThirdGraph.iterator.clearAtEnd_inv m it (Or.inr h)

/-- Every iterator returned by the constructor `iterator(ms)` is the terminal state or
stands on an active node. -/
theorem ThirdGraph.iterator.new_inv (m : Memory NodeDataTy EdgeDataTy) (fuel : Nat)
    (ms : StatePtr) (it : ThirdGraph.iterator)
    (h : ThirdGraph.iterator.new m fuel ms = some it) :
    (it.n = none ∧ it.s = none) ∨ ∃ a, it.n = some a ∧ m.isActive a = true := by
  cases hst : m.state ms with
  | none => simp [ThirdGraph.iterator.new, hst] at h
  | some st =>
    cases hhop : ThirdGraph.iterator.hop m fuel { n := st.head, s := ms } with
    | none => simp [ThirdGraph.iterator.new, hst, hhop] at h
    | some it1 =>
      cases hn1 : it1.n with
      | none =>
        have : ThirdGraph.iterator.clearAtEnd it1 = it := by
          simpa [ThirdGraph.iterator.new, hst, hhop, hn1] using h
        rw [← this]
        exact ThirdGraph.iterator.clearAtEnd_inv m it1 (Or.inl hn1)
      | some a =>
        cases ha : m.nodes[a]? with
        | none => simp [ThirdGraph.iterator.new, hst, hhop, hn1, ha] at h
        | some nd =>
          cases hact : nd.active with
          | true =>
            have : ThirdGraph.iterator.clearAtEnd it1 = it := by
              simpa [ThirdGraph.iterator.new, hst, hhop, hn1, ha, hact] using h
            rw [← this]
            exact ThirdGraph.iterator.clearAtEnd_inv m it1
              (Or.inr ⟨a, hn1, by rw [Memory.isActive_of_get ha, hact]⟩)
          | false =>
            cases hnext : ThirdGraph.iterator.next m fuel it1 with
            | none => simp [ThirdGraph.iterator.new, hst, hhop, hn1, ha, hact, hnext] at h
            | some it2 =>
              have : ThirdGraph.iterator.clearAtEnd it2 = it := by
                simpa [ThirdGraph.iterator.new, hst, hhop, hn1, ha, hact, hnext] using h
              rw [← this]
              exact ThirdGraph.iterator.clearAtEnd_idem m it2
                (ThirdGraph.iterator.next_inv m fuel it1 it2 hnext)

/-! ## Positions of the edge iterator -/

/-- The position `satisfy_predicate` stops at is the end or an edge with an active
destination, and it is a final part of the list it started from. -/
theorem ThirdGraph.edge_iterator.satisfy_predicate_inv (m : Memory NodeDataTy EdgeDataTy) :
    ∀ (es r : List (Edge EdgeDataTy)),
      ThirdGraph.edge_iterator.satisfy_predicate m es = some r →
      r <:+ es ∧ (r = [] ∨ ∃ e rest, r = e :: rest ∧ ThirdGraph.is_edge m e = some true) := by
  intro es
  induction es with
  | nil =>
    intro r h
    have : r = [] := by simpa [ThirdGraph.edge_iterator.satisfy_predicate] using h.symm
    subst this
    exact ⟨List.suffix_refl _, Or.inl rfl⟩
  | cons e es ih =>
    intro r h
    cases he : ThirdGraph.is_edge m e with
    | none => simp [ThirdGraph.edge_iterator.satisfy_predicate, he] at h
    | some b =>
      cases b with
      | true =>
        have : e :: es = r := by
          simpa [ThirdGraph.edge_iterator.satisfy_predicate, he] using h
        subst this
        exact ⟨List.suffix_refl _, Or.inr ⟨e, es, rfl, he⟩⟩
      | false =>
        have hrec : ThirdGraph.edge_iterator.satisfy_predicate m es = some r := by
          simpa [ThirdGraph.edge_iterator.satisfy_predicate, he] using h
        rcases ih r hrec with ⟨hsuf, hhead⟩
        exact ⟨hsuf.trans (List.suffix_cons e es), hhead⟩

/-- Every position reached by increments from a position inside a deque is inside that
deque and is the end or an edge with an active destination. -/
theorem ThirdGraph.edge_iterator.advance_inv (m : Memory NodeDataTy EdgeDataTy)
    (es : List (Edge EdgeDataTy)) :
    ∀ (k : Nat) (it p : ThirdGraph.edge_iterator EdgeDataTy),
      it.base <:+ es →
      (it.base = [] ∨ ∃ e rest, it.base = e :: rest ∧ ThirdGraph.is_edge m e = some true) →
      ThirdGraph.edge_iterator.advance m k it = some p →
      p.base <:+ es ∧
        (p.base = [] ∨ ∃ e rest, p.base = e :: rest ∧ ThirdGraph.is_edge m e = some true) := by
  intro k
  induction k with
  | zero =>
    intro it p hsuf hhead h
    have : it = p := by simpa [ThirdGraph.edge_iterator.advance] using h
    subst this
    exact ⟨hsuf, hhead⟩
  | succ k ih =>
    intro it p hsuf _ h
    cases hinc : ThirdGraph.edge_iterator.increment m it with
    | none => simp [ThirdGraph.edge_iterator.advance, hinc] at h
    | some it1 =>
      have hrec : ThirdGraph.edge_iterator.advance m k it1 = some p := by
        simpa [ThirdGraph.edge_iterator.advance, hinc] using h
      cases hb : it.base with
      | nil => simp [ThirdGraph.edge_iterator.increment, hb] at hinc
      | cons e rest =>
        cases hsat : ThirdGraph.edge_iterator.satisfy_predicate m rest with
        | none => simp [ThirdGraph.edge_iterator.increment, hb, hsat] at hinc
        | some r =>
          have h1 : it1 = { base := r } := by
            simpa [ThirdGraph.edge_iterator.increment, hb, hsat] using hinc.symm
          rcases ThirdGraph.edge_iterator.satisfy_predicate_inv m rest r hsat with ⟨hs1, hh1⟩
          have hsuf1 : it1.base <:+ es := by
            rw [h1]
            rw [hb] at hsuf
            exact (hs1.trans (List.suffix_cons e rest)).trans hsuf
          exact ih it1 p hsuf1 (by rw [h1]; exact hh1) hrec

/-- The check of `getEdgeDst` at a position on an edge. -/
theorem ThirdGraph.getEdgeDst_at (m : Memory NodeDataTy EdgeDataTy)
    (ii : ThirdGraph.edge_iterator EdgeDataTy) (e : Edge EdgeDataTy)
    (rest : List (Edge EdgeDataTy)) (hb : ii.base = e :: rest) :
    (ThirdGraph.is_edge m e = some true → ThirdGraph.getEdgeDst ii m = some e.dst) ∧
      ((∃ x, m.node e.dst = some x) →
        (ThirdGraph.getEdgeDst ii m = none ↔ m.edgeLive e = false)) := by
  constructor
  · intro h
    simp [ThirdGraph.getEdgeDst, hb, h]
  · intro hv
    rw [ThirdGraph.getEdgeDst, hb]
    simp only [ThirdGraph.is_edge_of_valid m e hv]
    cases m.edgeLive e <;> simp

theorem ThirdGraph.edgeLive_of_is_edge (m : Memory NodeDataTy EdgeDataTy) (e : Edge EdgeDataTy)
    (h : ThirdGraph.is_edge m e = some true) : m.edgeLive e = true := by
  unfold ThirdGraph.is_edge at h
  unfold Memory.edgeLive
  cases hn : m.node e.dst with
  | none => simp [hn] at h
  | some nd => simpa [hn] using h

/-- With valid destinations the position after `k` increments from the first position
exists for every `k` up to the number of edges with an active destination, and what is
left to visit from there are the edges with an active destination but the first `k`. -/
theorem ThirdGraph.edge_iterator.advance_spec (m : Memory NodeDataTy EdgeDataTy) :
    ∀ (k : Nat) (es : List (Edge EdgeDataTy)), m.dstValid es →
      k ≤ (es.filter m.edgeLive).length →
      ∃ r, ThirdGraph.edge_iterator.advance m k
            { base := es.dropWhile (fun e => !m.edgeLive e) } = some { base := r } ∧
        r.filter m.edgeLive = (es.filter m.edgeLive).drop k ∧
        (r = [] ∨ ∃ e rest, r = e :: rest ∧ m.edgeLive e = true) := by
  intro k
  induction k with
  | zero =>
    intro es _ _
    refine ⟨es.dropWhile (fun e => !m.edgeLive e), rfl,
      by simp [filter_dropWhile_not], ?_⟩
    cases hd : es.dropWhile (fun e => !m.edgeLive e) with
    | nil => exact Or.inl rfl
    | cons e rest => exact Or.inr ⟨e, rest, rfl, dropWhile_not_cons m.edgeLive es e rest hd⟩
  | succ k ih =>
    intro es hv hk
    have hfil := filter_dropWhile_not m.edgeLive es
    cases hd : es.dropWhile (fun e => !m.edgeLive e) with
    | nil =>
      rw [hd] at hfil
      rw [← hfil] at hk
      simp at hk
    | cons e rest =>
      rw [hd] at hfil
      have hlive := dropWhile_not_cons m.edgeLive es e rest hd
      have hvr : m.dstValid rest := by
        intro x hx
        exact dropWhile_not_valid _ es _ hv x (by rw [hd]; exact List.mem_cons_of_mem _ hx)
      have hsat := ThirdGraph.edge_iterator.satisfy_predicate_of_valid m rest hvr
      have hfr : es.filter m.edgeLive = e :: rest.filter m.edgeLive := by
        rw [← hfil]; simp [hlive]
      rcases ih rest hvr (by rw [hfr] at hk; simpa using hk) with ⟨r, hadv, hrf, hrh⟩
      refine ⟨r, ?_, by rw [hrf, hfr]; rfl, hrh⟩
      simp [ThirdGraph.edge_iterator.advance, ThirdGraph.edge_iterator.increment, hsat, hadv]

/-! ## The local iterator without a copy -/

/-- Stepping a local iterator that stands on the first active node of `L` (or on null
when there is none) up to `local_end()` lists the active nodes of `L`. -/
theorem ThirdGraph.local_iterator.toList_active (m : Memory NodeDataTy EdgeDataTy) :
    ∀ (fuel : Nat) (L : List Nat) (it : ThirdGraph.local_iterator),
      m.nodeList it.n (L.dropWhile (fun a => !m.isActive a)) → L.length + 1 ≤ fuel →
      ThirdGraph.local_iterator.toList m fuel it = some (L.filter m.isActive) := by
  intro fuel
  induction fuel with
  | zero => intro L it _ hf; omega
  | succ k ih =>
    intro L it hl hf
    have hfil := filter_dropWhile_not m.isActive L
    have hle := length_dropWhile_le (fun a => !m.isActive a) L
    cases hd : L.dropWhile (fun a => !m.isActive a) with
    | nil =>
      rw [hd] at hl hfil
      have hn : it.n = none := by simpa [Memory.nodeList] using hl
      simp [ThirdGraph.local_iterator.toList, hn, ← hfil]
    | cons a D =>
      rw [hd] at hl hfil hle
      have hact := dropWhile_not_cons m.isActive L a D hd
      have hn : it.n = some a := hl.1
      simp only [List.length_cons] at hle
      rcases ThirdGraph.local_iterator.next_spec m it a D (k + 1) hl (by omega) with
        ⟨h1, hnext, hlist⟩
      have hrec := ih D { n := h1 } hlist (by omega)
      simp [ThirdGraph.local_iterator.toList, hn, hnext, hrec, ← hfil, hact]

/-- The traversal from `local_begin()` as returned: the head of the list, whatever its
active flag, followed by the active nodes after it. -/
theorem ThirdGraph.local_toList_spec (g : ThirdGraph) (m : Memory NodeDataTy EdgeDataTy)
    (tid : Nat) (st : SubGraphState) (L : List Nat) (fuel : Nat)
    (hst : m.state (g.getLocal tid) = some st) (hl : m.nodeList st.head L)
    (hf : L.length + 1 ≤ fuel) :
    ∃ b, g.local_begin tid m = some b ∧ b.n = st.head ∧
      b.toList m fuel =
        some (match L with
          | [] => []
          | a :: rest => a :: rest.filter m.isActive) := by
  refine ⟨{ n := st.head }, by simp [ThirdGraph.local_begin, hst], rfl, ?_⟩
  obtain ⟨k, rfl⟩ : ∃ k, fuel = k + 1 := ⟨fuel - 1, by omega⟩
  cases L with
  | nil =>
    have hn : st.head = none := by simpa [Memory.nodeList] using hl
    simp [ThirdGraph.local_iterator.toList, hn]
  | cons a rest =>
    have hn : st.head = some a := hl.1
    rcases ThirdGraph.local_iterator.next_spec m { n := st.head } a rest (k + 1) hl
      (by simp at hf; omega) with ⟨h1, hnext, hlist⟩
    have hrec := ThirdGraph.local_iterator.toList_active m k rest { n := h1 } hlist
      (by simpa using hf)
    rw [hn] at hnext
    simp [ThirdGraph.local_iterator.toList, hn, hnext, hrec]

/-! ## Single calls in a shaped container -/

theorem Memory.nodeList_head (m : Memory NodeDataTy EdgeDataTy) (h : NodeHandle)
    (L : List Nat) (hl : m.nodeList h L) : h = L.head? := by
  cases L with
  | nil => simpa [Memory.nodeList] using hl
  | cons a L => exact hl.1

theorem ThirdGraph.run_cons_some [Inhabited EdgeDataTy] (g : ThirdGraph)
    (m m1 : Memory NodeDataTy EdgeDataTy) (op : ThirdGraph.Op NodeDataTy)
    (ops : List (ThirdGraph.Op NodeDataTy)) (h : ThirdGraph.step g m op = some m1) :
    ThirdGraph.run g (op :: ops) m = ThirdGraph.run g ops m1 := by
  simp [ThirdGraph.run, h]

/-- A `createNode` call of worker 0 in a shaped container. -/
theorem ThirdGraph.shaped_create_step [Inhabited EdgeDataTy] (g : ThirdGraph)
    (m : Memory NodeDataTy EdgeDataTy) (Ls : Nat → List Nat) (d : NodeDataTy)
    (hs : g.Shaped m Ls) (hpos : 0 < g.numThreads) :
    ∃ m1, ThirdGraph.step g m (ThirdGraph.Op.createNode 0 d) = some m1 ∧
      m1.nodes = m.nodes ++
        [{ nextNode := (Ls 0).head?, active := false, data := d, edges := [] }] ∧
      g.Shaped m1 (Function.update Ls 0 (m.nodes.length :: Ls 0)) := by
  rcases ThirdGraph.state_of_shaped g m Ls hs 0 hpos with ⟨st, hst, _, hl⟩
  have hst1 : m.states[g.localState + 0]? = some st := by
    simpa [Memory.state, ThirdGraph.getLocal, hpos] using hst
  have hc := ThirdGraph.createNode_eq g 0 d m st hpos hst1
  have hsh := (ThirdGraph.shaped_createNode g m _ Ls 0 d _ hs hc).2.2.2.2
  refine ⟨_, by simp [ThirdGraph.step, hc], ?_, hsh⟩
  simp [Memory.nodeList_head m st.head (Ls 0) hl]

/-- An `addNode` call in a shaped container. -/
theorem ThirdGraph.shaped_addNode_step [Inhabited EdgeDataTy] (g : ThirdGraph)
    (m : Memory NodeDataTy EdgeDataTy) (Ls : Nat → List Nat) (k : Nat)
    (nd : GraphNode NodeDataTy EdgeDataTy) (hs : g.Shaped m Ls) (hnd : m.nodes[k]? = some nd) :
    ∃ m1, ThirdGraph.step g m (ThirdGraph.Op.addNode (some k)) = some m1 ∧
      m1.nodes = m.nodes.set k { nd with active := true } ∧ g.Shaped m1 Ls :=
  ⟨{ nodes := m.nodes.set k { nd with active := true }, states := m.states },
    by simp [ThirdGraph.step, ThirdGraph.addNode_eq m k nd hnd], rfl,
    ThirdGraph.shaped_of_nextKept g m _ Ls hs rfl (by simp)
      (Memory.nextKept_set m k nd _ hnd rfl)⟩

/-- An `addEdge` call in a shaped container. -/
theorem ThirdGraph.shaped_addEdge_step [Inhabited EdgeDataTy] (g : ThirdGraph)
    (m : Memory NodeDataTy EdgeDataTy) (Ls : Nat → List Nat) (k j : Nat)
    (nd : GraphNode NodeDataTy EdgeDataTy) (hs : g.Shaped m Ls) (hnd : m.nodes[k]? = some nd) :
    ∃ m1, ThirdGraph.step g m (ThirdGraph.Op.addEdge (some k) (some j)) = some m1 ∧
      m1.nodes = m.nodes.set k
        { nd with edges := nd.edges ++ [{ dst := some j, val := default }] } ∧
      g.Shaped m1 Ls :=
  ⟨{ nodes := m.nodes.set k
       { nd with edges := nd.edges ++ [{ dst := some j, val := default }] },
     states := m.states },
    by simp [ThirdGraph.step, ThirdGraph.addEdge_eq m k (some j) nd hnd], rfl,
    ThirdGraph.shaped_of_nextKept g m _ Ls hs rfl (by simp)
      (Memory.nextKept_set m k nd _ hnd rfl)⟩

/-- A `removeNode` call on an active node in a shaped container. -/
theorem ThirdGraph.shaped_removeNode_step [Inhabited EdgeDataTy] (g : ThirdGraph)
    (m : Memory NodeDataTy EdgeDataTy) (Ls : Nat → List Nat) (k : Nat)
    (nd : GraphNode NodeDataTy EdgeDataTy) (hs : g.Shaped m Ls) (hnd : m.nodes[k]? = some nd)
    (hact : nd.active = true) :
    ∃ m1, ThirdGraph.step g m (ThirdGraph.Op.removeNode (some k)) = some m1 ∧
      m1.nodes = m.nodes.set k { nd with active := false, edges := [] } ∧ g.Shaped m1 Ls :=
  ⟨{ nodes := m.nodes.set k { nd with active := false, edges := [] }, states := m.states },
    by simp [ThirdGraph.step, ThirdGraph.removeNode_eq_active m k nd hnd hact], rfl,
    ThirdGraph.shaped_of_nextKept g m _ Ls hs rfl (by simp)
      (Memory.nextKept_set m k nd _ hnd rfl)⟩

theorem flatMap_range_single (f : Nat → List Nat) (n : Nat) (hn : 0 < n)
    (hf : ∀ i, i ≠ 0 → f i = []) : (List.range n).flatMap f = f 0 := by
  obtain ⟨k, rfl⟩ : ∃ k, n = k + 1 := ⟨n - 1, by omega⟩
  rw [List.range_succ_eq_map, List.flatMap_cons, List.flatMap_map]
  have : (List.range k).flatMap (fun i => f (Nat.succ i)) = [] := by
    rw [List.flatMap_eq_nil_iff]
    intro i _
    exact hf (i + 1) (by omega)
  simp [this]

/-! ## The scenario of the spec -/

/-- The memory after `scenarioOps` in a fresh container of `n` workers. -/
theorem scenario_memory [Inhabited EdgeDataTy] (n : Nat) (a b c : NodeDataTy) (hn : 0 < n) :
    ∃ (g : ThirdGraph) (m : Memory NodeDataTy EdgeDataTy) (Ls : Nat → List Nat),
      ThirdGraph.ReachedBy n (scenarioOps a b c) g m ∧ g.numThreads = n ∧ g.Shaped m Ls ∧
      Ls 0 = [2, 1, 0] ∧ (∀ i, i ≠ 0 → Ls i = []) ∧
      m.nodes =
        [{ nextNode := none, active := true, data := a,
           edges := [{ dst := some 1, val := default }, { dst := some 2, val := default }] },
         { nextNode := some 0, active := false, data := b, edges := [] },
         { nextNode := some 1, active := true, data := c, edges := [] }] := by
  rcases ThirdGraph.new_memory n (Memory.empty : Memory NodeDataTy EdgeDataTy) with
    ⟨m0, hnew, _, _, _⟩
  generalize hgd : ThirdGraph.mk (Memory.empty : Memory NodeDataTy EdgeDataTy).states.length n =
    g at hnew
  rcases ThirdGraph.shaped_new n g m0 hnew with ⟨hgn, hn0, hs0⟩
  have hpos : 0 < g.numThreads := by omega
  rcases ThirdGraph.shaped_create_step _ m0 _ a hs0 hpos with ⟨m1, hr1, hn1, hs1⟩
  rw [hn0] at hn1 hs1
  rcases ThirdGraph.shaped_create_step _ m1 _ b hs1 hpos with ⟨m2, hr2, hn2, hs2⟩
  rw [hn1] at hn2 hs2
  rcases ThirdGraph.shaped_create_step _ m2 _ c hs2 hpos with ⟨m3, hr3, hn3, hs3⟩
  rw [hn2] at hn3 hs3
  simp only [Function.update_same, List.nil_append, List.cons_append, List.length_nil,
    List.length_cons, List.head?_cons, List.head?_nil, Function.update_idem] at hn3 hs3
  rcases ThirdGraph.shaped_addNode_step _ m3 _ 0 _ hs3 (by rw [hn3]; rfl) with
    ⟨m4, hr4, hn4, hs4⟩
  rw [hn3] at hn4
  simp only [List.set_cons_zero] at hn4
  rcases ThirdGraph.shaped_addNode_step _ m4 _ 1 _ hs4 (by rw [hn4]; rfl) with
    ⟨m5, hr5, hn5, hs5⟩
  rw [hn4] at hn5
  simp only [List.set_cons_zero, List.set_cons_succ] at hn5
  rcases ThirdGraph.shaped_addNode_step _ m5 _ 2 _ hs5 (by rw [hn5]; rfl) with
    ⟨m6, hr6, hn6, hs6⟩
  rw [hn5] at hn6
  simp only [List.set_cons_zero, List.set_cons_succ] at hn6
  rcases ThirdGraph.shaped_addEdge_step _ m6 _ 0 1 _ hs6 (by rw [hn6]; rfl) with
    ⟨m7, hr7, hn7, hs7⟩
  rw [hn6] at hn7
  simp only [List.set_cons_zero, List.nil_append] at hn7
  rcases ThirdGraph.shaped_addEdge_step _ m7 _ 0 2 _ hs7 (by rw [hn7]; rfl) with
    ⟨m8, hr8, hn8, hs8⟩
  rw [hn7] at hn8
  simp only [List.set_cons_zero, List.cons_append, List.nil_append] at hn8
  rcases ThirdGraph.shaped_removeNode_step _ m8 _ 1 _ hs8 (by rw [hn8]; rfl) rfl with
    ⟨m9, hr9, hn9, hs9⟩
  rw [hn8] at hn9
  simp only [List.set_cons_zero, List.set_cons_succ] at hn9
  refine ⟨g, m9, _, ⟨m0, hnew, ?_⟩, hgn, hs9, by simp, ?_, hn9⟩
  · simp only [scenarioOps]
    rw [ThirdGraph.run_cons_some _ _ _ _ _ hr1, ThirdGraph.run_cons_some _ _ _ _ _ hr2,
      ThirdGraph.run_cons_some _ _ _ _ _ hr3, ThirdGraph.run_cons_some _ _ _ _ _ hr4,
      ThirdGraph.run_cons_some _ _ _ _ _ hr5, ThirdGraph.run_cons_some _ _ _ _ _ hr6,
      ThirdGraph.run_cons_some _ _ _ _ _ hr7, ThirdGraph.run_cons_some _ _ _ _ _ hr8,
      ThirdGraph.run_cons_some _ _ _ _ _ hr9]
    rfl
  · intro i hi
    simp [Function.update, hi]

/-- Claim C11: replication round trip. Worker `tA` of container `gA` serializes, which
yields only the master handle `M` of its slot and leaves the memory as it is; `c` is the
chain from `M`. A container `gB` for `nB` workers is then built and any of its workers
`tB` deserializes `M`. The call succeeds, no node changes, the global iteration of every
worker of `gB` returns the list the global iteration of `tA` returned at serialization
time (the active nodes of `c`, in the same order), and following `next` from any slot of
`gB` leads through the later slots of `gB` to the partitions that followed the master,
`c.tail`. -/
theorem replication_round_trip (gA gB : ThirdGraph) (tA tB nB : Nat)
    (m m1 : Memory NodeDataTy EdgeDataTy) (M : StatePtr) (c : List (Nat × List Nat))
    (hs : gA.serialize tA m = some M) (hc : m.chain M c) (hne : c ≠ [])
    (hnew : ThirdGraph.new nB m = some (gB, m1)) (htB : tB < nB) :
    ∃ m2, gB.deserialize tB M m1 = some m2 ∧ m2.nodes = m.nodes ∧
      (∀ fuel, chainLinks c + 1 ≤ fuel →
        gA.globalNodes tA m fuel = some ((chainNodes c).filter m.isActive)) ∧
      (∀ w fuel, w < nB → chainLinks c + nB + 1 ≤ fuel →
        gB.globalNodes w m2 fuel = some ((chainNodes c).filter m.isActive)) ∧
      (∀ j, j < nB → m2.chain (gB.getLocal j)
        ((List.range' j (nB - j)).map (fun i => (gB.localState + i, ([] : List Nat))) ++
          c.tail)) := by
  cases c with
  | nil => exact absurd rfl hne
  | cons x rest =>
    rcases x with ⟨p0, L0⟩
    have hM : M = some p0 := hc.1
    subst hM
    rcases ThirdGraph.splice_spec m m1 gB nB tB p0 L0 rest hc hnew htB with
      ⟨m2, hdes, hnodes, _, _, hmasters, hslots, hchain⟩
    obtain ⟨lA, hlA, hmA⟩ : ∃ lA, m.state (gA.getLocal tA) = some lA ∧ lA.master = some p0 := by
      cases hst : m.state (gA.getLocal tA) with
      | none => simp [ThirdGraph.serialize, hst] at hs
      | some lA => exact ⟨lA, rfl, by simpa [ThirdGraph.serialize, hst] using hs⟩
    refine ⟨m2, hdes, hnodes, ?_, ?_, hslots⟩
    · intro fuel hf
      exact ThirdGraph.globalNodes_eq gA tA m lA _ fuel hlA (by rw [hmA]; exact hc)
        (by simp) hf
    · intro w fuel hw hf
      rcases hmasters w hw with ⟨st, hst, hmaster⟩
      have hlinks : chainLinks ((p0, L0) ::
          ((List.range' tB (nB - tB)).map (fun i => (gB.localState + i, ([] : List Nat))) ++
            rest)) + 1 ≤ fuel := by
        simp only [chainLinks_cons, chainLinks_append, chainLinks_empty_slots,
          List.length_range'] at hf ⊢
        omega
      rw [ThirdGraph.globalNodes_eq gB w m2 st _ fuel hst (by rw [hmaster]; exact hchain)
        (by simp) hlinks]
      simp only [chainNodes_cons, chainNodes_append, chainNodes_empty_slots,
        List.nil_append, Memory.isActive_congr m m2 hnodes]

/-- Witness of C11: worker 0 of `demoGraph` serializes in `demoMemory`, `destGraph` is
built and its worker 1 deserializes. -/
theorem replication_round_trip_witness :
    ∃ m2, destGraph.deserialize 1 (some 0) spliceStart = some m2 ∧
      m2.nodes = demoMemory.nodes ∧
      (∀ fuel, chainLinks [(0, [2, 1, 0]), (1, [3])] + 1 ≤ fuel →
        demoGraph.globalNodes 0 demoMemory fuel =
          some ((chainNodes [(0, [2, 1, 0]), (1, [3])]).filter demoMemory.isActive)) ∧
      (∀ w fuel, w < 2 → chainLinks [(0, [2, 1, 0]), (1, [3])] + 2 + 1 ≤ fuel →
        destGraph.globalNodes w m2 fuel =
          some ((chainNodes [(0, [2, 1, 0]), (1, [3])]).filter demoMemory.isActive)) ∧
      (∀ j, j < 2 → m2.chain (destGraph.getLocal j)
        ((List.range' j (2 - j)).map (fun i => (destGraph.localState + i, ([] : List Nat))) ++
          [(0, [2, 1, 0]), (1, [3])].tail)) :=
  replication_round_trip demoGraph destGraph 0 1 2 demoMemory spliceStart (some 0)
    [(0, [2, 1, 0]), (1, [3])] rfl
    ⟨rfl, _, rfl, ⟨rfl, _, rfl, rfl, _, rfl, rfl, _, rfl, rfl⟩, rfl, _, rfl,
      ⟨rfl, _, rfl, rfl⟩, rfl⟩
    (by simp) rfl (by decide)

/-- Claim C12 at its failing input: in `demoGraph` worker 0 has created node 0 and not
activated it. The iterator `local_begin()` of worker 0 stands on node 0, and the
traversal up to `local_end()` visits node 0, although node 0 is inactive and the active
nodes of the list are none; the global iteration skips it, and so does the count
`std::distance(local_begin(), local_end())`, which copies the iterator first. -/
theorem local_begin_yields_inactive_head :
    ThirdGraph.ReachedBy 2 [ThirdGraph.Op.createNode 0 10] demoGraph pendingMemory ∧
      pendingMemory.isActive 0 = false ∧
      demoGraph.local_begin 0 pendingMemory = some { n := some 0 } ∧
      ThirdGraph.local_iterator.toList pendingMemory 3 { n := some 0 } = some [0] ∧
      [0].filter pendingMemory.isActive = [] ∧
      demoGraph.globalNodes 0 pendingMemory 4 = some [] ∧
      ThirdGraph.local_iterator.distance pendingMemory 3 { n := some 0 }
        ThirdGraph.local_end = some 0 :=
  ⟨⟨demoFresh, rfl, rfl⟩, rfl, rfl, rfl, rfl, rfl, rfl⟩

/-- Claim C13: the scenario of the spec. On a fresh container for any number `n` of
workers, worker 0 creates the nodes A, B, C (addresses 0, 1, 2) in this order, all three
are activated, edges from A to B and from A to C are added, and B is removed. All the
calls succeed; the global iteration of any worker returns C then A, and the edge
traversal of A returns exactly one edge, whose destination is C. -/
theorem concrete_scenario [Inhabited EdgeDataTy] (n tid : Nat) (a b c : NodeDataTy)
    (htid : tid < n) :
    ∃ (g : ThirdGraph) (m : Memory NodeDataTy EdgeDataTy),
      ThirdGraph.ReachedBy n (scenarioOps a b c) g m ∧
      m.nodes.map (fun nd => nd.data) = [a, b, c] ∧
      (∀ fuel, n + 4 ≤ fuel → g.globalNodes tid m fuel = some [2, 0]) ∧
      (∀ fuel, 3 ≤ fuel →
        ThirdGraph.edges (some 0) m fuel = some [{ dst := some 2, val := default }]) := by
  rcases @scenario_memory NodeDataTy EdgeDataTy _ n a b c (by omega) with ⟨g, m, Ls, hr, hgn, hs, hL0, hLi, hnodes⟩
  refine ⟨g, m, hr, by simp [hnodes], ?_, ?_⟩
  · intro fuel hf
    have hlen : m.nodes.length = 3 := by simp [hnodes]
    rw [(ThirdGraph.globalNodes_shaped g m Ls hs tid fuel (by omega) (by omega)).1,
      flatMap_range_single Ls g.numThreads (by omega) hLi, hL0]
    simp [Memory.isActive, hnodes]
  · intro fuel hf
    have hnd : m.node (some 0) = some
        { nextNode := none, active := true, data := a,
          edges := [{ dst := some 1, val := default }, { dst := some 2, val := default }] } := by
      simp [Memory.node, hnodes]
    have hv : m.dstValid
        [({ dst := some 1, val := default } : Edge EdgeDataTy),
         { dst := some 2, val := default }] := by
      intro e he
      simp only [List.mem_cons, List.mem_singleton, List.not_mem_nil, or_false] at he
      rcases he with rfl | rfl
      · exact ⟨_, by simp [Memory.node, hnodes]; rfl⟩
      · exact ⟨_, by simp [Memory.node, hnodes]; rfl⟩
    rw [ThirdGraph.edges_eq m (some 0) _ fuel hnd hv (by simpa using hf)]
    simp [Memory.edgeLive, Memory.node, hnodes]

/-- Witness of C13: two workers, payloads 10, 11, 12, seen by worker 1. -/
theorem concrete_scenario_witness :
    ∃ (g : ThirdGraph) (m : Memory Nat Unit),
      ThirdGraph.ReachedBy 2 (scenarioOps 10 11 12) g m ∧
      m.nodes.map (fun nd => nd.data) = [10, 11, 12] ∧
      (∀ fuel, 2 + 4 ≤ fuel → g.globalNodes 1 m fuel = some [2, 0]) ∧
      (∀ fuel, 3 ≤ fuel →
        ThirdGraph.edges (some 0) m fuel = some [{ dst := some 2, val := default }]) :=
  concrete_scenario 2 1 10 11 12 (by decide)

/-- Claim C14: `addEdge` appends without validating the destination. For every source
handle that refers to a node and every non-null destination handle, whatever the active
flags of the two nodes, `addEdge(src, dst)` succeeds; afterwards the source node is as
before except that its edge collection is the previous one with one edge to `dst`
appended at the end; every other node, every active flag and every partition state are
unchanged. -/
theorem addEdge_appends [Inhabited EdgeDataTy] (m : Memory NodeDataTy EdgeDataTy)
    (src dst : NodeHandle) (nd : GraphNode NodeDataTy EdgeDataTy)
    (hnd : m.node src = some nd) (hdst : dst ≠ none) :
    ∃ m1, ThirdGraph.addEdge src dst m = some m1 ∧
      m1.node src =
        some { nd with edges := nd.edges ++ [{ dst := dst, val := default }] } ∧
      (∀ N, N ≠ src → m1.node N = m.node N) ∧
      (∀ k, m1.isActive k = m.isActive k) ∧
      m1.states = m.states := by
  cases src with
  | none => simp [Memory.node] at hnd
  | some a =>
    have hnd0 : m.nodes[a]? = some nd := by simpa [Memory.node] using hnd
    have hadd := ThirdGraph.addEdge_eq m a dst nd hnd0 hdst
    refine ⟨_, hadd, ?_, ?_, ?_, rfl⟩
    · simp [Memory.node, getElem?_set_self_of_some hnd0]
    · intro N hN
      cases N with
      | none => rfl
      | some k =>
        have hk : a ≠ k := fun h => hN (by rw [h])
        simp [Memory.node, List.getElem?_set_ne hk]
    · intro k
      exact ThirdGraph.addEdge_isActive m _ (some a) dst hadd k

/-- Witness of C14: an edge from node 0 to the inactive node 1 in `demoMemory`. -/
theorem addEdge_appends_witness :
    ∃ m1, ThirdGraph.addEdge (some 0) (some 1) demoMemory = some m1 ∧
      m1.node (some 0) =
        some { nextNode := none, active := true, data := 10,
               edges := [{ dst := some 1, val := () }, { dst := some 2, val := () }] ++
                 [{ dst := some 1, val := default }] } ∧
      (∀ N, N ≠ some 0 → m1.node N = demoMemory.node N) ∧
      (∀ k, m1.isActive k = demoMemory.isActive k) ∧
      m1.states = demoMemory.states :=
  addEdge_appends demoMemory (some 0) (some 1)
    { nextNode := none, active := true, data := 10,
      edges := [{ dst := some 1, val := () }, { dst := some 2, val := () }] } rfl (by simp)

/-- Claim C15: the checked precondition of `getEdgeDst` holds on every traversed edge.
For a node `N` whose stored destination handles refer to nodes, `edge_begin(N)`
succeeds; for every `k` below the number of edges with an active destination the
position after `k` increments exists, stands on the `k`-th such edge, and `getEdgeDst`
passes its check there and returns the destination of that edge; after that many
increments the position is `edge_end(N)`. Every position reached by increments that is
not the end stands on a stored edge with an active destination on which `getEdgeDst`
returns the destination. At any position on an edge with a valid destination handle
`getEdgeDst` fails exactly when that destination is inactive. -/
theorem getEdgeDst_succeeds_on_traversal (m : Memory NodeDataTy EdgeDataTy)
    (N : NodeHandle) (nd : GraphNode NodeDataTy EdgeDataTy)
    (hnd : m.node N = some nd) (hv : m.dstValid nd.edges) :
    ∃ b, ThirdGraph.edge_begin N m = some b ∧
      (∀ k e, (nd.edges.filter m.edgeLive)[k]? = some e →
        ∃ p rest, ThirdGraph.edge_iterator.advance m k b = some p ∧ p.base = e :: rest ∧
          ThirdGraph.getEdgeDst p m = some e.dst) ∧
      (∃ p, ThirdGraph.edge_iterator.advance m (nd.edges.filter m.edgeLive).length b = some p ∧
        ThirdGraph.edge_end N m = some p) ∧
      (∀ k p, ThirdGraph.edge_iterator.advance m k b = some p → p.base ≠ [] →
        ∃ e rest, p.base = e :: rest ∧ e ∈ nd.edges ∧ m.edgeLive e = true ∧
          ThirdGraph.getEdgeDst p m = some e.dst) ∧
      (∀ (ii : ThirdGraph.edge_iterator EdgeDataTy) e rest, ii.base = e :: rest →
        (∃ x, m.node e.dst = some x) →
        (ThirdGraph.getEdgeDst ii m = none ↔ m.edgeLive e = false)) := by
  have hbegin : ThirdGraph.edge_begin N m =
      some { base := nd.edges.dropWhile (fun e => !m.edgeLive e) } := by
    simp [ThirdGraph.edge_begin, hnd, ThirdGraph.lockLoop_of_valid m nd.edges hv,
      ThirdGraph.edge_iterator.satisfy_predicate_of_valid m nd.edges hv]
  refine ⟨_, hbegin, ?_, ?_, ?_, ?_⟩
  · intro k e hk
    have hlt : k < (nd.edges.filter m.edgeLive).length := lt_of_getElem?_some hk
    rcases ThirdGraph.edge_iterator.advance_spec m k nd.edges hv (by omega) with
      ⟨r, hadv, hrf, hrh⟩
    rcases hrh with hnil | ⟨e1, rest, hr, hlive⟩
    · rw [hnil] at hrf
      have := congrArg List.length hrf
      simp at this
      omega
    · have he : e1 = e := by
        have h0 : ((nd.edges.filter m.edgeLive).drop k)[0]? = some e := by
          rw [List.getElem?_drop]; simpa using hk
        rw [← hrf, hr] at h0
        simpa [hlive] using h0
      subst he
      refine ⟨{ base := r }, rest, hadv, hr, ?_⟩
      have hval : ∃ x, m.node e1.dst = some x := by
        unfold Memory.edgeLive at hlive
        cases hn : m.node e1.dst with
        | none => simp [hn] at hlive
        | some x => exact ⟨x, rfl⟩
      exact (ThirdGraph.getEdgeDst_at m { base := r } e1 rest hr).1
        (by rw [ThirdGraph.is_edge_of_valid m e1 hval, hlive])
  · rcases ThirdGraph.edge_iterator.advance_spec m (nd.edges.filter m.edgeLive).length
      nd.edges hv (le_refl _) with ⟨r, hadv, hrf, hrh⟩
    have hr : r = [] := by
      rcases hrh with hnil | ⟨e1, rest, hr, hlive⟩
      · exact hnil
      · rw [hr] at hrf
        simp [hlive] at hrf
    subst hr
    exact ⟨{ base := [] }, hadv, by simp [ThirdGraph.edge_end, hnd]⟩
  · intro k p hadv hne
    have h0 := ThirdGraph.edge_iterator.satisfy_predicate_inv m nd.edges _
      (ThirdGraph.edge_iterator.satisfy_predicate_of_valid m nd.edges hv)
    rcases ThirdGraph.edge_iterator.advance_inv m nd.edges k
      { base := nd.edges.dropWhile (fun e => !m.edgeLive e) } p h0.1 h0.2 hadv with
      ⟨hsuf, hhead⟩
    rcases hhead with hnil | ⟨e, rest, hb, hlive⟩
    · exact absurd hnil hne
    · exact ⟨e, rest, hb, hsuf.subset (by rw [hb]; exact List.mem_cons_self _ _),
        ThirdGraph.edgeLive_of_is_edge m e hlive,
        (ThirdGraph.getEdgeDst_at m p e rest hb).1 hlive⟩
  · intro ii e rest hb hval
    exact (ThirdGraph.getEdgeDst_at m ii e rest hb).2 hval

/-- Witness of C15: the edges of node 0 in `demoMemory`, to the inactive node 1 and to
the active node 2. -/
theorem getEdgeDst_succeeds_on_traversal_witness :
    ∃ b, ThirdGraph.edge_begin (some 0) demoMemory = some b ∧
      (∀ k e, (([{ dst := some 1, val := () }, { dst := some 2, val := () }] :
          List (Edge Unit)).filter demoMemory.edgeLive)[k]? = some e →
        ∃ p rest, ThirdGraph.edge_iterator.advance demoMemory k b = some p ∧
          p.base = e :: rest ∧ ThirdGraph.getEdgeDst p demoMemory = some e.dst) ∧
      (∃ p, ThirdGraph.edge_iterator.advance demoMemory
          (([{ dst := some 1, val := () }, { dst := some 2, val := () }] :
            List (Edge Unit)).filter demoMemory.edgeLive).length b = some p ∧
        ThirdGraph.edge_end (some 0) demoMemory = some p) ∧
      (∀ k p, ThirdGraph.edge_iterator.advance demoMemory k b = some p → p.base ≠ [] →
        ∃ e rest, p.base = e :: rest ∧
          e ∈ ([{ dst := some 1, val := () }, { dst := some 2, val := () }] :
            List (Edge Unit)) ∧
          demoMemory.edgeLive e = true ∧ ThirdGraph.getEdgeDst p demoMemory = some e.dst) ∧
      (∀ (ii : ThirdGraph.edge_iterator Unit) e rest, ii.base = e :: rest →
        (∃ x, demoMemory.node e.dst = some x) →
        (ThirdGraph.getEdgeDst ii demoMemory = none ↔ demoMemory.edgeLive e = false)) :=
  getEdgeDst_succeeds_on_traversal demoMemory (some 0)
    { nextNode := none, active := true, data := 10,
      edges := [{ dst := some 1, val := () }, { dst := some 2, val := () }] } rfl
    (by
      intro e he
      simp only [List.mem_cons, List.mem_singleton, List.not_mem_nil, or_false] at he
      rcases he with rfl | rfl
      · exact ⟨_, rfl⟩
      · exact ⟨_, rfl⟩)

/-- Claim C16: null-handle misuse fails fast. Each operation that takes a node handle,
called with the null handle, fails in every memory and returns neither a value nor a
memory: `getData`, `edge_begin`, `edge_end` and `containsNode` at their `assert(N)`,
`addEdge` at `assert(src)` or `assert(dst)` (on either argument, whatever the other
one), `addNode` and `removeNode` at the dereference of the null handle. -/
theorem null_handle_fails [Inhabited EdgeDataTy] (m : Memory NodeDataTy EdgeDataTy) :
    ThirdGraph.getData none m = none ∧
      ThirdGraph.edge_begin none m = none ∧
      ThirdGraph.edge_end none m = none ∧
      ThirdGraph.containsNode none m = none ∧
      (∀ dst, ThirdGraph.addEdge none dst m = none) ∧
      (∀ src, ThirdGraph.addEdge src none m = none) ∧
      ThirdGraph.addNode none m = none ∧
      ThirdGraph.removeNode none m = none := by
  refine ⟨rfl, rfl, rfl, rfl, ?_, ?_, rfl, rfl⟩
  · intro dst
    cases dst <;> rfl
  · intro src
    cases src <;> rfl

/-- Claim C17: no physical deletion. For every handle `N` that refers to a node,
`removeNode(N)` succeeds and changes nothing but the active flag and the edge collection
of `N`: all partition states (head, next, master) are as before, no node is added or
dropped, the `nextNode` and the data of `N` are kept, every node list is still the same
list (so `N` stays linked), and every other node is unchanged. -/
theorem removeNode_no_physical_deletion (m : Memory NodeDataTy EdgeDataTy) (N : NodeHandle)
    (nd : GraphNode NodeDataTy EdgeDataTy) (hnd : m.node N = some nd) :
    ∃ m1 nd1, ThirdGraph.removeNode N m = some m1 ∧ m1.states = m.states ∧
      m1.nodes.length = m.nodes.length ∧
      m1.node N = some nd1 ∧ nd1.nextNode = nd.nextNode ∧ nd1.data = nd.data ∧
      (∀ K, K ≠ N → m1.node K = m.node K) ∧
      (∀ h L, m.nodeList h L → m1.nodeList h L) := by
  cases N with
  | none => simp [Memory.node] at hnd
  | some a =>
    have hnd0 : m.nodes[a]? = some nd := by simpa [Memory.node] using hnd
    rcases ThirdGraph.removeNode_spec m a nd hnd0 with
      ⟨m1, nd1, hrem, hnd1, _, hnext, hdata, _, hsame, hstates, hkept, hother⟩
    refine ⟨m1, nd1, hrem, hstates, ?_, by simpa [Memory.node] using hnd1, hnext, hdata,
      ?_, fun h L hl => Memory.nodeList_of_nextKept hkept L h hl⟩
    · cases hact : nd.active with
      | false => rw [hsame hact]
      | true =>
        rw [ThirdGraph.removeNode_eq_active m a nd hnd0 hact] at hrem
        rw [← Option.some.inj hrem]
        simp
    · intro K hK
      cases K with
      | none => rfl
      | some k =>
        have hk : k ≠ a := fun h => hK (by rw [h])
        simpa [Memory.node] using hother k hk

/-- Witness of C17: removing the active node 2, the head of the list of worker 0, in
`demoMemory`. -/
theorem removeNode_no_physical_deletion_witness :
    ∃ m1 nd1, ThirdGraph.removeNode (some 2) demoMemory = some m1 ∧
      m1.states = demoMemory.states ∧ m1.nodes.length = demoMemory.nodes.length ∧
      m1.node (some 2) = some nd1 ∧ nd1.nextNode = some 1 ∧ nd1.data = 12 ∧
      (∀ K, K ≠ some 2 → m1.node K = demoMemory.node K) ∧
      (∀ h L, demoMemory.nodeList h L → m1.nodeList h L) :=
  removeNode_no_physical_deletion demoMemory (some 2)
    { nextNode := some 1, active := true, data := 12, edges := [] } rfl

/-- Claim C18: shared master. A container is built by the constructor in any memory and
then driven by any sequence of `createNode`, `addNode`, `removeNode`, `addEdge` and
`deserialize` calls. In the memory reached, every worker slot of the container holds the
same master handle: slot 0 of the container when no `deserialize` was called, else the
handle read by the last `deserialize`. Hence `begin()`, the global iteration and `size()`
give the same result whichever worker calls them. -/
theorem shared_master_invariant [Inhabited EdgeDataTy] (n : Nat) (g : ThirdGraph)
    (m0 m1 m : Memory NodeDataTy EdgeDataTy) (calls : List (ThirdGraph.Call NodeDataTy))
    (hnew : ThirdGraph.new n m0 = some (g, m1))
    (hrun : ThirdGraph.runCalls g calls m1 = some m) :
    (∀ w, w < n → ∃ st, m.state (g.getLocal w) = some st ∧
      st.master = ThirdGraph.masterAfter calls (some g.localState)) ∧
      (∀ w1 w2 fuel, w1 < n → w2 < n →
        g.begin w1 m fuel = g.begin w2 m fuel ∧
        g.globalNodes w1 m fuel = g.globalNodes w2 m fuel ∧
        g.size w1 m fuel = g.size w2 m fuel) := by
  rcases ThirdGraph.new_shared_master n g m0 m1 hnew with ⟨hgn, hlen, hinv⟩
  rcases ThirdGraph.runCalls_shared_master g calls m1 m _ hlen hinv hrun with ⟨_, hall⟩
  have hslot : ∀ w, w < n → ∃ st, m.state (g.getLocal w) = some st ∧
      st.master = ThirdGraph.masterAfter calls (some g.localState) := by
    intro w hw
    rcases hall w (by omega) with ⟨st, hst, hmaster⟩
    have hw1 : w < g.numThreads := by omega
    exact ⟨st, by simp [Memory.state, ThirdGraph.getLocal, hw1, hst], hmaster⟩
  refine ⟨hslot, ?_⟩
  intro w1 w2 fuel hw1 hw2
  rcases hslot w1 hw1 with ⟨st1, hst1, hm1⟩
  rcases hslot w2 hw2 with ⟨st2, hst2, hm2⟩
  exact ThirdGraph.begin_of_same_master g m w1 w2 fuel st1 st2 hst1 hst2 (by rw [hm1, hm2])

/-- Witness of C18: `destGraph`, built next to `demoGraph`, after `spliceCalls`. -/
theorem shared_master_invariant_witness :
    (∀ w, w < 2 → ∃ st, splicedMemory.state (destGraph.getLocal w) = some st ∧
      st.master = ThirdGraph.masterAfter spliceCalls (some destGraph.localState)) ∧
      (∀ w1 w2 fuel, w1 < 2 → w2 < 2 →
        destGraph.begin w1 splicedMemory fuel = destGraph.begin w2 splicedMemory fuel ∧
        destGraph.globalNodes w1 splicedMemory fuel =
          destGraph.globalNodes w2 splicedMemory fuel ∧
        destGraph.size w1 splicedMemory fuel = destGraph.size w2 splicedMemory fuel) :=
  shared_master_invariant 2 destGraph demoMemory spliceStart splicedMemory spliceCalls rfl rfl

/-- Counterexample to C19 as stated: in the freshly built `demoGraph` with two workers,
following `next` from the slot of worker 1 ends at once in null; the slot of worker 0 is
not reached. -/
theorem chain_from_last_slot_misses_first :
    ThirdGraph.new 2 (Memory.empty : Memory Nat Unit) = some (demoGraph, demoFresh) ∧
      demoFresh.chain (demoGraph.getLocal 1) [(1, [])] ∧
      ∀ c, demoFresh.chain (demoGraph.getLocal 1) c → 0 ∉ c.map (fun x => x.1) := by
  have hc : demoFresh.chain (demoGraph.getLocal 1) [(1, [])] :=
    ⟨rfl, _, rfl, rfl, rfl⟩
  refine ⟨rfl, hc, ?_⟩
  intro c hc1
  rw [Memory.chain_unique demoFresh c _ _ hc1 hc]
  decide

/-- Claim C19, amended: in a container reached from the constructor for `n` workers by
`createNode`, `addNode`, `removeNode` and `addEdge` calls (none at all included),
following `next` from the slot of worker `k` visits the slots of the workers `k`, `k+1`,
up to `n-1`, each once and in this order, and then reaches null: the chain is not
circular, it reaches every other partition from slot 0, and it never reaches the slot of
a worker before `k`. -/
theorem chain_from_slot [Inhabited EdgeDataTy] (n : Nat)
    (ops : List (ThirdGraph.Op NodeDataTy)) (g : ThirdGraph)
    (m : Memory NodeDataTy EdgeDataTy) (k : Nat)
    (hr : ThirdGraph.ReachedBy n ops g m) (hk : k < n) :
    ∃ c, m.chain (g.getLocal k) c ∧
      c.map (fun x => x.1) = (List.range' k (n - k)).map (fun i => g.localState + i) ∧
      (c.map (fun x => x.1)).Nodup ∧
      ∀ j, j < k → g.localState + j ∉ c.map (fun x => x.1) := by
  rcases ThirdGraph.shaped_reached n ops g m hr with ⟨hn, Ls, hs⟩
  have hchain := ThirdGraph.chain_of_shaped g m Ls hs (n - k) k (by omega)
  have hkn : k < g.numThreads := by omega
  rw [if_pos hkn] at hchain
  have hmap : ((List.range' k (n - k)).map (fun i => (i, Ls i))).map (fun x => x.1) =
      (List.range' k (n - k)).map (fun i => g.localState + i) := by
    rw [List.map_map]
    apply List.map_congr_left
    intro i _
    simp [hs.base]
  refine ⟨_, by simpa [ThirdGraph.getLocal, hkn, hs.base] using hchain, hmap, ?_, ?_⟩
  · rw [hmap]
    refine List.Nodup.map ?_ (List.nodup_range' k (n - k))
    intro x y hxy
    simp only [] at hxy
    omega
  · intro j hj hmem
    rw [hmap] at hmem
    rcases List.mem_map.mp hmem with ⟨i, hi, hij⟩
    have := (List.mem_range'_1.mp hi).1
    omega

/-- Witness of C19: the slot of worker 1 in the container reached by `demoOps`. -/
theorem chain_from_slot_witness :
    ∃ c, demoMemory.chain (demoGraph.getLocal 1) c ∧
      c.map (fun x => x.1) = (List.range' 1 (2 - 1)).map (fun i => demoGraph.localState + i) ∧
      (c.map (fun x => x.1)).Nodup ∧
      ∀ j, j < 1 → demoGraph.localState + j ∉ c.map (fun x => x.1) :=
  chain_from_slot 2 demoOps demoGraph demoMemory 1 ⟨demoFresh, rfl, rfl⟩ (by decide)

/-- Claim C20: states of the global iterator. On a well-formed chain `begin()` returns an
iterator and the whole traversal up to `end()` returns. Every iterator returned by
`begin()`, and every iterator returned by `++`, is either the terminal state, with null
node and null partition link, or stands on a node that is non-null and active. An
iterator compares equal to `end()` exactly when its node is null, and an iterator
returned by `begin()` or `++` whose node is null is `end()` itself, partition link
included. -/
theorem iterator_state_invariant (g : ThirdGraph) (tid : Nat)
    (m : Memory NodeDataTy EdgeDataTy) (lState : SubGraphState)
    (c : List (Nat × List Nat)) (fuel : Nat)
    (hl : m.state (g.getLocal tid) = some lState) (hc : m.chain lState.master c)
    (hne : c ≠ []) (hf : chainLinks c + 1 ≤ fuel) :
    (∃ it xs, g.begin tid m fuel = some it ∧ it.toList m fuel = some xs) ∧
      (∀ f it, g.begin tid m f = some it →
        it = ThirdGraph.end_ ∨ ∃ a, it.n = some a ∧ m.isActive a = true) ∧
      (∀ f (it it1 : ThirdGraph.iterator), ThirdGraph.iterator.next m f it = some it1 →
        it1 = ThirdGraph.end_ ∨ ∃ a, it1.n = some a ∧ m.isActive a = true) ∧
      (∀ it : ThirdGraph.iterator, it.eq ThirdGraph.end_ = true ↔ it.n = none) := by
  have hterm : ∀ it : ThirdGraph.iterator,
      ((it.n = none ∧ it.s = none) ∨ ∃ a, it.n = some a ∧ m.isActive a = true) →
      (it = ThirdGraph.end_ ∨ ∃ a, it.n = some a ∧ m.isActive a = true) := by
    intro it h
    rcases h with ⟨hn, hs⟩ | h
    · left
      cases it
      simp only [] at hn hs
      simp [ThirdGraph.end_, ThirdGraph.iterator.nil, hn, hs]
    · exact Or.inr h
  refine ⟨?_, ?_, ?_, ?_⟩
  · rcases ThirdGraph.iterator.new_spec m lState.master c fuel hc hne hf with
      ⟨it, hnew, hlist⟩
    exact ⟨it, _, by simp [ThirdGraph.begin, hl, hnew], hlist fuel hf⟩
  · intro f it hb
    apply hterm
    have hnew : ThirdGraph.iterator.new m f lState.master = some it := by
      simpa [ThirdGraph.begin, hl] using hb
    exact ThirdGraph.iterator.new_inv m f _ it hnew
  · intro f it it1 hnext
    exact hterm it1 (ThirdGraph.iterator.next_inv m f it it1 hnext)
  · intro it
    simp [ThirdGraph.iterator.eq, ThirdGraph.end_, ThirdGraph.iterator.nil]

/-- Witness of C20: worker 1 of `demoGraph` in `demoMemory`. -/
theorem iterator_state_invariant_witness :
    (∃ it xs, demoGraph.begin 1 demoMemory 7 = some it ∧ it.toList demoMemory 7 = some xs) ∧
      (∀ f it, demoGraph.begin 1 demoMemory f = some it →
        it = ThirdGraph.end_ ∨ ∃ a, it.n = some a ∧ demoMemory.isActive a = true) ∧
      (∀ f (it it1 : ThirdGraph.iterator),
        ThirdGraph.iterator.next demoMemory f it = some it1 →
        it1 = ThirdGraph.end_ ∨ ∃ a, it1.n = some a ∧ demoMemory.isActive a = true) ∧
      (∀ it : ThirdGraph.iterator, it.eq ThirdGraph.end_ = true ↔ it.n = none) :=
  iterator_state_invariant demoGraph 1 demoMemory
    { head := some 3, next := none, master := some 0 } [(0, [2, 1, 0]), (1, [3])] 7 rfl
    ⟨rfl, _, rfl, ⟨rfl, _, rfl, rfl, _, rfl, rfl, _, rfl, rfl⟩, rfl, _, rfl,
      ⟨rfl, _, rfl, rfl⟩, rfl⟩
    (by simp) (by decide)

/-! ## Reactivation -/

theorem Memory.edgeLive_eq (m : Memory NodeDataTy EdgeDataTy) (e : Edge EdgeDataTy) :
    m.edgeLive e = match e.dst with
      | none => false
      | some a => m.isActive a := by
  cases h : e.dst with
  | none => simp [Memory.edgeLive, Memory.node, h]
  | some a => simp [Memory.edgeLive, Memory.node, Memory.isActive, h]

theorem Memory.edgeLive_congr (m m1 : Memory NodeDataTy EdgeDataTy)
    (h : ∀ k, m1.isActive k = m.isActive k) : m1.edgeLive = m.edgeLive := by
  funext e
  rw [Memory.edgeLive_eq, Memory.edgeLive_eq]
  cases e.dst with
  | none => rfl
  | some a => exact h a

theorem Memory.dstValid_of_length (m m1 : Memory NodeDataTy EdgeDataTy)
    (es : List (Edge EdgeDataTy)) (hlen : m1.nodes.length = m.nodes.length)
    (hv : m.dstValid es) : m1.dstValid es := by
  intro e he
  rcases hv e he with ⟨nd, hnd⟩
  cases hd : e.dst with
  | none => simp [Memory.node, hd] at hnd
  | some a =>
    rw [hd] at hnd
    have hlt : a < m.nodes.length := lt_of_getElem?_some (by simpa [Memory.node] using hnd)
    rcases getElem?_some_of_lt m1.nodes a (by omega) with ⟨x, hx⟩
    exact ⟨x, by simpa [Memory.node] using hx⟩

/-- The memory after `removeNode(B)` and `addNode(B)` on an active node `B`: the node has
lost its edges and nothing else has changed. -/
theorem ThirdGraph.remove_then_add (m : Memory NodeDataTy EdgeDataTy) (b : Nat)
    (ndB : GraphNode NodeDataTy EdgeDataTy) (hB : m.nodes[b]? = some ndB)
    (hact : ndB.active = true) :
    ∃ m1, ThirdGraph.removeNode (some b) m = some m1 ∧
      ThirdGraph.addNode (some b) m1 =
        some { nodes := m.nodes.set b { ndB with edges := [] }, states := m.states } := by
  refine ⟨_, ThirdGraph.removeNode_eq_active m b ndB hB hact, ?_⟩
  have h1 : (m.nodes.set b { ndB with active := false, edges := [] })[b]? =
      some { ndB with active := false, edges := [] } := getElem?_set_self_of_some hB
  rw [ThirdGraph.addNode_eq _ b _ h1]
  simp only [List.set_set]
  rw [← hact]

/-! ## Wire format -/

/-- The element loop of the sequence writer appends the images of the elements. -/
theorem gSerializeSeq_eq (w : Wire NodeDataTy EdgeDataTy) :
    ∀ (es : List (Edge EdgeDataTy)) (s : Buffer),
      gSerializeSeq w es s =
        s ++ es.flatMap (fun e => w.handle.push e.dst ++ w.val.push e.val) := by
  intro es
  induction es with
  | nil => intro s; simp [gSerializeSeq]
  | cons e es ih =>
    intro s
    simp [gSerializeSeq, ih, Edge.serialize, List.append_assoc]

theorem Edge.edge_round_trip (w : Wire NodeDataTy EdgeDataTy)
    (hh : w.handle.RoundTrips) (hv : w.val.RoundTrips) (e : Edge EdgeDataTy)
    (rest : Buffer) :
    Edge.deserialize w (w.handle.push e.dst ++ w.val.push e.val ++ rest) = some (e, rest) := by
  simp only [Edge.deserialize, List.append_assoc, hh e.dst, hv e.val]

theorem gDeserializeSeq_serialize (w : Wire NodeDataTy EdgeDataTy)
    (hh : w.handle.RoundTrips) (hv : w.val.RoundTrips) :
    ∀ (es : List (Edge EdgeDataTy)) (rest : Buffer),
      gDeserializeSeq w es.length
        (es.flatMap (fun e => w.handle.push e.dst ++ w.val.push e.val) ++ rest) =
          some (es, rest) := by
  intro es
  induction es with
  | nil => intro rest; simp [gDeserializeSeq]
  | cons e es ih =>
    intro rest
    have h := Edge.edge_round_trip w hh hv e
      (es.flatMap (fun e => w.handle.push e.dst ++ w.val.push e.val) ++ rest)
    simp only [List.flatMap_cons, List.length_cons, gDeserializeSeq, List.append_assoc] at h ⊢
    rw [h]
    simp only []
    rw [ih rest]

/-- The written form of a node: `nextNode`, `active`, `data`, then the edges as their
number followed by `dst` and `val` of each. -/
theorem GraphNode.serialize_eq (w : Wire NodeDataTy EdgeDataTy)
    (nd : GraphNode NodeDataTy EdgeDataTy) (s : Buffer) :
    GraphNode.serialize w nd s =
      s ++ w.handle.push nd.nextNode ++ w.flag.push nd.active ++ w.data.push nd.data ++
        w.count.push nd.edges.length ++
        nd.edges.flatMap (fun e => w.handle.push e.dst ++ w.val.push e.val) := by
  simp [GraphNode.serialize, GraphNodeEdges.serialize, GraphNodeData.serialize,
    GraphNodeBase.serialize, gSerializeEdges, gSerializeSeq_eq, List.append_assoc]

theorem GraphNode.node_round_trip (w : Wire NodeDataTy EdgeDataTy)
    (hh : w.handle.RoundTrips) (hf : w.flag.RoundTrips) (hd : w.data.RoundTrips)
    (hv : w.val.RoundTrips) (hc : w.count.RoundTrips)
    (nd self : GraphNode NodeDataTy EdgeDataTy) (rest : Buffer) :
    GraphNode.deserialize w self (GraphNode.serialize w nd [] ++ rest) = some (nd, rest) := by
  rw [GraphNode.serialize_eq]
  simp only [List.nil_append, List.append_assoc]
  simp only [GraphNode.deserialize, GraphNodeBase.deserialize, GraphNodeData.deserialize,
    GraphNodeEdges.deserialize, gDeserializeEdges, hh nd.nextNode, hf nd.active, hd nd.data,
    hc nd.edges.length, gDeserializeSeq_serialize w hh hv nd.edges rest]

theorem SubGraphState.state_round_trip (h : Prim (Option Nat)) (hh : h.RoundTrips)
    (st : SubGraphState) (rest : Buffer) :
    SubGraphState.deserialize h (SubGraphState.serialize h st [] ++ rest) = some (st, rest) := by
  simp only [SubGraphState.deserialize, SubGraphState.serialize, List.nil_append,
    List.append_assoc, hh st.head, hh st.next, hh st.master]

/-- The order in which `Edge::deserialize` reads: `dst`, then `val`. -/
theorem Edge.edge_read_order (w : Wire NodeDataTy EdgeDataTy) (s : Buffer) :
    Edge.deserialize w s =
      (w.handle.pull s).bind (fun r1 =>
        (w.val.pull r1.2).map (fun r2 => ({ dst := r1.1, val := r2.1 }, r2.2))) := by
  unfold Edge.deserialize
  cases w.handle.pull s with
  | none => rfl
  | some r1 =>
    simp only [Option.some_bind]
    cases w.val.pull r1.2 with
    | none => rfl
    | some r2 => rfl

/-- The order in which `GraphNode::deserialize` reads: `nextNode`, `active`, `data`, the
number of edges, the edges. -/
theorem GraphNode.node_read_order (w : Wire NodeDataTy EdgeDataTy)
    (self : GraphNode NodeDataTy EdgeDataTy) (s : Buffer) :
    GraphNode.deserialize w self s =
      (w.handle.pull s).bind (fun r1 =>
        (w.flag.pull r1.2).bind (fun r2 =>
          (w.data.pull r2.2).bind (fun r3 =>
            (w.count.pull r3.2).bind (fun r4 =>
              (gDeserializeSeq w r4.1 r4.2).map (fun r5 =>
                ({ nextNode := r1.1, active := r2.1, data := r3.1, edges := r5.1 }, r5.2)))))) := by
  unfold GraphNode.deserialize GraphNodeBase.deserialize
  cases w.handle.pull s with
  | none => rfl
  | some r1 =>
    simp only [Option.some_bind]
    cases w.flag.pull r1.2 with
    | none => rfl
    | some r2 =>
      simp only [Option.some_bind]
      unfold GraphNodeData.deserialize
      cases w.data.pull r2.2 with
      | none => rfl
      | some r3 =>
        simp only [Option.some_bind]
        unfold GraphNodeEdges.deserialize gDeserializeEdges
        cases w.count.pull r3.2 with
        | none => rfl
        | some r4 =>
          simp only [Option.some_bind]
          cases gDeserializeSeq w r4.1 r4.2 with
          | none => rfl
          | some r5 => rfl

/-- The order in which `SubGraphState::deserialize` reads: `head`, `next`, `master`. -/
theorem SubGraphState.state_read_order (h : Prim (Option Nat)) (s : Buffer) :
    SubGraphState.deserialize h s =
      (h.pull s).bind (fun r1 =>
        (h.pull r1.2).bind (fun r2 =>
          (h.pull r2.2).map (fun r3 =>
            ({ head := r1.1, next := r2.1, master := r3.1 }, r3.2)))) := by
  unfold SubGraphState.deserialize
  cases h.pull s with
  | none => rfl
  | some r1 =>
    simp only [Option.some_bind]
    cases h.pull r1.2 with
    | none => rfl
    | some r2 =>
      simp only [Option.some_bind]
      cases h.pull r2.2 with
      | none => rfl
      | some r3 => rfl

/-! ## Creators and partition lists -/

theorem ThirdGraph.creators_append :
    ∀ (ops1 ops2 : List (ThirdGraph.Op NodeDataTy)),
      ThirdGraph.creators (ops1 ++ ops2) =
        ThirdGraph.creators ops1 ++ ThirdGraph.creators ops2 := by
  intro ops1 ops2
  induction ops1 with
  | nil => rfl
  | cons op ops ih =>
    cases op <;> simp [ThirdGraph.creators, ih]

theorem ThirdGraph.creators_snoc_other (ops : List (ThirdGraph.Op NodeDataTy))
    (op : ThirdGraph.Op NodeDataTy) (hop : ∀ tid d, op ≠ ThirdGraph.Op.createNode tid d) :
    ThirdGraph.creators (ops ++ [op]) = ThirdGraph.creators ops := by
  rw [ThirdGraph.creators_append]
  cases op with
  | createNode tid d => exact absurd rfl (hop tid d)
  | addNode N => simp [ThirdGraph.creators]
  | removeNode N => simp [ThirdGraph.creators]
  | addEdge src dst => simp [ThirdGraph.creators]

theorem ThirdGraph.createdBy_snoc_other (ops : List (ThirdGraph.Op NodeDataTy))
    (op : ThirdGraph.Op NodeDataTy) (hop : ∀ tid d, op ≠ ThirdGraph.Op.createNode tid d) :
    ThirdGraph.createdBy (ops ++ [op]) = ThirdGraph.createdBy ops := by
  funext w
  simp only [ThirdGraph.createdBy, ThirdGraph.creators_snoc_other ops op hop]

theorem ThirdGraph.createdBy_snoc_create (ops : List (ThirdGraph.Op NodeDataTy))
    (tid : Nat) (d : NodeDataTy) :
    ThirdGraph.createdBy (ops ++ [ThirdGraph.Op.createNode tid d]) =
      Function.update (ThirdGraph.createdBy ops) tid
        ((ThirdGraph.creators ops).length :: ThirdGraph.createdBy ops tid) := by
  funext w
  have hc : ThirdGraph.creators (ops ++ [ThirdGraph.Op.createNode tid d]) =
      ThirdGraph.creators ops ++ [tid] := by
    rw [ThirdGraph.creators_append]
    rfl
  have hfil : (List.range (ThirdGraph.creators ops).length).filter
        (fun k => decide ((ThirdGraph.creators ops ++ [tid])[k]? = some w)) =
      (List.range (ThirdGraph.creators ops).length).filter
        (fun k => decide ((ThirdGraph.creators ops)[k]? = some w)) := by
    apply List.filter_congr
    intro k hk
    rw [List.mem_range] at hk
    rw [List.getElem?_append_left hk]
  have hlast : (ThirdGraph.creators ops ++ [tid])[(ThirdGraph.creators ops).length]? =
      some tid := by
    simp
  by_cases h : w = tid
  · subst h
    simp only [ThirdGraph.createdBy, hc, List.length_append, List.length_singleton,
      List.range_succ, List.filter_append, List.reverse_append, hfil, Function.update_same]
    simp [List.filter_cons, hlast]
  · have htw : ¬ tid = w := fun e => h e.symm
    simp only [ThirdGraph.createdBy, hc, List.length_append, List.length_singleton,
      List.range_succ, List.filter_append, List.reverse_append, hfil,
      Function.update_noteq h]
    simp [List.filter_cons, hlast, htw]

theorem ThirdGraph.createdBy_nil :
    ThirdGraph.createdBy ([] : List (ThirdGraph.Op NodeDataTy)) = fun _ => [] := by
  funext w
  simp [ThirdGraph.createdBy, ThirdGraph.creators]

theorem ThirdGraph.reachedBy_snoc [Inhabited EdgeDataTy] (n : Nat)
    (ops : List (ThirdGraph.Op NodeDataTy)) (op : ThirdGraph.Op NodeDataTy) (g : ThirdGraph)
    (m : Memory NodeDataTy EdgeDataTy) (h : ThirdGraph.ReachedBy n (ops ++ [op]) g m) :
    ∃ m1, ThirdGraph.ReachedBy n ops g m1 ∧ ThirdGraph.step g m1 op = some m := by
  rcases h with ⟨m0, hnew, hrun⟩
  rw [ThirdGraph.run_append] at hrun
  cases hr : ThirdGraph.run g ops m0 with
  | none => simp [hr] at hrun
  | some m1 =>
    rw [hr] at hrun
    refine ⟨m1, ⟨m0, hnew, hr⟩, ?_⟩
    cases hs : ThirdGraph.step g m1 op with
    | none => simp [ThirdGraph.run, hs] at hrun
    | some m2 =>
      simp only [ThirdGraph.run, hs] at hrun
      exact hrun

/-- In a container built in an empty memory and driven by `ops`, the node list of every
worker is the list of the nodes it created, the latest first. -/
theorem ThirdGraph.reached_createdBy [Inhabited EdgeDataTy] (n : Nat) (g : ThirdGraph) :
    ∀ (ops : List (ThirdGraph.Op NodeDataTy)) (m : Memory NodeDataTy EdgeDataTy),
      ThirdGraph.ReachedBy n ops g m →
      m.nodes.length = (ThirdGraph.creators ops).length ∧
        g.Shaped m (ThirdGraph.createdBy ops) ∧
        ∀ w ∈ ThirdGraph.creators ops, w < n := by
  intro ops
  induction ops using List.reverseRecOn with
  | nil =>
    intro m h
    rcases h with ⟨m0, hnew, hrun⟩
    have hm : m0 = m := by simpa [ThirdGraph.run] using hrun
    subst hm
    rcases ThirdGraph.shaped_new n g m0 hnew with ⟨_, hnodes, hs⟩
    refine ⟨by simp [hnodes, ThirdGraph.creators], ?_, by simp [ThirdGraph.creators]⟩
    rw [ThirdGraph.createdBy_nil]
    exact hs
  | append_singleton ops op ih =>
    intro m h
    have hn : g.numThreads = n := (ThirdGraph.shaped_reached n _ g m h).1
    rcases ThirdGraph.reachedBy_snoc n ops op g m h with ⟨m1, hr1, hstep⟩
    rcases ih m1 hr1 with ⟨hlen, hs, hlt⟩
    by_cases hop : ∃ tid d, op = ThirdGraph.Op.createNode tid d
    · rcases hop with ⟨tid, d, rfl⟩
      cases hc : g.createNode tid d m1 with
      | none => simp [ThirdGraph.step, hc] at hstep
      | some r =>
        rcases r with ⟨N, m2⟩
        have hm : m2 = m := by simpa [ThirdGraph.step, hc] using hstep
        subst hm
        rcases ThirdGraph.shaped_createNode g m1 m2 _ tid d N hs hc with
          ⟨_, hlen2, _, _, hs2⟩
        rcases ThirdGraph.createNode_some g tid d m1 m2 N hc with ⟨_, htid, _⟩
        have hcr : ThirdGraph.creators (ops ++ [ThirdGraph.Op.createNode tid d]) =
            ThirdGraph.creators ops ++ [tid] := by
          rw [ThirdGraph.creators_append]
          rfl
        refine ⟨by rw [hlen2, hlen, hcr]; simp, ?_, ?_⟩
        · rw [ThirdGraph.createdBy_snoc_create, ← hlen]
          exact hs2
        · intro w hw
          rw [hcr, List.mem_append, List.mem_singleton] at hw
          rcases hw with hw | rfl
          · exact hlt w hw
          · omega
    · have hop1 : ∀ tid d, op ≠ ThirdGraph.Op.createNode tid d :=
        fun tid d he => hop ⟨tid, d, he⟩
      rw [ThirdGraph.createdBy_snoc_other ops op hop1,
        ThirdGraph.creators_snoc_other ops op hop1]
      rcases ThirdGraph.step_node_op g m1 m op hop1 hstep with
        rfl | ⟨a, nd, nd1, hnd, hnext, _, rfl⟩
      · exact ⟨hlen, hs, hlt⟩
      · exact ⟨by simpa using hlen, ThirdGraph.shaped_of_nextKept g m1 _ _ hs rfl (by simp)
          (Memory.nextKept_set m1 a nd nd1 hnd hnext), hlt⟩

theorem ThirdGraph.createdBy_nodup (ops : List (ThirdGraph.Op NodeDataTy)) (w : Nat) :
    (ThirdGraph.createdBy ops w).Nodup := by
  unfold ThirdGraph.createdBy
  rw [List.nodup_reverse]
  exact (List.nodup_range _).filter _

theorem ThirdGraph.mem_createdBy (ops : List (ThirdGraph.Op NodeDataTy)) (w k : Nat) :
    k ∈ ThirdGraph.createdBy ops w ↔ (ThirdGraph.creators ops)[k]? = some w := by
  unfold ThirdGraph.createdBy
  rw [List.mem_reverse, List.mem_filter, List.mem_range]
  constructor
  · intro h
    simpa using h.2
  · intro h
    exact ⟨lt_of_getElem?_some h, by simpa using h⟩

theorem ThirdGraph.createdBy_suffix (ops : List (ThirdGraph.Op NodeDataTy)) (w : Nat) :
    ∀ (more : List (ThirdGraph.Op NodeDataTy)),
      ThirdGraph.createdBy ops w <:+ ThirdGraph.createdBy (ops ++ more) w := by
  intro more
  induction more using List.reverseRecOn with
  | nil => simp
  | append_singleton more op ih =>
    rw [← List.append_assoc]
    by_cases hop : ∃ tid d, op = ThirdGraph.Op.createNode tid d
    · rcases hop with ⟨tid, d, rfl⟩
      rw [ThirdGraph.createdBy_snoc_create]
      by_cases h : w = tid
      · subst h
        rw [Function.update_same]
        exact ih.trans (List.suffix_cons _ _)
      · rw [Function.update_noteq h]
        exact ih
    · have hop1 : ∀ tid d, op ≠ ThirdGraph.Op.createNode tid d :=
        fun tid d he => hop ⟨tid, d, he⟩
      rw [ThirdGraph.createdBy_snoc_other _ op hop1]
      exact ih

/-! ## Link steps: the counted loops return what the loops return -/

theorem ThirdGraph.iterator.hopCount_fst (m : Memory NodeDataTy EdgeDataTy) :
    ∀ (fuel : Nat) (it : ThirdGraph.iterator),
      (ThirdGraph.iterator.hopCount m fuel it).map Prod.fst = ThirdGraph.iterator.hop m fuel it := by
  intro fuel
  induction fuel with
  | zero => intro it; rfl
  | succ k ih =>
    intro it
    cases hn : it.n with
    | some a => simp [ThirdGraph.iterator.hopCount, ThirdGraph.iterator.hop, hn]
    | none =>
      cases hs : m.state it.s with
      | none => simp [ThirdGraph.iterator.hopCount, ThirdGraph.iterator.hop, hn, hs]
      | some st =>
        cases hnx : st.next with
        | none => simp [ThirdGraph.iterator.hopCount, ThirdGraph.iterator.hop, hn, hs, hnx]
        | some p =>
          cases hs1 : m.state (some p) with
          | none =>
            simp [ThirdGraph.iterator.hopCount, ThirdGraph.iterator.hop, hn, hs, hnx, hs1]
          | some st1 =>
            have h := ih { n := st1.head, s := some p }
            cases hr : ThirdGraph.iterator.hopCount m k { n := st1.head, s := some p } with
            | none =>
              rw [hr] at h
              simp [ThirdGraph.iterator.hopCount, ThirdGraph.iterator.hop, hn, hs, hnx, hs1,
                hr, ← h]
            | some r =>
              rw [hr] at h
              simp [ThirdGraph.iterator.hopCount, ThirdGraph.iterator.hop, hn, hs, hnx, hs1,
                hr, ← h]

theorem ThirdGraph.iterator.nextLoopCount_fst (m : Memory NodeDataTy EdgeDataTy) :
    ∀ (fuel : Nat) (it : ThirdGraph.iterator),
      (ThirdGraph.iterator.nextLoopCount m fuel it).map Prod.fst =
        ThirdGraph.iterator.nextLoop m fuel it := by
  intro fuel
  induction fuel with
  | zero => intro it; rfl
  | succ k ih =>
    intro it
    cases hnd : m.node it.n with
    | none => simp [ThirdGraph.iterator.nextLoopCount, ThirdGraph.iterator.nextLoop, hnd]
    | some nd =>
      have hh := ThirdGraph.iterator.hopCount_fst m (k + 1) { n := nd.nextNode, s := it.s }
      cases hr : ThirdGraph.iterator.hopCount m (k + 1) { n := nd.nextNode, s := it.s } with
      | none =>
        rw [hr] at hh
        simp [ThirdGraph.iterator.nextLoopCount, ThirdGraph.iterator.nextLoop, hnd, hr, ← hh]
      | some r =>
        rw [hr] at hh
        simp only [Option.map_some'] at hh
        cases hn1 : r.1.n with
        | none =>
          simp [ThirdGraph.iterator.nextLoopCount, ThirdGraph.iterator.nextLoop, hnd, hr, ← hh,
            hn1]
        | some a =>
          cases hnd1 : m.nodes[a]? with
          | none =>
            simp [ThirdGraph.iterator.nextLoopCount, ThirdGraph.iterator.nextLoop, hnd, hr,
              ← hh, hn1, hnd1]
          | some nd1 =>
            cases hact : nd1.active with
            | true =>
              simp [ThirdGraph.iterator.nextLoopCount, ThirdGraph.iterator.nextLoop, hnd, hr,
                ← hh, hn1, hnd1, hact]
            | false =>
              have h2 := ih r.1
              cases hr2 : ThirdGraph.iterator.nextLoopCount m k r.1 with
              | none =>
                rw [hr2] at h2
                simp [ThirdGraph.iterator.nextLoopCount, ThirdGraph.iterator.nextLoop, hnd, hr,
                  ← hh, hn1, hnd1, hact, hr2, ← h2]
              | some r2 =>
                rw [hr2] at h2
                simp [ThirdGraph.iterator.nextLoopCount, ThirdGraph.iterator.nextLoop, hnd, hr,
                  ← hh, hn1, hnd1, hact, hr2, ← h2]

theorem ThirdGraph.iterator.nextCount_fst (m : Memory NodeDataTy EdgeDataTy) (fuel : Nat)
    (it : ThirdGraph.iterator) :
    (ThirdGraph.iterator.nextCount m fuel it).map Prod.fst =
      ThirdGraph.iterator.next m fuel it := by
  have h := ThirdGraph.iterator.nextLoopCount_fst m fuel it
  cases hr : ThirdGraph.iterator.nextLoopCount m fuel it with
  | none =>
    rw [hr] at h
    simp [ThirdGraph.iterator.nextCount, ThirdGraph.iterator.next, hr, ← h]
  | some r =>
    rw [hr] at h
    simp [ThirdGraph.iterator.nextCount, ThirdGraph.iterator.next, hr, ← h]

theorem ThirdGraph.iterator.newCount_fst (m : Memory NodeDataTy EdgeDataTy) (fuel : Nat)
    (ms : StatePtr) :
    (ThirdGraph.iterator.newCount m fuel ms).map Prod.fst =
      ThirdGraph.iterator.new m fuel ms := by
  cases hs : m.state ms with
  | none => simp [ThirdGraph.iterator.newCount, ThirdGraph.iterator.new, hs]
  | some st =>
    have hh := ThirdGraph.iterator.hopCount_fst m fuel { n := st.head, s := ms }
    cases hr : ThirdGraph.iterator.hopCount m fuel { n := st.head, s := ms } with
    | none =>
      rw [hr] at hh
      simp [ThirdGraph.iterator.newCount, ThirdGraph.iterator.new, hs, hr, ← hh]
    | some r =>
      rw [hr] at hh
      simp only [Option.map_some'] at hh
      cases hn1 : r.1.n with
      | none => simp [ThirdGraph.iterator.newCount, ThirdGraph.iterator.new, hs, hr, ← hh, hn1]
      | some a =>
        cases hnd : m.nodes[a]? with
        | none =>
          simp [ThirdGraph.iterator.newCount, ThirdGraph.iterator.new, hs, hr, ← hh, hn1, hnd]
        | some nd =>
          cases hact : nd.active with
          | true =>
            simp [ThirdGraph.iterator.newCount, ThirdGraph.iterator.new, hs, hr, ← hh, hn1,
              hnd, hact]
          | false =>
            have h2 := ThirdGraph.iterator.nextCount_fst m fuel r.1
            cases hr2 : ThirdGraph.iterator.nextCount m fuel r.1 with
            | none =>
              rw [hr2] at h2
              simp [ThirdGraph.iterator.newCount, ThirdGraph.iterator.new, hs, hr, ← hh, hn1,
                hnd, hact, hr2, ← h2]
            | some r2 =>
              rw [hr2] at h2
              simp [ThirdGraph.iterator.newCount, ThirdGraph.iterator.new, hs, hr, ← hh, hn1,
                hnd, hact, hr2, ← h2]

theorem ThirdGraph.iterator.distanceCount_fst (m : Memory NodeDataTy EdgeDataTy) :
    ∀ (fuel : Nat) (first last : ThirdGraph.iterator),
      (ThirdGraph.iterator.distanceCount m fuel first last).map Prod.fst =
        ThirdGraph.iterator.distance m fuel first last := by
  intro fuel
  induction fuel with
  | zero => intro first last; rfl
  | succ k ih =>
    intro first last
    by_cases he : first.n = last.n
    · simp [ThirdGraph.iterator.distanceCount, ThirdGraph.iterator.distance, he]
    · have h1 := ThirdGraph.iterator.nextCount_fst m (k + 1) first
      cases hr : ThirdGraph.iterator.nextCount m (k + 1) first with
      | none =>
        rw [hr] at h1
        simp [ThirdGraph.iterator.distanceCount, ThirdGraph.iterator.distance, he, hr, ← h1]
      | some r =>
        rw [hr] at h1
        simp only [Option.map_some'] at h1
        have h2 := ih r.1 last
        cases hd : ThirdGraph.iterator.distanceCount m k r.1 last with
        | none =>
          rw [hd] at h2
          simp [ThirdGraph.iterator.distanceCount, ThirdGraph.iterator.distance, he, hr, ← h1,
            hd, ← h2]
        | some d =>
          rw [hd] at h2
          simp [ThirdGraph.iterator.distanceCount, ThirdGraph.iterator.distance, he, hr, ← h1,
            hd, ← h2]

theorem ThirdGraph.beginCount_fst (g : ThirdGraph) (tid : Nat)
    (m : Memory NodeDataTy EdgeDataTy) (fuel : Nat) :
    (g.beginCount tid m fuel).map Prod.fst = g.begin tid m fuel := by
  cases hs : m.state (g.getLocal tid) with
  | none => simp [ThirdGraph.beginCount, ThirdGraph.begin, hs]
  | some st =>
    simp [ThirdGraph.beginCount, ThirdGraph.begin, hs, ThirdGraph.iterator.newCount_fst]

theorem ThirdGraph.sizeCount_fst (g : ThirdGraph) (tid : Nat)
    (m : Memory NodeDataTy EdgeDataTy) (fuel : Nat) :
    (g.sizeCount tid m fuel).map Prod.fst = g.size tid m fuel := by
  have h1 := ThirdGraph.beginCount_fst g tid m fuel
  cases hb : g.beginCount tid m fuel with
  | none =>
    rw [hb] at h1
    simp [ThirdGraph.sizeCount, ThirdGraph.size, hb, ← h1]
  | some b =>
    rw [hb] at h1
    simp only [Option.map_some'] at h1
    have h2 := ThirdGraph.iterator.distanceCount_fst m fuel b.1 ThirdGraph.end_
    cases hd : ThirdGraph.iterator.distanceCount m fuel b.1 ThirdGraph.end_ with
    | none =>
      rw [hd] at h2
      simp [ThirdGraph.sizeCount, ThirdGraph.size, hb, ← h1, hd, ← h2]
    | some d =>
      rw [hd] at h2
      simp [ThirdGraph.sizeCount, ThirdGraph.size, hb, ← h1, hd, ← h2]

theorem ThirdGraph.local_iterator.skipCount_fst (m : Memory NodeDataTy EdgeDataTy) :
    ∀ (fuel : Nat) (h : NodeHandle),
      (ThirdGraph.local_iterator.skipCount m fuel h).map Prod.fst =
        ThirdGraph.local_iterator.skip m fuel h := by
  intro fuel
  induction fuel with
  | zero => intro h; rfl
  | succ k ih =>
    intro h
    cases h with
    | none => rfl
    | some a =>
      cases hnd : m.nodes[a]? with
      | none =>
        simp [ThirdGraph.local_iterator.skipCount, ThirdGraph.local_iterator.skip, hnd]
      | some nd =>
        cases hact : nd.active with
        | true =>
          simp [ThirdGraph.local_iterator.skipCount, ThirdGraph.local_iterator.skip, hnd, hact]
        | false =>
          have h2 := ih nd.nextNode
          cases hr : ThirdGraph.local_iterator.skipCount m k nd.nextNode with
          | none =>
            rw [hr] at h2
            simp [ThirdGraph.local_iterator.skipCount, ThirdGraph.local_iterator.skip, hnd,
              hact, hr, ← h2]
          | some r =>
            rw [hr] at h2
            simp [ThirdGraph.local_iterator.skipCount, ThirdGraph.local_iterator.skip, hnd,
              hact, hr, ← h2]

theorem ThirdGraph.local_iterator.local_nextCount_fst (m : Memory NodeDataTy EdgeDataTy)
    (fuel : Nat) (it : ThirdGraph.local_iterator) :
    (ThirdGraph.local_iterator.nextCount m fuel it).map Prod.fst =
      ThirdGraph.local_iterator.next m fuel it := by
  cases hnd : m.node it.n with
  | none => simp [ThirdGraph.local_iterator.nextCount, ThirdGraph.local_iterator.next, hnd]
  | some nd =>
    have h2 := ThirdGraph.local_iterator.skipCount_fst m fuel nd.nextNode
    cases hr : ThirdGraph.local_iterator.skipCount m fuel nd.nextNode with
    | none =>
      rw [hr] at h2
      simp [ThirdGraph.local_iterator.nextCount, ThirdGraph.local_iterator.next, hnd, hr, ← h2]
    | some r =>
      rw [hr] at h2
      simp [ThirdGraph.local_iterator.nextCount, ThirdGraph.local_iterator.next, hnd, hr, ← h2]

/-! ## Link steps on a well-formed chain -/

/-- The hop loop makes at most as many link steps as it gets closer to the end of the
chain. -/
theorem ThirdGraph.iterator.hopCount_spec (m : Memory NodeDataTy EdgeDataTy) :
    ∀ (c : List (Nat × List Nat)) (fuel : Nat) (it : ThirdGraph.iterator) (cur : List Nat),
      m.Stands it cur c → c.length < fuel →
      ∃ it1 cur1 c1 k, ThirdGraph.iterator.hopCount m fuel it = some (it1, k) ∧
        m.Stands it1 cur1 c1 ∧
        k + (cur1.length + chainLinks c1) ≤ cur.length + chainLinks c ∧
        (cur1 = [] → c1 = []) := by
  intro c
  induction c with
  | nil =>
    intro fuel it cur hs hf
    obtain ⟨k, rfl⟩ : ∃ k, fuel = k + 1 := ⟨fuel - 1, by omega⟩
    rcases hs with ⟨hl, p, st, hp, hst, hc⟩
    refine ⟨it, cur, [], 0, ?_, ⟨hl, p, st, hp, hst, hc⟩, by omega, fun _ => rfl⟩
    cases hn : it.n with
    | some a => simp [ThirdGraph.iterator.hopCount, hn]
    | none =>
      have hnx : st.next = none := by simpa [Memory.chain] using hc
      simp [ThirdGraph.iterator.hopCount, hn, hp, Memory.state, hst, hnx]
  | cons x c ih =>
    intro fuel it cur hs hf
    obtain ⟨k, rfl⟩ : ∃ k, fuel = k + 1 := ⟨fuel - 1, by omega⟩
    rcases x with ⟨a, L⟩
    rcases hs with ⟨hl, p, st, hp, hst, hc⟩
    cases hn : it.n with
    | some b =>
      refine ⟨it, cur, (a, L) :: c, 0, by simp [ThirdGraph.iterator.hopCount, hn],
        ⟨hl, p, st, hp, hst, hc⟩, by omega, ?_⟩
      intro hcur
      rw [hn, hcur] at hl
      exact absurd hl (by simp [Memory.nodeList])
    | none =>
      rw [hn] at hl
      have hcur : cur = [] := Memory.nodeList_none hl
      subst hcur
      rcases hc with ⟨hnx, st1, hst1, hL, hc1⟩
      have hs1 : m.Stands { n := st1.head, s := some a } L c :=
        ⟨hL, a, st1, rfl, hst1, hc1⟩
      rcases ih k { n := st1.head, s := some a } L hs1 (by simpa using hf) with
        ⟨it1, cur1, c1, k1, hhop, hst2, hlinks, hemp⟩
      refine ⟨it1, cur1, c1, k1 + 1, ?_, hst2, ?_, hemp⟩
      · simp [ThirdGraph.iterator.hopCount, hn, hp, Memory.state, hst, hnx, hst1, hhop]
      · simp only [chainLinks_cons, List.length_nil]
        omega

/-- The do-while loop of `next` makes at least one link step and at most as many as it
gets closer to the end of the chain. -/
theorem ThirdGraph.iterator.nextLoopCount_spec (m : Memory NodeDataTy EdgeDataTy) :
    ∀ (fuel : Nat) (it : ThirdGraph.iterator) (a : Nat) (cur : List Nat)
      (c : List (Nat × List Nat)),
      m.Stands it (a :: cur) c → cur.length + chainLinks c < fuel →
      ∃ it1 k, ThirdGraph.iterator.nextLoopCount m fuel it = some (it1, k) ∧ 1 ≤ k ∧
        ((it1.n = none ∧ k ≤ cur.length + 1 + chainLinks c) ∨
         ∃ b cur1 c1, m.Stands it1 (b :: cur1) c1 ∧
           k + (cur1.length + 1 + chainLinks c1) ≤ cur.length + 1 + chainLinks c) := by
  intro fuel
  induction fuel with
  | zero => intro it a cur c _ hf; omega
  | succ k ih =>
    intro it a cur c hs hf
    rcases hs with ⟨hl, p, st, hp, hst, hc⟩
    rcases hl with ⟨hn, nd, hnd, hrest⟩
    have hs0 : m.Stands { n := nd.nextNode, s := it.s } cur c := ⟨hrest, p, st, hp, hst, hc⟩
    have hlen := chainLinks_length_le c
    rcases ThirdGraph.iterator.hopCount_spec m c (k + 1) _ cur hs0 (by omega) with
      ⟨it1, cur1, c1, k1, hhop, hs1, hlinks, hemp⟩
    cases hn1 : it1.n with
    | none =>
      exact ⟨it1, k1 + 1, by
        simp [ThirdGraph.iterator.nextLoopCount, hn, Memory.node, hnd, hhop, hn1],
        by omega, Or.inl ⟨hn1, by omega⟩⟩
    | some b =>
      have h1 := hs1.1
      rw [hn1] at h1
      rcases Memory.nodeList_some h1 with ⟨nd1, cur2, hcur1, hnd1, hrest1⟩
      subst hcur1
      simp only [List.length_cons] at hlinks
      cases hb : nd1.active with
      | true =>
        exact ⟨it1, k1 + 1, by
          simp [ThirdGraph.iterator.nextLoopCount, hn, Memory.node, hnd, hhop, hn1, hnd1, hb],
          by omega, Or.inr ⟨b, cur2, c1, hs1, by omega⟩⟩
      | false =>
        rcases ih it1 b cur2 c1 hs1 (by omega) with ⟨it2, k2, hloop, hk2, hres⟩
        refine ⟨it2, k1 + 1 + k2, by
          simp [ThirdGraph.iterator.nextLoopCount, hn, Memory.node, hnd, hhop, hn1, hnd1, hb,
            hloop], by omega, ?_⟩
        rcases hres with ⟨hnone, hle⟩ | ⟨b2, cur3, c3, hs3, hle⟩
        · exact Or.inl ⟨hnone, by omega⟩
        · exact Or.inr ⟨b2, cur3, c3, hs3, by omega⟩

theorem Memory.within_clearAtEnd (m : Memory NodeDataTy EdgeDataTy)
    (it : ThirdGraph.iterator) (r : Nat) (h : m.Within it r) :
    m.Within (ThirdGraph.iterator.clearAtEnd it) r := by
  cases hn : it.n with
  | none => exact Or.inl (by rw [ThirdGraph.iterator.clearAtEnd_n]; exact hn)
  | some a =>
    rw [ThirdGraph.iterator.clearAtEnd_of_some it a hn]
    exact h

/-- One increment of a global iterator on a node: it returns, after at least one link
step and at most as many as it gets closer to the end of the chain. -/
theorem ThirdGraph.iterator.nextCount_spec (m : Memory NodeDataTy EdgeDataTy) (fuel : Nat)
    (it : ThirdGraph.iterator) (a : Nat) (cur : List Nat) (c : List (Nat × List Nat))
    (hs : m.Stands it (a :: cur) c) (hf : cur.length + chainLinks c < fuel) :
    ∃ it1 k r1, ThirdGraph.iterator.nextCount m fuel it = some (it1, k) ∧
      ThirdGraph.iterator.next m fuel it = some it1 ∧ 1 ≤ k ∧
      m.Within it1 r1 ∧ k + r1 ≤ cur.length + 1 + chainLinks c := by
  rcases ThirdGraph.iterator.nextLoopCount_spec m fuel it a cur c hs hf with
    ⟨it1, k, hloop, hk, hres⟩
  have hcount : ThirdGraph.iterator.nextCount m fuel it =
      some (ThirdGraph.iterator.clearAtEnd it1, k) := by
    simp [ThirdGraph.iterator.nextCount, hloop]
  have hnext : ThirdGraph.iterator.next m fuel it =
      some (ThirdGraph.iterator.clearAtEnd it1) := by
    rw [← ThirdGraph.iterator.nextCount_fst, hcount]
    rfl
  rcases hres with ⟨hnone, hle⟩ | ⟨b, cur1, c1, hs1, hle⟩
  · exact ⟨_, k, 0, hcount, hnext, hk,
      Memory.within_clearAtEnd m it1 0 (Or.inl hnone), by omega⟩
  · exact ⟨_, k, cur1.length + 1 + chainLinks c1, hcount, hnext, hk,
      Memory.within_clearAtEnd m it1 _ (Or.inr ⟨b, cur1, c1, hs1, le_refl _⟩), hle⟩

/-- The constructor `iterator(ms)` on a well-formed chain returns, and its link steps
plus those still ahead are fewer than the nodes and partitions of the chain. -/
theorem ThirdGraph.iterator.newCount_spec (m : Memory NodeDataTy EdgeDataTy) (ms : StatePtr)
    (c : List (Nat × List Nat)) (fuel : Nat) (hc : m.chain ms c) (hne : c ≠ [])
    (hf : chainLinks c + 1 ≤ fuel) :
    ∃ it k r, ThirdGraph.iterator.newCount m fuel ms = some (it, k) ∧
      ThirdGraph.iterator.new m fuel ms = some it ∧
      m.Within it r ∧ k + r + 1 ≤ chainLinks c := by
  have key : ∃ it k r, ThirdGraph.iterator.newCount m fuel ms = some (it, k) ∧
      m.Within it r ∧ k + r + 1 ≤ chainLinks c := by
    cases c with
    | nil => exact absurd rfl hne
    | cons x c =>
      rcases x with ⟨p, L⟩
      rcases hc with ⟨hms, st, hst, hL, hc1⟩
      subst hms
      have hs0 : m.Stands { n := st.head, s := some p } L c := ⟨hL, p, st, rfl, hst, hc1⟩
      have hlen := chainLinks_length_le c
      simp only [chainLinks_cons] at hf ⊢
      rcases ThirdGraph.iterator.hopCount_spec m c fuel _ L hs0 (by omega) with
        ⟨it1, cur1, c1, k1, hhop, hs1, hlinks, hemp⟩
      cases hn1 : it1.n with
      | none =>
        exact ⟨ThirdGraph.iterator.clearAtEnd it1, k1, 0, by
          simp [ThirdGraph.iterator.newCount, Memory.state, hst, hhop, hn1],
          Memory.within_clearAtEnd m it1 0 (Or.inl hn1), by omega⟩
      | some b =>
        have h1 := hs1.1
        rw [hn1] at h1
        rcases Memory.nodeList_some h1 with ⟨nd1, cur2, hcur1, hnd1, hrest1⟩
        subst hcur1
        simp only [List.length_cons] at hlinks
        cases hb : nd1.active with
        | true =>
          exact ⟨ThirdGraph.iterator.clearAtEnd it1, k1, cur2.length + 1 + chainLinks c1, by
            simp [ThirdGraph.iterator.newCount, Memory.state, hst, hhop, hn1, hnd1, hb],
            Memory.within_clearAtEnd m it1 _ (Or.inr ⟨b, cur2, c1, hs1, le_refl _⟩),
            by omega⟩
        | false =>
          rcases ThirdGraph.iterator.nextCount_spec m fuel it1 b cur2 c1 hs1 (by omega) with
            ⟨it2, k2, r2, hcount, _, _, hw2, hle2⟩
          exact ⟨ThirdGraph.iterator.clearAtEnd it2, k1 + k2, r2, by
            simp [ThirdGraph.iterator.newCount, Memory.state, hst, hhop, hn1, hnd1, hb,
              hcount],
            Memory.within_clearAtEnd m it2 r2 hw2, by omega⟩
  rcases key with ⟨it, k, r, hcount, hw, hle⟩
  refine ⟨it, k, r, hcount, ?_, hw, hle⟩
  rw [← ThirdGraph.iterator.newCount_fst, hcount]
  rfl

/-- The increments of `std::distance` up to `end()` return, after at most as many link
steps as the iterator is from the end of the chain. -/
theorem ThirdGraph.iterator.distanceCount_spec (m : Memory NodeDataTy EdgeDataTy) :
    ∀ (fuel : Nat) (it : ThirdGraph.iterator) (r : Nat), m.Within it r → r + 1 ≤ fuel →
      ∃ d k, ThirdGraph.iterator.distanceCount m fuel it ThirdGraph.end_ = some (d, k) ∧
        k ≤ r := by
  intro fuel
  induction fuel with
  | zero => intro it r _ hf; omega
  | succ f ih =>
    intro it r hw hf
    rcases hw with hnone | ⟨a, cur, c, hs, hle⟩
    · exact ⟨0, 0, by
        simp [ThirdGraph.iterator.distanceCount, hnone, ThirdGraph.end_,
          ThirdGraph.iterator.nil], by omega⟩
    · have hn : it.n = some a := hs.1.1
      rcases ThirdGraph.iterator.nextCount_spec m (f + 1) it a cur c hs (by omega) with
        ⟨it1, k1, r1, hcount, _, hk1, hw1, hle1⟩
      rcases ih it1 r1 hw1 (by omega) with ⟨d, k2, hd, hk2⟩
      simp only [ThirdGraph.end_, ThirdGraph.iterator.nil] at hd
      exact ⟨d + 1, k1 + k2, by
        simp [ThirdGraph.iterator.distanceCount, hn, ThirdGraph.end_, ThirdGraph.iterator.nil,
          hcount, hd], by omega⟩

/-- Increments keep a global iterator inside the chain. -/
theorem ThirdGraph.iterator.advance_within (m : Memory NodeDataTy EdgeDataTy) (fuel : Nat) :
    ∀ (j : Nat) (it it1 : ThirdGraph.iterator) (r : Nat), m.Within it r → r ≤ fuel →
      ThirdGraph.iterator.advance m fuel j it = some it1 → m.Within it1 r := by
  intro j
  induction j with
  | zero =>
    intro it it1 r hw _ h
    have : it = it1 := by simpa [ThirdGraph.iterator.advance] using h
    rw [← this]
    exact hw
  | succ j ih =>
    intro it it1 r hw hf h
    rcases hw with hnone | ⟨a, cur, c, hs, hle⟩
    · have hnext : ThirdGraph.iterator.next m fuel it = none := by
        cases fuel with
        | zero => simp [ThirdGraph.iterator.next, ThirdGraph.iterator.nextLoop]
        | succ f =>
          simp [ThirdGraph.iterator.next, ThirdGraph.iterator.nextLoop, hnone, Memory.node]
      simp [ThirdGraph.iterator.advance, hnext] at h
    · rcases ThirdGraph.iterator.nextCount_spec m fuel it a cur c hs (by omega) with
        ⟨it2, k2, r2, _, hnext, _, hw2, hle2⟩
      have h2 : ThirdGraph.iterator.advance m fuel j it2 = some it1 := by
        simpa [ThirdGraph.iterator.advance, hnext] using h
      have hw3 := ih it2 it1 r2 hw2 (by omega) h2
      rcases hw3 with hnone | ⟨a3, cur3, c3, hs3, hle3⟩
      · exact Or.inl hnone
      · exact Or.inr ⟨a3, cur3, c3, hs3, by omega⟩

/-- The skip loop of the local iterator makes at most as many link steps as it gets
closer to the end of the list. -/
theorem ThirdGraph.local_iterator.skipCount_spec (m : Memory NodeDataTy EdgeDataTy) :
    ∀ (L : List Nat) (fuel : Nat) (h : NodeHandle), m.nodeList h L → L.length < fuel →
      ∃ h1 k L1, ThirdGraph.local_iterator.skipCount m fuel h = some (h1, k) ∧
        m.nodeList h1 L1 ∧ k + L1.length ≤ L.length := by
  intro L
  induction L with
  | nil =>
    intro fuel h hl hf
    obtain ⟨f, rfl⟩ : ∃ f, fuel = f + 1 := ⟨fuel - 1, by omega⟩
    have hh : h = none := hl
    subst hh
    exact ⟨none, 0, [], rfl, rfl, by simp⟩
  | cons a L ih =>
    intro fuel h hl hf
    obtain ⟨f, rfl⟩ : ∃ f, fuel = f + 1 := ⟨fuel - 1, by omega⟩
    rcases hl with ⟨hh, nd, hnd, hrest⟩
    subst hh
    cases hact : nd.active with
    | true =>
      exact ⟨some a, 0, a :: L, by simp [ThirdGraph.local_iterator.skipCount, hnd, hact],
        ⟨rfl, nd, hnd, hrest⟩, by simp⟩
    | false =>
      rcases ih f nd.nextNode hrest (by simpa using hf) with ⟨h1, k, L1, hskip, hl1, hle⟩
      exact ⟨h1, k + 1, L1, by simp [ThirdGraph.local_iterator.skipCount, hnd, hact, hskip],
        hl1, by simp only [List.length_cons]; omega⟩

/-- One increment of a local iterator on a node: it returns, after at most as many link
steps as it gets closer to the end of the list. -/
theorem ThirdGraph.local_iterator.local_nextCount_spec (m : Memory NodeDataTy EdgeDataTy)
    (fuel : Nat) (it : ThirdGraph.local_iterator) (a : Nat) (L : List Nat)
    (hl : m.nodeList it.n (a :: L)) (hf : L.length < fuel) :
    ∃ it1 k L1, ThirdGraph.local_iterator.nextCount m fuel it = some (it1, k) ∧
      ThirdGraph.local_iterator.next m fuel it = some it1 ∧
      m.nodeList it1.n L1 ∧ k + L1.length ≤ L.length + 1 := by
  rcases hl with ⟨hn, nd, hnd, hrest⟩
  rcases ThirdGraph.local_iterator.skipCount_spec m L fuel nd.nextNode hrest hf with
    ⟨h1, k, L1, hskip, hl1, hle⟩
  have hcount : ThirdGraph.local_iterator.nextCount m fuel it = some ({ n := h1 }, k + 1) := by
    simp [ThirdGraph.local_iterator.nextCount, hn, Memory.node, hnd, hskip]
  refine ⟨{ n := h1 }, k + 1, L1, hcount, ?_, hl1, by omega⟩
  rw [← ThirdGraph.local_iterator.local_nextCount_fst, hcount]
  rfl

/-- Increments keep a local iterator inside its list. -/
theorem ThirdGraph.local_iterator.advance_inside (m : Memory NodeDataTy EdgeDataTy)
    (fuel : Nat) :
    ∀ (j : Nat) (it it1 : ThirdGraph.local_iterator) (L : List Nat), m.nodeList it.n L →
      L.length ≤ fuel → ThirdGraph.local_iterator.advance m fuel j it = some it1 →
      ∃ L1, m.nodeList it1.n L1 ∧ L1.length ≤ L.length := by
  intro j
  induction j with
  | zero =>
    intro it it1 L hl _ h
    have : it = it1 := by simpa [ThirdGraph.local_iterator.advance] using h
    rw [← this]
    exact ⟨L, hl, le_refl _⟩
  | succ j ih =>
    intro it it1 L hl hf h
    cases L with
    | nil =>
      have hn : it.n = none := hl
      simp [ThirdGraph.local_iterator.advance, ThirdGraph.local_iterator.next, hn,
        Memory.node] at h
    | cons a L =>
      simp only [List.length_cons] at hf
      rcases ThirdGraph.local_iterator.local_nextCount_spec m fuel it a L hl (by omega) with
        ⟨it2, k2, L2, _, hnext, hl2, hle2⟩
      have h2 : ThirdGraph.local_iterator.advance m fuel j it2 = some it1 := by
        simpa [ThirdGraph.local_iterator.advance, hnext] using h
      rcases ih it2 it1 L2 hl2 (by omega) h2 with ⟨L3, hl3, hle3⟩
      exact ⟨L3, hl3, by simp only [List.length_cons]; omega⟩

/-- Claim C21: wire format round trip. A node is written as `nextNode`, `active`, `data`
and its edges, in this order, the edges as their number followed by `dst` and then `val`
of each; a partition state is written as `head`, `next`, `master`. The readers pull the
same fields in the same order. So, when the push and pull of every primitive field
round-trip, reading what `serialize` wrote for a node gives a node with the same
`nextNode`, `active`, `data` and edge sequence and leaves what followed in the buffer,
whatever the node read into held before; and likewise for a partition state. -/
theorem wire_format_round_trip (w : Wire NodeDataTy EdgeDataTy)
    (hh : w.handle.RoundTrips) (hf : w.flag.RoundTrips) (hd : w.data.RoundTrips)
    (hv : w.val.RoundTrips) (hc : w.count.RoundTrips) :
    (∀ (nd : GraphNode NodeDataTy EdgeDataTy) (s : Buffer),
      GraphNode.serialize w nd s =
        s ++ w.handle.push nd.nextNode ++ w.flag.push nd.active ++ w.data.push nd.data ++
          w.count.push nd.edges.length ++
          nd.edges.flatMap (fun e => w.handle.push e.dst ++ w.val.push e.val)) ∧
    (∀ (st : SubGraphState) (s : Buffer),
      SubGraphState.serialize w.handle st s =
        s ++ w.handle.push st.head ++ w.handle.push st.next ++ w.handle.push st.master) ∧
    (∀ (self : GraphNode NodeDataTy EdgeDataTy) (s : Buffer),
      GraphNode.deserialize w self s =
        (w.handle.pull s).bind (fun r1 =>
          (w.flag.pull r1.2).bind (fun r2 =>
            (w.data.pull r2.2).bind (fun r3 =>
              (w.count.pull r3.2).bind (fun r4 =>
                (gDeserializeSeq w r4.1 r4.2).map (fun r5 =>
                  ({ nextNode := r1.1, active := r2.1, data := r3.1, edges := r5.1 },
                    r5.2))))))) ∧
    (∀ s : Buffer,
      Edge.deserialize w s =
        (w.handle.pull s).bind (fun r1 =>
          (w.val.pull r1.2).map (fun r2 => ({ dst := r1.1, val := r2.1 }, r2.2)))) ∧
    (∀ s : Buffer,
      SubGraphState.deserialize w.handle s =
        (w.handle.pull s).bind (fun r1 =>
          (w.handle.pull r1.2).bind (fun r2 =>
            (w.handle.pull r2.2).map (fun r3 =>
              ({ head := r1.1, next := r2.1, master := r3.1 }, r3.2))))) ∧
    (∀ (nd self : GraphNode NodeDataTy EdgeDataTy) (rest : Buffer),
      ∃ nd1, GraphNode.deserialize w self (GraphNode.serialize w nd [] ++ rest) =
          some (nd1, rest) ∧
        nd1.nextNode = nd.nextNode ∧ nd1.active = nd.active ∧ nd1.data = nd.data ∧
        nd1.edges = nd.edges) ∧
    (∀ (st : SubGraphState) (rest : Buffer),
      ∃ st1, SubGraphState.deserialize w.handle
          (SubGraphState.serialize w.handle st [] ++ rest) = some (st1, rest) ∧
        st1.head = st.head ∧ st1.next = st.next ∧ st1.master = st.master) := by
  refine ⟨fun nd s => GraphNode.serialize_eq w nd s, fun st s => rfl,
    fun self s => GraphNode.node_read_order w self s, fun s => Edge.edge_read_order w s,
    fun s => SubGraphState.state_read_order w.handle s, ?_, ?_⟩
  · intro nd self rest
    exact ⟨nd, GraphNode.node_round_trip w hh hf hd hv hc nd self rest, rfl, rfl, rfl,
      rfl⟩
  · intro st rest
    exact ⟨st, SubGraphState.state_round_trip w.handle hh st rest, rfl, rfl, rfl⟩

/-- Witness of C21: the primitives `demoWire` (one word per number, a tag word for
handles and flags, nothing for the empty edge payload). -/
theorem wire_format_round_trip_witness :
    (∀ (nd : GraphNode Nat Unit) (s : Buffer),
      GraphNode.serialize demoWire nd s =
        s ++ demoWire.handle.push nd.nextNode ++ demoWire.flag.push nd.active ++
          demoWire.data.push nd.data ++ demoWire.count.push nd.edges.length ++
          nd.edges.flatMap (fun e => demoWire.handle.push e.dst ++ demoWire.val.push e.val)) ∧
    (∀ (st : SubGraphState) (s : Buffer),
      SubGraphState.serialize demoWire.handle st s =
        s ++ demoWire.handle.push st.head ++ demoWire.handle.push st.next ++
          demoWire.handle.push st.master) ∧
    (∀ (self : GraphNode Nat Unit) (s : Buffer),
      GraphNode.deserialize demoWire self s =
        (demoWire.handle.pull s).bind (fun r1 =>
          (demoWire.flag.pull r1.2).bind (fun r2 =>
            (demoWire.data.pull r2.2).bind (fun r3 =>
              (demoWire.count.pull r3.2).bind (fun r4 =>
                (gDeserializeSeq demoWire r4.1 r4.2).map (fun r5 =>
                  ({ nextNode := r1.1, active := r2.1, data := r3.1, edges := r5.1 },
                    r5.2))))))) ∧
    (∀ s : Buffer,
      Edge.deserialize demoWire s =
        (demoWire.handle.pull s).bind (fun r1 =>
          (demoWire.val.pull r1.2).map (fun r2 => ({ dst := r1.1, val := r2.1 }, r2.2)))) ∧
    (∀ s : Buffer,
      SubGraphState.deserialize demoWire.handle s =
        (demoWire.handle.pull s).bind (fun r1 =>
          (demoWire.handle.pull r1.2).bind (fun r2 =>
            (demoWire.handle.pull r2.2).map (fun r3 =>
              ({ head := r1.1, next := r2.1, master := r3.1 }, r3.2))))) ∧
    (∀ (nd self : GraphNode Nat Unit) (rest : Buffer),
      ∃ nd1, GraphNode.deserialize demoWire self (GraphNode.serialize demoWire nd [] ++ rest) =
          some (nd1, rest) ∧
        nd1.nextNode = nd.nextNode ∧ nd1.active = nd.active ∧ nd1.data = nd.data ∧
        nd1.edges = nd.edges) ∧
    (∀ (st : SubGraphState) (rest : Buffer),
      ∃ st1, SubGraphState.deserialize demoWire.handle
          (SubGraphState.serialize demoWire.handle st [] ++ rest) = some (st1, rest) ∧
        st1.head = st.head ∧ st1.next = st.next ∧ st1.master = st.master) :=
  wire_format_round_trip demoWire
    (by intro x rest; cases x <;> rfl) (by intro x rest; cases x <;> rfl)
    (by intro x rest; rfl) (by intro x rest; rfl) (by intro x rest; rfl)

/-- Claim C24: reactivation restores incoming edges but not outgoing ones. Let `B` be an
active node and `S` another node whose stored destination handles refer to nodes. Then
`removeNode(B)` and `addNode(B)` succeed; the traversal `edge_begin(S)..edge_end(S)`
returns after them the same edge sequence as before the removal, which holds every edge
of `S` to `B` (between the two calls it holds none of them); and `B` is active again
with the same data, an empty edge collection and an empty edge traversal. -/
theorem reactivation_restores_incoming_edges (m : Memory NodeDataTy EdgeDataTy) (b s : Nat)
    (ndB ndS : GraphNode NodeDataTy EdgeDataTy) (fuel : Nat)
    (hB : m.node (some b) = some ndB) (hact : ndB.active = true)
    (hS : m.node (some s) = some ndS) (hsb : s ≠ b) (hv : m.dstValid ndS.edges)
    (hf : ndS.edges.length + 1 ≤ fuel) :
    ∃ m1 m2 es, ThirdGraph.removeNode (some b) m = some m1 ∧
      ThirdGraph.addNode (some b) m1 = some m2 ∧
      ThirdGraph.edges (some s) m fuel = some es ∧
      ThirdGraph.edges (some s) m2 fuel = some es ∧
      es = ndS.edges.filter m.edgeLive ∧
      (∀ e ∈ ndS.edges, e.dst = some b → e ∈ es) ∧
      (∃ es1, ThirdGraph.edges (some s) m1 fuel = some es1 ∧
        ∀ e ∈ ndS.edges, e.dst = some b → e ∉ es1) ∧
      m2.node (some s) = some ndS ∧
      m2.node (some b) = some { ndB with edges := [] } ∧
      ThirdGraph.edges (some b) m2 fuel = some [] := by
  have hB0 : m.nodes[b]? = some ndB := by simpa [Memory.node] using hB
  have hS0 : m.nodes[s]? = some ndS := by simpa [Memory.node] using hS
  rcases ThirdGraph.remove_then_add m b ndB hB0 hact with ⟨m1, hrem, hadd⟩
  have hactive : ∀ k, Memory.isActive
      { nodes := m.nodes.set b { ndB with edges := [] }, states := m.states } k =
        m.isActive k := by
    intro k
    rw [Memory.isActive_set m b k ndB _ hB0]
    by_cases hk : b = k
    · subst hk
      simp [Memory.isActive, hB0, hact]
    · simp [hk]
  have hlive := Memory.edgeLive_congr m _ hactive
  have hS2 : Memory.node
      { nodes := m.nodes.set b { ndB with edges := [] }, states := m.states } (some s) =
        some ndS := by
    simp only [Memory.node]
    rw [List.getElem?_set_ne (fun h => hsb h.symm)]
    exact hS0
  have hB2 : Memory.node
      { nodes := m.nodes.set b { ndB with edges := [] }, states := m.states } (some b) =
        some { ndB with edges := [] } := by
    simp only [Memory.node]
    exact getElem?_set_self_of_some hB0
  have hv2 : Memory.dstValid
      { nodes := m.nodes.set b { ndB with edges := [] }, states := m.states } ndS.edges :=
    Memory.dstValid_of_length m _ ndS.edges (by simp) hv
  rcases ThirdGraph.edges_after_removeNode m m1 s b ndS hsb hS0 hv hrem with
    ⟨hS1, hv1, hdead⟩
  refine ⟨m1, _, ndS.edges.filter m.edgeLive, hrem, hadd,
    ThirdGraph.edges_eq m (some s) ndS fuel hS hv hf, ?_, rfl, ?_, ?_, hS2, hB2, ?_⟩
  · rw [ThirdGraph.edges_eq _ (some s) ndS fuel hS2 hv2 hf, hlive]
  · intro e he hdst
    refine List.mem_filter.mpr ⟨he, ?_⟩
    rw [Memory.edgeLive_eq, hdst]
    simp [Memory.isActive, hB0, hact]
  · refine ⟨_, ThirdGraph.edges_eq m1 (some s) ndS fuel (by simpa [Memory.node] using hS1)
      hv1 hf, ?_⟩
    intro e he hdst hmem
    have := (List.mem_filter.mp hmem).2
    rw [hdead e he hdst] at this
    exact absurd this (by simp)
  · exact ThirdGraph.edges_eq _ (some b) _ fuel hB2 (by intro e he; simp at he) (by simp; omega)

/-- Witness of C24: in `demoMemory` node 2 is active and node 0 holds an edge to it. -/
theorem reactivation_restores_incoming_edges_witness :
    ∃ m1 m2 es, ThirdGraph.removeNode (some 2) demoMemory = some m1 ∧
      ThirdGraph.addNode (some 2) m1 = some m2 ∧
      ThirdGraph.edges (some 0) demoMemory 3 = some es ∧
      ThirdGraph.edges (some 0) m2 3 = some es ∧
      es = ([{ dst := some 1, val := () }, { dst := some 2, val := () }] :
        List (Edge Unit)).filter demoMemory.edgeLive ∧
      (∀ e ∈ ([{ dst := some 1, val := () }, { dst := some 2, val := () }] :
        List (Edge Unit)), e.dst = some 2 → e ∈ es) ∧
      (∃ es1, ThirdGraph.edges (some 0) m1 3 = some es1 ∧
        ∀ e ∈ ([{ dst := some 1, val := () }, { dst := some 2, val := () }] :
          List (Edge Unit)), e.dst = some 2 → e ∉ es1) ∧
      m2.node (some 0) = some
        { nextNode := none, active := true, data := 10,
          edges := [{ dst := some 1, val := () }, { dst := some 2, val := () }] } ∧
      m2.node (some 2) = some { nextNode := some 1, active := true, data := 12, edges := [] } ∧
      ThirdGraph.edges (some 2) m2 3 = some [] :=
  reactivation_restores_incoming_edges demoMemory 2 0
    { nextNode := some 1, active := true, data := 12, edges := [] }
    { nextNode := none, active := true, data := 10,
      edges := [{ dst := some 1, val := () }, { dst := some 2, val := () }] } 3 rfl rfl rfl
    (by decide)
    (by
      intro e he
      simp only [List.mem_cons, List.mem_singleton, List.not_mem_nil, or_false] at he
      rcases he with rfl | rfl
      · exact ⟨_, rfl⟩
      · exact ⟨_, rfl⟩)
    (by decide)

/-- Claim C22: iteration terminates. In a container reached from the constructor for `n`
workers by `createNode`, `addNode`, `removeNode` and `addEdge` calls, the node list of
every partition ends in a null link, the partition chain from slot 0 runs through the
`n` slots and ends in a null link, and no node occurs twice in the lists, which hold all
the nodes of the memory. So for every worker: `begin()` returns after at most (number of
nodes + `n`) link steps; `++` on every iterator reached from `begin()` by increments and
different from `end()` returns within the same bound; `size()` returns, the link steps
of `begin()` and of all its increments together staying within the bound; and `++` on
every local iterator reached from `local_begin()` and different from `local_end()`
returns within the bound. -/
theorem iteration_terminates [Inhabited EdgeDataTy] (n : Nat)
    (ops : List (ThirdGraph.Op NodeDataTy)) (g : ThirdGraph)
    (m : Memory NodeDataTy EdgeDataTy) (tid fuel : Nat)
    (hr : ThirdGraph.ReachedBy n ops g m) (htid : tid < n)
    (hf : m.nodes.length + n + 1 ≤ fuel) :
    (∃ Ls : Nat → List Nat,
      (∀ i, i < n → ∃ st, m.state (g.getLocal i) = some st ∧ m.nodeList st.head (Ls i)) ∧
      m.chain (g.getLocal 0) ((List.range n).map (fun i => (g.localState + i, Ls i))) ∧
      ((List.range n).flatMap Ls).Nodup ∧
      ((List.range n).flatMap Ls).length = m.nodes.length) ∧
    (∃ b k, g.beginCount tid m fuel = some (b, k) ∧ g.begin tid m fuel = some b ∧
      k ≤ m.nodes.length + n ∧
      ∀ j it, ThirdGraph.iterator.advance m fuel j b = some it → it.n ≠ none →
        ∃ it1 k1, ThirdGraph.iterator.nextCount m fuel it = some (it1, k1) ∧
          ThirdGraph.iterator.next m fuel it = some it1 ∧ k1 ≤ m.nodes.length + n) ∧
    (∃ v k, g.sizeCount tid m fuel = some (v, k) ∧ g.size tid m fuel = some v ∧
      k ≤ m.nodes.length + n) ∧
    (∃ lb, g.local_begin tid m = some lb ∧
      ∀ j it, ThirdGraph.local_iterator.advance m fuel j lb = some it → it.n ≠ none →
        ∃ it1 k1, ThirdGraph.local_iterator.nextCount m fuel it = some (it1, k1) ∧
          ThirdGraph.local_iterator.next m fuel it = some it1 ∧
          k1 ≤ m.nodes.length + n) := by
  rcases ThirdGraph.shaped_reached n ops g m hr with ⟨hn, Ls, hs⟩
  subst hn
  have hpos : 0 < g.numThreads := by omega
  rcases ThirdGraph.state_of_shaped g m Ls hs tid htid with ⟨st, hst, hmaster, hlist⟩
  have hchain := ThirdGraph.chain_of_shaped g m Ls hs g.numThreads 0 (by simp)
  simp only [hpos, if_true, ← List.range_eq_range'] at hchain
  have hne : (List.range g.numThreads).map (fun i => (i, Ls i)) ≠ [] := by
    intro h
    have := congrArg List.length h
    simp at this
    omega
  have hlinks : chainLinks ((List.range g.numThreads).map (fun i => (i, Ls i))) =
      m.nodes.length + g.numThreads := by
    rw [chainLinks_map, hs.owns.length_eq]
    simp
  have hlocal : (Ls tid).length ≤ m.nodes.length := by
    have h1 := length_le_flatMap Ls (List.range g.numThreads) tid (List.mem_range.mpr htid)
    rw [hs.owns.length_eq] at h1
    simpa using h1
  rcases ThirdGraph.iterator.newCount_spec m st.master _ fuel (by rw [hmaster]; exact hchain)
    hne (by omega) with ⟨b, k, r, hcount, hnew, hw, hle⟩
  have hbc : g.beginCount tid m fuel = some (b, k) := by
    simp [ThirdGraph.beginCount, hst, hcount]
  have hb : g.begin tid m fuel = some b := by
    simp [ThirdGraph.begin, hst, hnew]
  refine ⟨⟨Ls, ?_, ?_, ?_, ?_⟩, ⟨b, k, hbc, hb, by omega, ?_⟩, ?_, ?_⟩
  · intro i hi
    rcases ThirdGraph.state_of_shaped g m Ls hs i hi with ⟨sti, hsti, _, hli⟩
    exact ⟨sti, hsti, hli⟩
  · simpa [ThirdGraph.getLocal, hpos, hs.base] using hchain
  · exact hs.owns.nodup_iff.mpr (List.nodup_range _)
  · rw [hs.owns.length_eq]
    simp
  · intro j it hadv hnn
    rcases ThirdGraph.iterator.advance_within m fuel j b it r hw (by omega) hadv with
      hnone | ⟨a, cur, c, hsit, hleit⟩
    · exact absurd hnone hnn
    · rcases ThirdGraph.iterator.nextCount_spec m fuel it a cur c hsit (by omega) with
        ⟨it1, k1, r1, hc1, hn1, _, _, hle1⟩
      exact ⟨it1, k1, hc1, hn1, by omega⟩
  · rcases ThirdGraph.iterator.distanceCount_spec m fuel b r hw (by omega) with
      ⟨d, k2, hd, hk2⟩
    have hsc : g.sizeCount tid m fuel = some (toUnsigned d, k + k2) := by
      simp [ThirdGraph.sizeCount, hbc, hd]
    refine ⟨toUnsigned d, k + k2, hsc, ?_, by omega⟩
    rw [← ThirdGraph.sizeCount_fst, hsc]
    rfl
  · refine ⟨{ n := st.head }, by simp [ThirdGraph.local_begin, hst], ?_⟩
    intro j it hadv hnn
    rcases ThirdGraph.local_iterator.advance_inside m fuel j { n := st.head } it (Ls tid)
      hlist (by omega) hadv with ⟨L1, hl1, hle1⟩
    cases L1 with
    | nil => exact absurd hl1 hnn
    | cons a L2 =>
      simp only [List.length_cons] at hle1
      rcases ThirdGraph.local_iterator.local_nextCount_spec m fuel it a L2 hl1 (by omega) with
        ⟨it1, k1, L3, hc1, hn1, _, hle3⟩
      exact ⟨it1, k1, hc1, hn1, by omega⟩

/-- Witness of C22: worker 1 of `demoGraph` in `demoMemory` (four nodes, two
partitions). -/
theorem iteration_terminates_witness :
    (∃ Ls : Nat → List Nat,
      (∀ i, i < 2 → ∃ st, demoMemory.state (demoGraph.getLocal i) = some st ∧
        demoMemory.nodeList st.head (Ls i)) ∧
      demoMemory.chain (demoGraph.getLocal 0)
        ((List.range 2).map (fun i => (demoGraph.localState + i, Ls i))) ∧
      ((List.range 2).flatMap Ls).Nodup ∧
      ((List.range 2).flatMap Ls).length = demoMemory.nodes.length) ∧
    (∃ b k, demoGraph.beginCount 1 demoMemory 7 = some (b, k) ∧
      demoGraph.begin 1 demoMemory 7 = some b ∧ k ≤ demoMemory.nodes.length + 2 ∧
      ∀ j it, ThirdGraph.iterator.advance demoMemory 7 j b = some it → it.n ≠ none →
        ∃ it1 k1, ThirdGraph.iterator.nextCount demoMemory 7 it = some (it1, k1) ∧
          ThirdGraph.iterator.next demoMemory 7 it = some it1 ∧
          k1 ≤ demoMemory.nodes.length + 2) ∧
    (∃ v k, demoGraph.sizeCount 1 demoMemory 7 = some (v, k) ∧
      demoGraph.size 1 demoMemory 7 = some v ∧ k ≤ demoMemory.nodes.length + 2) ∧
    (∃ lb, demoGraph.local_begin 1 demoMemory = some lb ∧
      ∀ j it, ThirdGraph.local_iterator.advance demoMemory 7 j lb = some it → it.n ≠ none →
        ∃ it1 k1, ThirdGraph.local_iterator.nextCount demoMemory 7 it = some (it1, k1) ∧
          ThirdGraph.local_iterator.next demoMemory 7 it = some it1 ∧
          k1 ≤ demoMemory.nodes.length + 2) :=
  iteration_terminates 2 demoOps demoGraph demoMemory 1 7 ⟨demoFresh, rfl, rfl⟩
    (by decide) (by decide)

/-- Claim C23: single membership. In a container reached from the constructor for `n`
workers by the calls `ops` (`createNode`, `addNode`, `removeNode`, `addEdge`), the nodes
in memory are the nodes created, node `k` by the worker of the `k`-th `createNode` call,
and the node list of every worker is the list of the nodes it created, the latest first.
Hence every node occurs exactly once in the list of the worker that created it and in no
other list; the lists have no duplicates and are pairwise disjoint; and after any
further calls the list of every worker ends with its former list, so no list gets
shorter. -/
theorem single_membership [Inhabited EdgeDataTy] (n : Nat)
    (ops : List (ThirdGraph.Op NodeDataTy)) (g : ThirdGraph)
    (m : Memory NodeDataTy EdgeDataTy) (hr : ThirdGraph.ReachedBy n ops g m) :
    m.nodes.length = (ThirdGraph.creators ops).length ∧
    (∀ pre tid d post, ops = pre ++ ThirdGraph.Op.createNode tid d :: post →
      ∃ m0 m1 m2, ThirdGraph.new n (Memory.empty : Memory NodeDataTy EdgeDataTy) = some (g, m0) ∧
        ThirdGraph.run g pre m0 = some m1 ∧
        g.createNode tid d m1 = some (some (ThirdGraph.creators pre).length, m2) ∧
        (ThirdGraph.creators ops)[(ThirdGraph.creators pre).length]? = some tid) ∧
    (∀ w, w < n → ∃ st, m.state (g.getLocal w) = some st ∧
      m.nodeList st.head (ThirdGraph.createdBy ops w)) ∧
    (∀ k, k < m.nodes.length → ∃ w, (ThirdGraph.creators ops)[k]? = some w ∧ w < n ∧
      (ThirdGraph.createdBy ops w).count k = 1 ∧
      ∀ v, v ≠ w → k ∉ ThirdGraph.createdBy ops v) ∧
    (∀ w, (ThirdGraph.createdBy ops w).Nodup) ∧
    (∀ v w, v ≠ w → List.Disjoint (ThirdGraph.createdBy ops v) (ThirdGraph.createdBy ops w)) ∧
    (∀ (more : List (ThirdGraph.Op NodeDataTy)) (m1 : Memory NodeDataTy EdgeDataTy),
      ThirdGraph.run g more m = some m1 → ∀ w, w < n →
        ∃ st1, m1.state (g.getLocal w) = some st1 ∧
          m1.nodeList st1.head (ThirdGraph.createdBy (ops ++ more) w) ∧
          ThirdGraph.createdBy ops w <:+ ThirdGraph.createdBy (ops ++ more) w ∧
          (ThirdGraph.createdBy ops w).length ≤
            (ThirdGraph.createdBy (ops ++ more) w).length) := by
  have hn : g.numThreads = n := (ThirdGraph.shaped_reached n ops g m hr).1
  rcases ThirdGraph.reached_createdBy n g ops m hr with ⟨hlen, hs, hlt⟩
  have hlists : ∀ (ops1 : List (ThirdGraph.Op NodeDataTy)) (m1 : Memory NodeDataTy EdgeDataTy),
      ThirdGraph.ReachedBy n ops1 g m1 → ∀ w, w < n →
        ∃ st, m1.state (g.getLocal w) = some st ∧
          m1.nodeList st.head (ThirdGraph.createdBy ops1 w) := by
    intro ops1 m1 hr1 w hw
    rcases ThirdGraph.reached_createdBy n g ops1 m1 hr1 with ⟨_, hs1, _⟩
    rcases ThirdGraph.state_of_shaped g m1 _ hs1 w (by omega) with ⟨st, hst, _, hl⟩
    exact ⟨st, hst, hl⟩
  refine ⟨hlen, ?_, hlists ops m hr, ?_, fun w => ThirdGraph.createdBy_nodup ops w, ?_, ?_⟩
  · intro pre tid d post hops
    rcases hr with ⟨m0, hnew, hrun⟩
    rw [hops, ThirdGraph.run_append] at hrun
    cases hpre : ThirdGraph.run g pre m0 with
    | none => simp [hpre] at hrun
    | some m1 =>
      rw [hpre] at hrun
      cases hc : g.createNode tid d m1 with
      | none => simp [ThirdGraph.run, ThirdGraph.step, hc] at hrun
      | some r =>
        rcases r with ⟨N, m2⟩
        rcases ThirdGraph.createNode_some g tid d m1 m2 N hc with ⟨_, _, _, hN, _⟩
        have hlen1 := (ThirdGraph.reached_createdBy n g pre m1 ⟨m0, hnew, hpre⟩).1
        refine ⟨m0, m1, m2, hnew, hpre, by rw [hc, hN, hlen1], ?_⟩
        rw [hops, ThirdGraph.creators_append,
          List.getElem?_append_right (le_refl _)]
        simp [ThirdGraph.creators]
  · intro k hk
    rcases getElem?_some_of_lt (ThirdGraph.creators ops) k (by omega) with ⟨w, hw⟩
    refine ⟨w, hw, hlt w (List.mem_iff_getElem?.mpr ⟨k, hw⟩), ?_, ?_⟩
    · exact List.count_eq_one_of_mem (ThirdGraph.createdBy_nodup ops w)
        ((ThirdGraph.mem_createdBy ops w k).mpr hw)
    · intro v hv hmem
      have hv1 := (ThirdGraph.mem_createdBy ops v k).mp hmem
      rw [hw] at hv1
      exact hv (Option.some.inj hv1).symm
  · intro v w hvw k hk1 hk2
    have h1 := (ThirdGraph.mem_createdBy ops v k).mp hk1
    have h2 := (ThirdGraph.mem_createdBy ops w k).mp hk2
    rw [h1] at h2
    exact hvw (Option.some.inj h2)
  · intro more m1 hrun w hw
    have hr1 : ThirdGraph.ReachedBy n (ops ++ more) g m1 := by
      rcases hr with ⟨m0, hnew, hrun0⟩
      refine ⟨m0, hnew, ?_⟩
      rw [ThirdGraph.run_append, hrun0]
      exact hrun
    rcases hlists (ops ++ more) m1 hr1 w hw with ⟨st1, hst1, hl1⟩
    exact ⟨st1, hst1, hl1, ThirdGraph.createdBy_suffix ops w more,
      (ThirdGraph.createdBy_suffix ops w more).length_le⟩

/-- Witness of C23: `demoGraph` after `demoOps`. -/
theorem single_membership_witness :
    demoMemory.nodes.length = (ThirdGraph.creators demoOps).length ∧
    (∀ pre tid d post, demoOps = pre ++ ThirdGraph.Op.createNode tid d :: post →
      ∃ m0 m1 m2, ThirdGraph.new 2 (Memory.empty : Memory Nat Unit) = some (demoGraph, m0) ∧
        ThirdGraph.run demoGraph pre m0 = some m1 ∧
        demoGraph.createNode tid d m1 = some (some (ThirdGraph.creators pre).length, m2) ∧
        (ThirdGraph.creators demoOps)[(ThirdGraph.creators pre).length]? = some tid) ∧
    (∀ w, w < 2 → ∃ st, demoMemory.state (demoGraph.getLocal w) = some st ∧
      demoMemory.nodeList st.head (ThirdGraph.createdBy demoOps w)) ∧
    (∀ k, k < demoMemory.nodes.length → ∃ w, (ThirdGraph.creators demoOps)[k]? = some w ∧
      w < 2 ∧ (ThirdGraph.createdBy demoOps w).count k = 1 ∧
      ∀ v, v ≠ w → k ∉ ThirdGraph.createdBy demoOps v) ∧
    (∀ w, (ThirdGraph.createdBy demoOps w).Nodup) ∧
    (∀ v w, v ≠ w →
      List.Disjoint (ThirdGraph.createdBy demoOps v) (ThirdGraph.createdBy demoOps w)) ∧
    (∀ (more : List (ThirdGraph.Op Nat)) (m1 : Memory Nat Unit),
      ThirdGraph.run demoGraph more demoMemory = some m1 → ∀ w, w < 2 →
        ∃ st1, m1.state (demoGraph.getLocal w) = some st1 ∧
          m1.nodeList st1.head (ThirdGraph.createdBy (demoOps ++ more) w) ∧
          ThirdGraph.createdBy demoOps w <:+ ThirdGraph.createdBy (demoOps ++ more) w ∧
          (ThirdGraph.createdBy demoOps w).length ≤
            (ThirdGraph.createdBy (demoOps ++ more) w).length) :=
  single_membership 2 demoOps demoGraph demoMemory ⟨demoFresh, rfl, rfl⟩

/-! ## Size and the per-worker counts -/

theorem length_filter_flatMap (p : Nat → Bool) (f : Nat → List Nat) :
    ∀ (l : List Nat),
      ((l.flatMap f).filter p).length = (l.map (fun w => ((f w).filter p).length)).sum := by
  intro l
  induction l with
  | nil => rfl
  | cons x l ih =>
    simp only [List.flatMap_cons, List.filter_append, List.length_append, List.map_cons,
      List.sum_cons, ih]

/-- In a shaped container every worker's count `std::distance(local_begin(), local_end())`
is the number of active nodes of its list, the counts add up to the number of active
nodes, and `size()` and `ThirdGraphSize` both return that number modulo 2^32. -/
theorem ThirdGraph.size_consistency_shaped (g : ThirdGraph)
    (m : Memory NodeDataTy EdgeDataTy) (Ls : Nat → List Nat) (hs : g.Shaped m Ls)
    (tid fuel : Nat) (htid : tid < g.numThreads)
    (hf : m.nodes.length + g.numThreads + 1 ≤ fuel) :
    (∀ w, w < g.numThreads → ∃ st b, m.state (g.getLocal w) = some st ∧
      m.nodeList st.head (Ls w) ∧ g.local_begin w m = some b ∧
      b.distance m fuel ThirdGraph.local_end = some ((Ls w).filter m.isActive).length ∧
      ((∀ a, (Ls w).head? = some a → m.isActive a = true) →
        b.toList m fuel = some ((Ls w).filter m.isActive))) ∧
    ((List.range g.numThreads).map (fun w => ((Ls w).filter m.isActive).length)).sum =
      m.activeCount ∧
    g.size tid m fuel = some (m.activeCount % 2 ^ 32) ∧
    ThirdGraphSize g m fuel = some (m.activeCount % 2 ^ 32) := by
  refine ⟨?_, ?_, ?_, ?_⟩
  · intro w hw
    rcases ThirdGraph.state_of_shaped g m Ls hs w hw with ⟨st, hst, _, hl⟩
    have hlen : (Ls w).length ≤ m.nodes.length := by
      have h1 := length_le_flatMap Ls (List.range g.numThreads) w (List.mem_range.mpr hw)
      rw [hs.owns.length_eq] at h1
      simpa using h1
    rcases ThirdGraph.local_distance_spec g m w st (Ls w) fuel hst hl (by omega) with
      ⟨b, hb, hdist⟩
    have key : ∀ L : List Nat, m.nodeList st.head L → L.length + 1 ≤ fuel →
        (∀ a, L.head? = some a → m.isActive a = true) →
        ∃ b1, g.local_begin w m = some b1 ∧ b1.toList m fuel = some (L.filter m.isActive) := by
      intro L hL hfL hhead
      rcases ThirdGraph.local_toList_spec g m w st L fuel hst hL hfL with ⟨b1, hb1, _, hlist⟩
      refine ⟨b1, hb1, ?_⟩
      cases L with
      | nil => simpa using hlist
      | cons a rest =>
        have ha : m.isActive a = true := hhead a rfl
        simpa [ha] using hlist
    refine ⟨st, b, hst, hl, hb, hdist, ?_⟩
    intro hhead
    rcases key (Ls w) hl (by omega) hhead with ⟨b1, hb1, hlist⟩
    have hbb : b1 = b := by
      rw [hb] at hb1
      exact (Option.some.inj hb1).symm
    rw [← hbb]
    exact hlist
  · rw [← length_filter_flatMap, (List.Perm.filter _ hs.owns).length_eq,
      Memory.activeCount_eq]
  · rcases ThirdGraph.globalNodes_count g m Ls hs tid fuel htid hf with ⟨_, _, _, hsize⟩
    exact hsize
  · exact ThirdGraphSize_shaped g m Ls hs fuel hf

theorem Memory.isActive_of_all (m : Memory NodeDataTy EdgeDataTy)
    (h : m.activeCount = m.nodes.length) (k : Nat) (hk : k < m.nodes.length) :
    m.isActive k = true := by
  have hall := List.countP_eq_length.mp h
  rcases getElem?_some_of_lt m.nodes k hk with ⟨nd, hnd⟩
  rw [Memory.isActive_of_get hnd]
  exact hall nd (List.mem_iff_getElem?.mpr ⟨k, hnd⟩)

/-- In a shaped container whose nodes are all active, the local traversal of every worker
visits its whole list, and the lists together hold every node. -/
theorem ThirdGraph.local_visits_all_active (g : ThirdGraph)
    (m : Memory NodeDataTy EdgeDataTy) (Ls : Nat → List Nat) (hs : g.Shaped m Ls)
    (hall : m.activeCount = m.nodes.length) (fuel : Nat)
    (hf : m.nodes.length + g.numThreads + 1 ≤ fuel) :
    (∀ w, w < g.numThreads → ∃ b, g.local_begin w m = some b ∧
      b.toList m fuel = some (Ls w)) ∧
    ((List.range g.numThreads).map (fun w => (Ls w).length)).sum = m.nodes.length := by
  have hact : ∀ w, w < g.numThreads → ∀ a ∈ Ls w, m.isActive a = true := by
    intro w hw a ha
    have hmem : a ∈ (List.range g.numThreads).flatMap Ls :=
      List.mem_flatMap.mpr ⟨w, List.mem_range.mpr hw, ha⟩
    have hlt : a < m.nodes.length := List.mem_range.mp (hs.owns.mem_iff.mp hmem)
    exact Memory.isActive_of_all m hall a hlt
  refine ⟨?_, ?_⟩
  · intro w hw
    by_cases htid : 0 < g.numThreads
    · rcases (ThirdGraph.size_consistency_shaped g m Ls hs 0 fuel htid hf).1 w hw with
        ⟨st, b, _, _, hb, _, hlist⟩
      refine ⟨b, hb, ?_⟩
      rw [hlist (fun a ha => hact w hw a (List.mem_of_mem_head? ha))]
      congr 1
      exact List.filter_eq_self.mpr (fun a ha => hact w hw a ha)
    · omega
  · have h := length_filter_flatMap (fun _ => true) Ls (List.range g.numThreads)
    simp only [List.filter_true] at h
    rw [← h, hs.owns.length_eq]
    simp

/-- Counterexample to C9 as stated, at two states of a two-worker container. After
worker 0 has created and activated 4294967296 nodes, the local traversals of the two
workers visit 4294967296 nodes in all, while `size()` and `ThirdGraphSize`, both of type
`unsigned`, return 0. After worker 0 has created one node and not activated it, the
local traversal of worker 0 visits that node and the one of worker 1 visits nothing, one
node in all, while `size()` and `ThirdGraphSize` return 0. -/
theorem size_differs_from_local_visits :
    (∃ (g : ThirdGraph) (m : Memory Unit Unit) (b0 b1 : ThirdGraph.local_iterator)
        (xs0 xs1 : List Nat),
      ThirdGraph.ReachedBy 2 (ThirdGraph.fillOps 4294967296) g m ∧
      g.size 0 m 4294967299 = some 0 ∧ ThirdGraphSize g m 4294967299 = some 0 ∧
      g.local_begin 0 m = some b0 ∧ b0.toList m 4294967299 = some xs0 ∧
      g.local_begin 1 m = some b1 ∧ b1.toList m 4294967299 = some xs1 ∧
      xs0.length + xs1.length = 4294967296) ∧
    (ThirdGraph.ReachedBy 2 [ThirdGraph.Op.createNode 0 10] demoGraph pendingMemory ∧
      demoGraph.size 0 pendingMemory 4 = some 0 ∧
      ThirdGraphSize demoGraph pendingMemory 4 = some 0 ∧
      demoGraph.local_begin 0 pendingMemory = some { n := some 0 } ∧
      ThirdGraph.local_iterator.toList pendingMemory 4 { n := some 0 } = some [0] ∧
      demoGraph.local_begin 1 pendingMemory = some { n := none } ∧
      ThirdGraph.local_iterator.toList pendingMemory 4 { n := none } = some []) := by
  refine ⟨?_, ⟨demoFresh, rfl, rfl⟩, rfl, rfl, rfl, rfl, rfl, rfl⟩
  obtain ⟨m0, hnew⟩ : ∃ m0, ThirdGraph.new 2 (Memory.empty : Memory Unit Unit) =
      some ({ localState := 0, numThreads := 2 }, m0) := ⟨_, rfl⟩
  rcases ThirdGraph.shaped_new 2 _ m0 hnew with ⟨_, hnodes0, hs0⟩
  rcases ThirdGraph.run_fillOps _ m0 _ hs0 (by decide) hnodes0 4294967296 with
    ⟨m, hrun, hlen, hcount⟩
  rcases ThirdGraph.shaped_run _ _ m0 m _ hs0 hrun with ⟨Ls, hs⟩
  have hf : m.nodes.length + (ThirdGraph.mk 0 2).numThreads + 1 ≤ 4294967299 := by
    rw [hlen]
    decide
  rcases ThirdGraph.size_consistency_shaped _ m Ls hs 0 4294967299 (by decide) hf with
    ⟨_, _, hsize, hsum⟩
  rcases ThirdGraph.local_visits_all_active _ m Ls hs (by rw [hcount, hlen]) 4294967299 hf
    with ⟨hvisit, htotal⟩
  rcases hvisit 0 (by decide) with ⟨b0, hb0, hx0⟩
  rcases hvisit 1 (by decide) with ⟨b1, hb1, hx1⟩
  refine ⟨_, m, b0, b1, Ls 0, Ls 1, ⟨m0, hnew, hrun⟩, ?_, ?_, hb0, hx0, hb1, hx1, ?_⟩
  · rw [hsize, hcount]
    rfl
  · rw [hsum, hcount]
    rfl
  · rw [← hlen, ← htotal]
    simp [List.range_succ]

/-- Claim C9, amended: size consistency. In every state of a container reached from the
constructor by `createNode`, `addNode`, `removeNode` and `addEdge` calls (for any number
of workers, so also for two or more, and any number of active nodes), every worker's
count `std::distance(local_begin(), local_end())` is the number of active nodes of its
own list, and it is the number of nodes its local traversal visits when the list is
empty or starts with an active node. These counts add up to the number of active nodes,
and `size()` and the size-reduction helper `ThirdGraphSize` both return this sum modulo
2^32, so the same value, which is the sum itself when fewer than 2^32 nodes are
active. -/
theorem size_consistency [Inhabited EdgeDataTy] (n : Nat)
    (ops : List (ThirdGraph.Op NodeDataTy)) (g : ThirdGraph)
    (m : Memory NodeDataTy EdgeDataTy) (tid fuel : Nat)
    (hr : ThirdGraph.ReachedBy n ops g m) (htid : tid < n)
    (hf : m.nodes.length + n + 1 ≤ fuel) :
    ∃ Ls : Nat → List Nat,
      (∀ w, w < n → ∃ st b, m.state (g.getLocal w) = some st ∧
        m.nodeList st.head (Ls w) ∧ g.local_begin w m = some b ∧
        b.distance m fuel ThirdGraph.local_end = some ((Ls w).filter m.isActive).length ∧
        ((∀ a, (Ls w).head? = some a → m.isActive a = true) →
          ∃ xs, b.toList m fuel = some xs ∧ xs = (Ls w).filter m.isActive ∧
            b.distance m fuel ThirdGraph.local_end = some xs.length)) ∧
      ((List.range n).map (fun w => ((Ls w).filter m.isActive).length)).sum =
        m.activeCount ∧
      g.size tid m fuel =
        some (((List.range n).map (fun w => ((Ls w).filter m.isActive).length)).sum %
          2 ^ 32) ∧
      ThirdGraphSize g m fuel =
        some (((List.range n).map (fun w => ((Ls w).filter m.isActive).length)).sum %
          2 ^ 32) ∧
      g.size tid m fuel = ThirdGraphSize g m fuel ∧
      (m.activeCount < 2 ^ 32 →
        g.size tid m fuel = some m.activeCount ∧
        ThirdGraphSize g m fuel = some m.activeCount) := by
  rcases ThirdGraph.shaped_reached n ops g m hr with ⟨hn, Ls, hs⟩
  subst hn
  rcases ThirdGraph.size_consistency_shaped g m Ls hs tid fuel htid hf with
    ⟨hloc, hsum, hsize, htgs⟩
  refine ⟨Ls, ?_, hsum, by rw [hsum]; exact hsize, by rw [hsum]; exact htgs,
    by rw [hsize, htgs], ?_⟩
  · intro w hw
    rcases hloc w hw with ⟨st, b, hst, hl, hb, hdist, hlist⟩
    exact ⟨st, b, hst, hl, hb, hdist, fun hhead => ⟨_, hlist hhead, rfl, hdist⟩⟩
  · intro hlt
    rw [hsize, htgs, Nat.mod_eq_of_lt hlt]
    exact ⟨rfl, rfl⟩

/-- Witness of C9: the two-worker container reached by `demoOps`, with three active
nodes spread over both workers and an inactive node inside the list of worker 0. -/
theorem size_consistency_witness :
    ∃ Ls : Nat → List Nat,
      (∀ w, w < 2 → ∃ st b, demoMemory.state (demoGraph.getLocal w) = some st ∧
        demoMemory.nodeList st.head (Ls w) ∧ demoGraph.local_begin w demoMemory = some b ∧
        b.distance demoMemory 7 ThirdGraph.local_end =
          some ((Ls w).filter demoMemory.isActive).length ∧
        ((∀ a, (Ls w).head? = some a → demoMemory.isActive a = true) →
          ∃ xs, b.toList demoMemory 7 = some xs ∧ xs = (Ls w).filter demoMemory.isActive ∧
            b.distance demoMemory 7 ThirdGraph.local_end = some xs.length)) ∧
      ((List.range 2).map (fun w => ((Ls w).filter demoMemory.isActive).length)).sum =
        demoMemory.activeCount ∧
      demoGraph.size 0 demoMemory 7 =
        some (((List.range 2).map
          (fun w => ((Ls w).filter demoMemory.isActive).length)).sum % 2 ^ 32) ∧
      ThirdGraphSize demoGraph demoMemory 7 =
        some (((List.range 2).map
          (fun w => ((Ls w).filter demoMemory.isActive).length)).sum % 2 ^ 32) ∧
      demoGraph.size 0 demoMemory 7 = ThirdGraphSize demoGraph demoMemory 7 ∧
      (demoMemory.activeCount < 2 ^ 32 →
        demoGraph.size 0 demoMemory 7 = some demoMemory.activeCount ∧
        ThirdGraphSize demoGraph demoMemory 7 = some demoMemory.activeCount) :=
  size_consistency 2 demoOps demoGraph demoMemory 0 7 ⟨demoFresh, rfl, rfl⟩
    (by decide) (by decide)

end Galois.Graph
